import Mathlib

/-!
Verification of the text-reflow engine of `b4 ai style` (`src/b4/style.py`).

The engine is embedded shallowly over `List Char`.  Strings are modelled as
lists of characters; Python's LF-terminated line discipline is modelled with
the `'\n'` terminator only, and whitespace classification covers the six
ASCII whitespace characters that CPython's `textwrap` module itself treats
as whitespace (`' '`, `'\t'`, `'\n'`, `'\x0b'`, `'\x0c'`, `'\r'`).
-/

namespace B4Style

/-- The whitespace characters of CPython's `string.whitespace` /
`textwrap._whitespace` (ASCII scope), as used by `str.strip`, `str.split`
and the wrapper's whitespace munging. -/
def pyIsSpace (c : Char) : Bool :=
  c == ' ' || c == '\t' || c == '\n' || c == '\x0b' || c == '\x0c' || c == '\r'

/-- Python `str.lstrip()` (no argument): drop leading whitespace. -/
def lstrip (l : List Char) : List Char := l.dropWhile pyIsSpace

/-- Python `str.rstrip()` (no argument): drop trailing whitespace. -/
def rstrip (l : List Char) : List Char := (l.reverse.dropWhile pyIsSpace).reverse

/-- Python `str.strip()` (no argument). -/
def strip (l : List Char) : List Char := rstrip (lstrip l)

/-- Python `str.rstrip('.')`: drop trailing dots. -/
def rstripDots (l : List Char) : List Char := (l.reverse.dropWhile (· == '.')).reverse

/-- Python `str.rstrip('\n')`: drop trailing newline characters. -/
def rstripNl (l : List Char) : List Char := (l.reverse.dropWhile (· == '\n')).reverse

/-- Python `str.isdigit()` on the ASCII range: nonempty and all digits. -/
def pyIsDigit (l : List Char) : Bool := !l.isEmpty && l.all Char.isDigit

/-- Python `str.startswith(p)` for a concrete character pattern. -/
def startsWithChars (l p : List Char) : Bool := l.take p.length == p

/-- Accumulator loop of `splitlines`. -/
def splitlinesAux : List Char → List Char → List (List Char)
  | [], acc => if acc.isEmpty then [] else [acc.reverse]
  | c :: cs, acc =>
    if c == '\n' then acc.reverse :: splitlinesAux cs []
    else splitlinesAux cs (c :: acc)

/-- Python `str.splitlines()` restricted to the `'\n'` line terminator:
no trailing empty line for a trailing newline, `""` gives `[]`. -/
def splitlines (l : List Char) : List (List Char) := splitlinesAux l []

/-- Accumulator loop splitting a string into maximal runs of characters
that agree on the key `k`; the accumulator holds the current run reversed. -/
def splitRunsAux (k : Char → Bool) : List Char → List Char → List (List Char)
  | [], acc => if acc.isEmpty then [] else [acc.reverse]
  | c :: cs, acc =>
    match acc with
    | [] => splitRunsAux k cs [c]
    | a :: _ =>
      if k c == k a then splitRunsAux k cs (c :: acc)
      else acc.reverse :: splitRunsAux k cs [c]

/-- The chunk decomposition used by `textwrap` with `break_on_hyphens=False`:
`re.split(r'(\s+)', text)` with empty pieces removed, i.e. the list of
maximal whitespace / non-whitespace runs of the text, in order. -/
def splitChunks (l : List Char) : List (List Char) := splitRunsAux pyIsSpace l []

/-- A chunk consisting of whitespace only. -/
def isWsChunk (c : List Char) : Bool := c.all pyIsSpace

/-- Python `str.split()` (no argument): the maximal non-whitespace runs. -/
def pySplit (l : List Char) : List (List Char) :=
  (splitChunks l).filter (fun c => !isWsChunk c)

/-- Python `str.expandtabs(8)`: each tab expands to spaces up to the next
multiple of 8; the column counter resets at line boundaries. -/
def expandTabsAux : List Char → Nat → List Char
  | [], _ => []
  | c :: cs, col =>
    if c == '\t' then
      List.replicate (8 - col % 8) ' ' ++ expandTabsAux cs (col + (8 - col % 8))
    else if c == '\n' || c == '\r' then c :: expandTabsAux cs 0
    else c :: expandTabsAux cs (col + 1)

/-- Python `str.expandtabs(8)` from column 0. -/
def expandTabs (l : List Char) : List Char := expandTabsAux l 0

/-- `textwrap` whitespace replacement: each of the six whitespace
characters becomes a space. -/
def replaceWs (l : List Char) : List Char :=
  l.map (fun c => if pyIsSpace c then ' ' else c)

/-- `TextWrapper._munge_whitespace` with the default `expand_tabs` and
`replace_whitespace` settings. -/
def munge (l : List Char) : List Char := replaceWs (expandTabs l)

/-- Inner loop of `TextWrapper._wrap_chunks`: greedily take chunks while
the accumulated length stays within `avail`; return taken chunks and rest. -/
def takeFit (avail : Int) : Int → List (List Char) → List (List Char) × List (List Char)
  | _, [] => ([], [])
  | curLen, c :: cs =>
    if curLen + c.length ≤ avail then
      let p := takeFit avail (curLen + (c.length : Int)) cs
      (c :: p.1, p.2)
    else ([], c :: cs)

/-- The `drop_whitespace` trailing trim of `_wrap_chunks`: when the line
is nonempty and its last chunk is whitespace only, `del cur_line[-1]`. -/
def dropTrailingWs (cur : List (List Char)) : List (List Char) :=
  if !cur.isEmpty && (strip (cur.getLast?.getD [])).isEmpty then cur.dropLast else cur

/-- Line emission at the end of one `_wrap_chunks` iteration: apply the
trailing-whitespace trim and emit the indented line if anything remains. -/
def wrapEmit (ind : List Char) (curLine rest : List (List Char)) :
    Option (List Char) × List (List Char) :=
  let cur := dropTrailingWs curLine
  if cur.isEmpty then (none, rest) else (some (ind ++ cur.flatten), rest)

/-- Core of one line construction in `TextWrapper._wrap_chunks` (with
`break_long_words=False`, `max_lines=None`): greedily fill the line, or
place a chunk longer than the available width alone on an empty line,
then emit. -/
def wrapLineCore (W : Nat) (ind : List Char) (chunks1 : List (List Char)) :
    Option (List Char) × List (List Char) :=
  let avail : Int := (W : Int) - (ind.length : Int)
  let p := takeFit avail 0 chunks1
  match p.2 with
  | c :: cs =>
    if (c.length : Int) > avail && p.1.isEmpty then wrapEmit ind (p.1 ++ [c]) cs
    else wrapEmit ind p.1 (c :: cs)
  | [] => wrapEmit ind p.1 []

/-- One iteration of the outer loop of `TextWrapper._wrap_chunks` with
`drop_whitespace=True`: drop a leading whitespace chunk (except before
the first emitted line), then build one line. -/
def wrapStep (W : Nat) (ind : List Char) (dropLead : Bool) (chunks : List (List Char)) :
    Option (List Char) × List (List Char) :=
  wrapLineCore W ind
    (match chunks with
     | c :: cs => if dropLead && (strip c).isEmpty then cs else chunks
     | [] => [])

/-- The outer loop of `TextWrapper._wrap_chunks`, fuelled by the number of
chunks (each iteration consumes at least one chunk, see
`wrapStep_rest_length_lt` and `wrapChunksGo_fuel_irrelevant`). The flag
`first` records that no line has been emitted yet, selecting the initial
versus subsequent indent and enabling the leading-whitespace drop. -/
def wrapChunksGo (W : Nat) (ini subs : List Char) : Nat → Bool → List (List Char) → List (List Char)
  | 0, _, _ => []
  | _ + 1, _, [] => []
  | fuel + 1, first, c :: cs =>
    let ind := if first then ini else subs
    let st := wrapStep W ind (!first) (c :: cs)
    match st.1 with
    | some line => line :: wrapChunksGo W ini subs fuel false st.2
    | none => wrapChunksGo W ini subs fuel first st.2

/-- `TextWrapper.wrap` with the flags used by `_format_paragraph`:
munge whitespace, split into chunks, run the wrapping loop. -/
def wrapLines (W : Nat) (ini subs : List Char) (text : List Char) : List (List Char) :=
  wrapChunksGo W ini subs (splitChunks (munge text)).length true (splitChunks (munge text))

/-- `TextWrapper.fill`: the wrapped lines joined by newlines. -/
def fill (W : Nat) (ini subs : List Char) (text : List Char) : List Char :=
  List.intercalate ['\n'] (wrapLines W ini subs text)

/-- `_is_bullet_line` from `style.py`: the stripped line is nonempty and
either starts with one of `-`, `*`, `+` and has at least two
whitespace-separated tokens, or its first token with trailing dots removed
is a digit string. -/
def isBulletLine (line : List Char) : Bool :=
  let stripped := lstrip line
  if stripped.isEmpty then false
  else if (stripped.head? == some '-' || stripped.head? == some '*' ||
           stripped.head? == some '+') && (pySplit stripped).length > 1 then true
  else pyIsDigit (rstripDots ((pySplit stripped).headD []))

/-- The backtick character. -/
def btick : Char := Char.ofNat 96

/-- `_is_preformatted` from `style.py`: some line of the block, ignoring
blank lines, starts with a triple backtick, four spaces, or a tab. -/
def isPreformatted (lines : List (List Char)) : Bool :=
  lines.any (fun line =>
    let stripped := rstripNl line
    if (strip stripped).isEmpty then false
    else startsWithChars stripped [btick, btick, btick] ||
         startsWithChars stripped [' ', ' ', ' ', ' '] ||
         startsWithChars stripped ['\t'])

/-- The bullet-detection branches of `_format_paragraph`: returns the
bullet marker (empty for a plain paragraph) and the remainder text. -/
def bulletMarkerSplit (lstripped contents : List Char) : List Char × List Char :=
  if (lstripped.head? == some '-' || lstripped.head? == some '*' ||
      lstripped.head? == some '+') && (pySplit lstripped).length > 1 then
    let bp := (pySplit lstripped).headD []
    (bp, lstrip (contents.drop bp.length))
  else if pyIsDigit (rstripDots (lstripped.takeWhile (· != ' '))) then
    let chunk := (pySplit lstripped).headD []
    if chunk.getLast? == some '.' then (chunk, lstrip (contents.drop chunk.length))
    else ([], contents)
  else ([], contents)

/-- The flattened contents of a block:
`' '.join(line.strip() for line in lines if line.strip())`. -/
def blockContents (lines : List (List Char)) : List Char :=
  List.intercalate [' '] ((lines.map strip).filter (fun s => !s.isEmpty))

/-- `_format_paragraph` from `style.py`, giving the list of output lines
(the Python function returns them joined by newlines, see
`formatParagraph`). -/
def formatParagraphLines (lines : List (List Char)) (indent width : Nat) : List (List Char) :=
  let contents := blockContents lines
  if contents.isEmpty then []
  else
    let lstripped := lstrip (lines.headD [])
    let bs := bulletMarkerSplit lstripped contents
    let base := List.replicate indent ' '
    let ini := if bs.1.isEmpty then base else base ++ bs.1 ++ [' ']
    let subs := if bs.1.isEmpty then base else base ++ List.replicate (bs.1.length + 1) ' '
    let text := if bs.1.isEmpty then contents else bs.2
    wrapLines width ini subs text

/-- The bullet marker a block is rendered with (empty for plain blocks). -/
def blockBullet (lines : List (List Char)) : List Char :=
  (bulletMarkerSplit (lstrip (lines.headD [])) (blockContents lines)).1

/-- The initial indent `_format_paragraph` wraps a block with: the indent
spaces, followed for a bullet block by the marker and one space. -/
def blockIni (lines : List (List Char)) (indent : Nat) : List Char :=
  if (blockBullet lines).isEmpty then List.replicate indent ' '
  else List.replicate indent ' ' ++ blockBullet lines ++ [' ']

/-- The subsequent indent `_format_paragraph` wraps a block with: the
indent spaces, followed for a bullet block by marker-width-plus-one
spaces. -/
def blockSubs (lines : List (List Char)) (indent : Nat) : List Char :=
  if (blockBullet lines).isEmpty then List.replicate indent ' '
  else List.replicate indent ' ' ++ List.replicate ((blockBullet lines).length + 1) ' '

/-- `_format_paragraph` from `style.py`. -/
def formatParagraph (lines : List (List Char)) (indent width : Nat) : List Char :=
  List.intercalate ['\n'] (formatParagraphLines lines indent width)

/-- The segmentation loop of `format_text`: blank lines flush the pending
block and emit a blank marker (represented by `[]`), bullet lines flush
and form their own single-line block, other lines accumulate. -/
def segmentAux : List (List Char) → List (List Char) → List (List (List Char))
  | [], block => if block.isEmpty then [] else [block]
  | line :: rest, block =>
    if (strip line).isEmpty then
      (if block.isEmpty then [] else [block]) ++ ([] :: segmentAux rest [])
    else if isBulletLine line then
      (if block.isEmpty then [] else [block]) ++ ([line] :: segmentAux rest [])
    else segmentAux rest (block ++ [line])

/-- The block decomposition of an input's lines; `[]` is a blank marker. -/
def blocksOf (lines : List (List Char)) : List (List (List Char)) := segmentAux lines []

/-- The `flush_block` rendering of `format_text`: preformatted blocks are
joined verbatim and right-trimmed as a whole, other blocks are wrapped by
`_format_paragraph`; a blank marker renders to the empty paragraph. -/
def renderBlock (indent width : Nat) (block : List (List Char)) : List Char :=
  if block.isEmpty then []
  else if isPreformatted block then rstrip (List.intercalate ['\n'] block)
  else formatParagraph block indent width

/-- The `paragraphs` list accumulated by `format_text`. -/
def paragraphsOf (text : List Char) (indent width : Nat) : List (List Char) :=
  (blocksOf (splitlines text)).map (renderBlock indent width)

/-- The blank-collapsing loop of `format_text`: a blank paragraph is kept
only when no blank is pending and some content was already emitted. -/
def normalizeAux : List (List Char) → Bool → Bool → List (List Char)
  | [], _, _ => []
  | p :: ps, blankPending, hasContent =>
    if p.isEmpty then
      if !blankPending && hasContent then [] :: normalizeAux ps true hasContent
      else normalizeAux ps true hasContent
    else p :: normalizeAux ps false true

/-- `format_text` from `style.py`: segment, render, collapse blanks, join
with newlines, strip trailing whitespace, append one newline. -/
def format_text (text : List Char) (indent width : Nat) : List Char :=
  rstrip (List.intercalate ['\n'] (normalizeAux (paragraphsOf text indent width) false false)) ++ ['\n']

/-! ### Specification-side definitions used to state the claims -/

/-- Total line splitter: unlike `splitlines` it keeps a final empty line,
so it is a two-sided inverse of joining with newlines; used to state
properties about the lines of an output string. -/
def splitNl : List Char → List (List Char)
  | [] => [[]]
  | c :: cs =>
    if c = '\n' then [] :: splitNl cs
    else (c :: (splitNl cs).headD []) :: (splitNl cs).tail

/-- First whitespace-delimited token of a string (meaningful when the
string has no leading whitespace). -/
def firstToken (s : List Char) : List Char := s.takeWhile (fun c => !pyIsSpace c)

/-- Total character count of a list of chunks. -/
def sumLen (cs : List (List Char)) : Nat := (cs.map List.length).sum

/-- The bullet classification as amended: the stripped line is nonempty
and either starts with `-`, `*` or `+` and has a second
whitespace-separated token (the marker need not be followed by
whitespace), or its first whitespace-delimited token with trailing dots
removed is a nonempty digit string (no further text is required). -/
def bulletLineSpec (line : List Char) : Prop :=
  lstrip line ≠ [] ∧
    ((((lstrip line).head? = some '-' ∨ (lstrip line).head? = some '*' ∨
        (lstrip line).head? = some '+') ∧
        lstrip ((lstrip line).dropWhile (fun c => !pyIsSpace c)) ≠ []) ∨
      pyIsDigit (rstripDots (firstToken (lstrip line))) = true)

/-! ### Basic lemmas about the embedding -/

/-- `takeFit` splits its input: taken prefix and rest concatenate back. -/
theorem takeFit_append (avail : Int) :
    ∀ (curLen : Int) (l : List (List Char)),
      (takeFit avail curLen l).1 ++ (takeFit avail curLen l).2 = l := by
  intro curLen l
  induction l generalizing curLen with
  | nil => simp [takeFit]
  | cons c cs ih =>
    by_cases h : curLen + (c.length : Int) ≤ avail
    · simp only [takeFit, if_pos h]
      simpa using ih (curLen + (c.length : Int))
    · simp [takeFit, if_neg h]

/-- The unconsumed chunks returned by `wrapEmit` are its `rest` argument. -/
theorem wrapEmit_snd (ind : List Char) (curLine rest : List (List Char)) :
    (wrapEmit ind curLine rest).2 = rest := by
  unfold wrapEmit
  by_cases hc : (dropTrailingWs curLine).isEmpty = true <;> simp [hc]

/-- An emitted line consists of the indent and the trimmed line content. -/
theorem wrapEmit_fst_eq_some {ind : List Char} {curLine rest : List (List Char)}
    {line : List Char} (h : (wrapEmit ind curLine rest).1 = some line) :
    (dropTrailingWs curLine).isEmpty = false ∧
      line = ind ++ (dropTrailingWs curLine).flatten := by
  unfold wrapEmit at h
  by_cases hc : (dropTrailingWs curLine).isEmpty = true
  · rw [if_pos hc] at h
    exact absurd h (by simp)
  · rw [if_neg hc] at h
    exact ⟨by simpa using hc, (Option.some.inj h).symm⟩

/-- One line construction on a nonempty chunk list consumes at least one
chunk. -/
theorem wrapLineCore_rest_length_lt (W : Nat) (ind : List Char)
    (chunks1 : List (List Char)) (h : chunks1 ≠ []) :
    (wrapLineCore W ind chunks1).2.length < chunks1.length := by
  unfold wrapLineCore
  simp only
  have hsplit := takeFit_append ((W : Int) - (ind.length : Int)) 0 chunks1
  set p := takeFit ((W : Int) - (ind.length : Int)) 0 chunks1 with hp
  rcases hq : p.2 with _ | ⟨c', cs'⟩
  · simp only [hq, wrapEmit_snd]
    simpa using List.length_pos.mpr h
  · simp only [hq]
    by_cases hbig : ((c'.length : Int) > (W : Int) - (ind.length : Int) && p.1.isEmpty) = true
    · rw [if_pos hbig, wrapEmit_snd]
      have hlen := congrArg List.length hsplit
      simp only [List.length_append, hq, List.length_cons] at hlen
      omega
    · rw [if_neg hbig, wrapEmit_snd]
      have hp1 : p.1 ≠ [] := by
        intro h1
        apply hbig
        have hchq : chunks1 = c' :: cs' := by
          rw [← hsplit, h1, List.nil_append, hq]
        have hfail : ¬ ((0 : Int) + (c'.length : Int) ≤ (W : Int) - (ind.length : Int)) := by
          intro hfit
          have hfit' : (c'.length : Int) ≤ (W : Int) - (ind.length : Int) := by omega
          have hcontra : p.1 = c' :: (takeFit ((W : Int) - (ind.length : Int))
              (0 + (c'.length : Int)) cs').1 := by
            rw [hp, hchq]; simp [takeFit, hfit']
          rw [h1] at hcontra; exact List.noConfusion hcontra
        rw [h1]
        simp only [List.isEmpty_nil, Bool.and_true, gt_iff_lt, decide_eq_true_eq]
        omega
      have hlen := congrArg List.length hsplit
      simp only [List.length_append, hq, List.length_cons] at hlen
      have hpos : 1 ≤ p.1.length := List.length_pos.mpr hp1
      simp only [List.length_cons]
      omega

/-- The line core on the empty chunk list emits nothing. -/
theorem wrapLineCore_nil (W : Nat) (ind : List Char) :
    wrapLineCore W ind [] = (none, []) := by
  simp [wrapLineCore, takeFit, wrapEmit, dropTrailingWs]

/-- Reduction of `wrapStep` on a nonempty chunk list. -/
theorem wrapStep_cons (W : Nat) (ind : List Char) (dropLead : Bool)
    (c : List Char) (cs : List (List Char)) :
    wrapStep W ind dropLead (c :: cs) =
      wrapLineCore W ind (if dropLead && (strip c).isEmpty then cs else c :: cs) := rfl

/-- Each `wrapStep` on a nonempty chunk list consumes at least one chunk. -/
theorem wrapStep_rest_length_lt (W : Nat) (ind : List Char) (dropLead : Bool)
    (chunks : List (List Char)) (h : chunks ≠ []) :
    (wrapStep W ind dropLead chunks).2.length < chunks.length := by
  obtain ⟨c, cs, rfl⟩ : ∃ c cs, chunks = c :: cs := by
    cases chunks with
    | nil => exact absurd rfl h
    | cons c cs => exact ⟨c, cs, rfl⟩
  rw [wrapStep_cons]
  by_cases hdl : (dropLead && (strip c).isEmpty) = true
  · rw [if_pos hdl]
    cases cs with
    | nil => rw [wrapLineCore_nil]; simp
    | cons d ds =>
      have := wrapLineCore_rest_length_lt W ind (d :: ds) (by simp)
      simp only [List.length_cons] at this ⊢
      omega
  · rw [if_neg hdl]
    exact wrapLineCore_rest_length_lt W ind (c :: cs) (by simp)

/-- The fuel given to `wrapChunksGo` is irrelevant once it covers the number
of chunks: the fuelled loop computes the unbounded `while` loop of
`_wrap_chunks`. -/
theorem wrapChunksGo_fuel_irrelevant (W : Nat) (ini subs : List Char) :
    ∀ (n m : Nat) (first : Bool) (cs : List (List Char)),
      cs.length ≤ n → cs.length ≤ m →
      wrapChunksGo W ini subs n first cs = wrapChunksGo W ini subs m first cs := by
  intro n
  induction n with
  | zero =>
    intro m first cs hn _
    have : cs = [] := List.length_eq_zero.mp (Nat.le_zero.mp hn)
    subst this
    cases m <;> simp [wrapChunksGo]
  | succ n ih =>
    intro m first cs hn hm
    cases cs with
    | nil => cases m <;> simp [wrapChunksGo]
    | cons c cs' =>
      cases m with
      | zero => simp at hm
      | succ m' =>
        simp only [wrapChunksGo]
        have hrest := wrapStep_rest_length_lt W (if first then ini else subs) (!first)
          (c :: cs') (by simp)
        simp only [List.length_cons] at hrest hn hm
        cases hst : (wrapStep W (if first then ini else subs) (!first) (c :: cs')).1 with
        | some line =>
          rw [ih m' false _ (by omega) (by omega)]
        | none =>
          rw [ih m' first _ (by omega) (by omega)]

/-! ### The run/chunk decomposition toolkit -/

/-- `dropWhile` stops at an element failing the predicate. -/
theorem dropWhile_head_not {p : Char → Bool} {l : List Char} {x : Char} {xs : List Char}
    (h : l.dropWhile p = x :: xs) : p x = false := by
  have := List.head?_dropWhile_not p l
  rw [h] at this
  exact this

/-- `dropWhile` twice is `dropWhile` once. -/
theorem dropWhile_idem (p : Char → Bool) (l : List Char) :
    (l.dropWhile p).dropWhile p = l.dropWhile p := by
  cases h : l.dropWhile p with
  | nil => rfl
  | cons x xs => rw [List.dropWhile_cons_of_neg (by simp [dropWhile_head_not h])]

/-- `rstrip` is idempotent. -/
theorem rstrip_idem (l : List Char) : rstrip (rstrip l) = rstrip l := by
  unfold rstrip
  rw [List.reverse_reverse, dropWhile_idem]

/-- The run splitter flattens back to its input. -/
theorem splitRunsAux_flatten (k : Char → Bool) :
    ∀ (l acc : List Char), (splitRunsAux k l acc).flatten = acc.reverse ++ l := by
  intro l
  induction l with
  | nil =>
    intro acc
    cases acc <;> simp [splitRunsAux]
  | cons c cs ih =>
    intro acc
    cases acc with
    | nil => simpa using ih [c]
    | cons a as =>
      by_cases h : (k c == k a) = true <;>
        simp [splitRunsAux, h, ih, List.append_assoc]

/-- Unfolding lemma for the run splitter with a nonempty homogeneous
accumulator: the current run extends through the matching prefix. -/
theorem splitRunsAux_run (k : Char → Bool) :
    ∀ (l acc : List Char) (a : Char), (∀ x ∈ acc, k x = k a) →
      splitRunsAux k l (a :: acc) =
        ((a :: acc).reverse ++ l.takeWhile (fun x => k x == k a)) ::
          splitRunsAux k (l.dropWhile (fun x => k x == k a)) [] := by
  intro l
  induction l with
  | nil => intro acc a _; simp [splitRunsAux]
  | cons c cs ih =>
    intro acc a hacc
    by_cases h : (k c == k a) = true
    · have hk : k c = k a := by simpa using h
      have : splitRunsAux k (c :: cs) (a :: acc) = splitRunsAux k cs (c :: a :: acc) := by
        simp [splitRunsAux, h]
      rw [this, ih (a :: acc) c (by
        intro x hx
        rcases List.mem_cons.mp hx with rfl | hx'
        · rw [hk]
        · rw [hacc x hx', hk])]
      have hfun : (fun x => k x == k c) = (fun x => k x == k a) := by
        funext x; rw [hk]
      rw [hfun]
      simp [List.takeWhile_cons, h, List.dropWhile_cons, List.append_assoc]
    · have : splitRunsAux k (c :: cs) (a :: acc) =
          (a :: acc).reverse :: splitRunsAux k cs [c] := by
        simp [splitRunsAux, h]
      rw [this]
      simp [List.takeWhile_cons, h, List.dropWhile_cons, splitRunsAux]

/-- Unfolding lemma for `splitChunks`. -/
theorem splitChunks_cons (c : Char) (cs : List Char) :
    splitChunks (c :: cs) =
      (c :: cs.takeWhile (fun x => pyIsSpace x == pyIsSpace c)) ::
        splitChunks (cs.dropWhile (fun x => pyIsSpace x == pyIsSpace c)) := by
  show splitRunsAux pyIsSpace (c :: cs) [] = _
  have : splitRunsAux pyIsSpace (c :: cs) [] = splitRunsAux pyIsSpace cs [c] := rfl
  rw [this, splitRunsAux_run pyIsSpace cs [] c (by intro x hx; cases hx)]
  rfl

/-- The chunks of a string flatten back to it. -/
theorem splitChunks_flatten (l : List Char) : (splitChunks l).flatten = l := by
  simpa using splitRunsAux_flatten pyIsSpace l []

/-- Fuel-indexed form of the chunk homogeneity lemma. -/
theorem mem_splitChunks_aux :
    ∀ (n : Nat) (l : List Char), l.length ≤ n →
      ∀ ch ∈ splitChunks l, ch ≠ [] ∧
        (ch.all pyIsSpace = true ∨ ch.all (fun c => !pyIsSpace c) = true) := by
  intro n
  induction n with
  | zero =>
    intro l hl ch hch
    have : l = [] := List.length_eq_zero.mp (Nat.le_zero.mp hl)
    subst this
    simp [splitChunks, splitRunsAux] at hch
  | succ n ih =>
    intro l hl ch hch
    cases l with
    | nil => simp [splitChunks, splitRunsAux] at hch
    | cons c cs =>
      rw [splitChunks_cons] at hch
      rcases List.mem_cons.mp hch with hch | hch
      · subst hch
        refine ⟨by simp, ?_⟩
        by_cases hc : pyIsSpace c = true
        · left
          simp only [List.all_cons, hc, Bool.true_and, List.all_eq_true]
          intro x hx
          have hpx := List.mem_takeWhile_imp hx
          simpa [hc] using hpx
        · right
          simp only [List.all_cons, Bool.and_eq_true, List.all_eq_true]
          refine ⟨by simp [hc], ?_⟩
          intro x hx
          have hpx := List.mem_takeWhile_imp hx
          simp only [beq_iff_eq] at hpx
          simp [hpx, hc]
      · refine ih (cs.dropWhile (fun x => pyIsSpace x == pyIsSpace c)) ?_ ch hch
        have := (List.dropWhile_sublist (l := cs)
          (fun x => pyIsSpace x == pyIsSpace c)).length_le
        simp only [List.length_cons] at hl
        omega

/-- Every chunk is nonempty and homogeneous: whitespace-only or
non-whitespace-only. -/
theorem mem_splitChunks (l : List Char) :
    ∀ ch ∈ splitChunks l, ch ≠ [] ∧
      (ch.all pyIsSpace = true ∨ ch.all (fun c => !pyIsSpace c) = true) :=
  mem_splitChunks_aux l.length l le_rfl

/-- `pySplit` is empty exactly on all-whitespace strings. -/
theorem pySplit_eq_nil_iff (l : List Char) :
    pySplit l = [] ↔ l.all pyIsSpace = true := by
  constructor
  · intro h
    have hall : ∀ ch ∈ splitChunks l, isWsChunk ch = true := by
      intro ch hch
      have := List.filter_eq_nil.mp h ch hch
      simpa using this
    rw [← splitChunks_flatten l, List.all_eq_true]
    intro x hx
    rcases List.mem_flatten.mp hx with ⟨ch, hch, hxch⟩
    exact List.all_eq_true.mp (hall ch hch) x hxch
  · intro h
    apply List.filter_eq_nil.mpr
    intro ch hch
    simp only [Bool.not_eq_true', Bool.not_eq_false]
    apply List.all_eq_true.mpr
    intro x hx
    exact List.all_eq_true.mp h x (by
      rw [← splitChunks_flatten l]
      exact List.mem_flatten.mpr ⟨ch, hch, hx⟩)

/-- On a string starting with a non-whitespace character, `pySplit` begins
with the first token, followed by the split of the remainder. -/
theorem pySplit_cons_of_head_not_space (c : Char) (cs : List Char)
    (hc : pyIsSpace c = false) :
    pySplit (c :: cs) =
      firstToken (c :: cs) :: pySplit ((c :: cs).dropWhile (fun x => !pyIsSpace x)) := by
  have hfun : (fun x => pyIsSpace x == pyIsSpace c) = (fun x => !pyIsSpace x) := by
    funext x; rw [hc]; cases pyIsSpace x <;> rfl
  unfold pySplit
  rw [splitChunks_cons, hfun]
  have hword : isWsChunk (c :: cs.takeWhile (fun x => !pyIsSpace x)) = false := by
    simp [isWsChunk, hc]
  rw [List.filter_cons]
  simp only [hword, Bool.not_false, if_pos]
  have : firstToken (c :: cs) = c :: cs.takeWhile (fun x => !pyIsSpace x) := by
    simp [firstToken, List.takeWhile_cons, hc]
  rw [this]
  have : (c :: cs).dropWhile (fun x => !pyIsSpace x) =
      cs.dropWhile (fun x => !pyIsSpace x) := by
    simp [List.dropWhile_cons, hc]
  rw [this]

/-- The head of a nonempty `lstrip` result is not whitespace. -/
theorem lstrip_head_not_space {l : List Char} {c : Char} {cs : List Char}
    (h : lstrip l = c :: cs) : pyIsSpace c = false :=
  dropWhile_head_not h

/-- `lstrip` is empty exactly on all-whitespace strings. -/
theorem lstrip_eq_nil_iff (l : List Char) : lstrip l = [] ↔ l.all pyIsSpace = true := by
  unfold lstrip
  rw [List.dropWhile_eq_nil_iff, List.all_eq_true]

/-- `pySplit` is empty exactly when `lstrip` is. -/
theorem pySplit_eq_nil_iff_lstrip (l : List Char) : pySplit l = [] ↔ lstrip l = [] := by
  rw [pySplit_eq_nil_iff, lstrip_eq_nil_iff]

/-! ### Strip lemmas and segmentation lemmas -/

/-- `rstrip` is empty exactly on all-whitespace strings. -/
theorem rstrip_eq_nil_iff (l : List Char) : rstrip l = [] ↔ l.all pyIsSpace = true := by
  unfold rstrip
  rw [List.reverse_eq_nil_iff, List.dropWhile_eq_nil_iff, List.all_eq_true]
  constructor
  · intro h x hx; exact h x (List.mem_reverse.mpr hx)
  · intro h x hx; exact h x (List.mem_reverse.mp hx)

/-- `strip` is empty exactly on all-whitespace strings. -/
theorem strip_eq_nil_iff (l : List Char) : strip l = [] ↔ l.all pyIsSpace = true := by
  unfold strip
  rw [rstrip_eq_nil_iff]
  constructor
  · intro h
    cases hs : lstrip l with
    | nil => exact (lstrip_eq_nil_iff l).mp hs
    | cons c cs =>
      have hc := lstrip_head_not_space hs
      rw [hs] at h
      have := List.all_eq_true.mp h c (by simp)
      rw [this] at hc
      exact absurd hc (by simp)
  · intro h
    have : lstrip l = [] := by
      rw [lstrip_eq_nil_iff]; exact h
    rw [this]; rfl

/-- A bullet line is not blank. -/
theorem isBulletLine_not_blank {line : List Char} (h : isBulletLine line = true) :
    (strip line).isEmpty = false := by
  by_cases he : (lstrip line).isEmpty = true
  · unfold isBulletLine at h
    rw [if_pos he] at h
    exact absurd h (by simp)
  · have hlne : lstrip line ≠ [] := by
      intro hx; rw [hx] at he; exact he rfl
    have : strip line ≠ [] := by
      intro hx
      exact hlne ((lstrip_eq_nil_iff line).mpr ((strip_eq_nil_iff line).mp hx))
    cases hx : strip line with
    | nil => exact absurd hx this
    | cons a as => rfl

/-- Bullet lines are always isolated into their own single-line block by
the segmentation loop, regardless of the pending buffer. -/
theorem segmentAux_bullet_isolated :
    ∀ (lines : List (List Char)) (block : List (List Char)) (line : List Char),
      line ∈ lines → isBulletLine line = true →
      [line] ∈ segmentAux lines block := by
  intro lines
  induction lines with
  | nil => intro block line h; cases h
  | cons l ls ih =>
    intro block line hmem hbul
    rcases List.mem_cons.mp hmem with rfl | hmem'
    · have hnb := isBulletLine_not_blank hbul
      unfold segmentAux
      rw [if_neg (by simp [hnb]), if_pos hbul]
      exact List.mem_append_right _ (List.mem_cons_self _ _)
    · unfold segmentAux
      by_cases hblank : (strip l).isEmpty = true
      · rw [if_pos hblank]
        refine List.mem_append_right _ (List.mem_cons_of_mem _ ?_)
        exact ih [] line hmem' hbul
      · rw [if_neg hblank]
        by_cases hb : isBulletLine l = true
        · rw [if_pos hb]
          refine List.mem_append_right _ (List.mem_cons_of_mem _ ?_)
          exact ih [] line hmem' hbul
        · rw [if_neg hb]
          exact ih (block ++ [l]) line hmem' hbul

/-- Every line of every block produced by segmentation is nonblank,
given the pending buffer contains only nonblank lines. -/
theorem segmentAux_blocks_nonblank :
    ∀ (lines : List (List Char)) (block : List (List Char)),
      (∀ x ∈ block, (strip x).isEmpty = false) →
      ∀ b ∈ segmentAux lines block, ∀ x ∈ b, (strip x).isEmpty = false := by
  intro lines
  induction lines with
  | nil =>
    intro block hinv b hb x hx
    unfold segmentAux at hb
    by_cases hbe : block.isEmpty = true
    · rw [if_pos hbe] at hb; cases hb
    · rw [if_neg hbe] at hb
      rcases List.mem_singleton.mp hb with rfl
      exact hinv x hx
  | cons l ls ih =>
    intro block hinv b hb x hx
    unfold segmentAux at hb
    by_cases hblank : (strip l).isEmpty = true
    · rw [if_pos hblank] at hb
      rcases List.mem_append.mp hb with hb1 | hb2
      · by_cases hbe : block.isEmpty = true
        · rw [if_pos hbe] at hb1; cases hb1
        · rw [if_neg hbe] at hb1
          rcases List.mem_singleton.mp hb1 with rfl
          exact hinv x hx
      · rcases List.mem_cons.mp hb2 with rfl | hb3
        · cases hx
        · exact ih [] (by intro y hy; cases hy) b hb3 x hx
    · rw [if_neg hblank] at hb
      by_cases hbul : isBulletLine l = true
      · rw [if_pos hbul] at hb
        rcases List.mem_append.mp hb with hb1 | hb2
        · by_cases hbe : block.isEmpty = true
          · rw [if_pos hbe] at hb1; cases hb1
          · rw [if_neg hbe] at hb1
            rcases List.mem_singleton.mp hb1 with rfl
            exact hinv x hx
        · rcases List.mem_cons.mp hb2 with rfl | hb3
          · rcases List.mem_singleton.mp hx with rfl
            cases hs : (strip x).isEmpty with
            | false => rfl
            | true => rw [hs] at hblank; exact absurd rfl hblank
          · exact ih [] (by intro y hy; cases hy) b hb3 x hx
      · rw [if_neg hbul] at hb
        refine ih (block ++ [l]) ?_ b hb x hx
        intro y hy
        rcases List.mem_append.mp hy with hy1 | hy2
        · exact hinv y hy1
        · rcases List.mem_singleton.mp hy2 with rfl
          cases hs : (strip y).isEmpty with
          | false => rfl
          | true => rw [hs] at hblank; exact absurd rfl hblank

/-- A nonempty paragraph survives blank normalization. -/
theorem mem_normalizeAux :
    ∀ (ps : List (List Char)) (bp hc : Bool) (p : List Char),
      p ∈ ps → p ≠ [] → p ∈ normalizeAux ps bp hc := by
  intro ps
  induction ps with
  | nil => intro bp hc p h; cases h
  | cons q qs ih =>
    intro bp hc p hmem hne
    rcases List.mem_cons.mp hmem with rfl | hmem'
    · have : p.isEmpty = false := by
        cases hx : p with
        | nil => exact absurd hx hne
        | cons a as => rfl
      unfold normalizeAux
      rw [if_neg (by simp [this])]
      exact List.mem_cons_self _ _
    · unfold normalizeAux
      by_cases hq : q.isEmpty = true
      · rw [if_pos hq]
        by_cases hcond : (!bp && hc) = true
        · rw [if_pos hcond]
          exact List.mem_cons_of_mem _ (ih true hc p hmem' hne)
        · rw [if_neg hcond]
          exact ih true hc p hmem' hne
      · rw [if_neg hq]
        exact List.mem_cons_of_mem _ (ih false true p hmem' hne)

/-! ### Chunk alternation and wrap-step invariants -/

/-- The first chunk of a run starting at `c` is whitespace-classed as `c`. -/
theorem isWsChunk_run (c : Char) (cs : List Char) :
    isWsChunk (c :: cs.takeWhile (fun x => pyIsSpace x == pyIsSpace c)) = pyIsSpace c := by
  cases hc : pyIsSpace c with
  | true =>
    simp only [isWsChunk, List.all_cons, hc, Bool.true_and]
    apply List.all_eq_true.mpr
    intro x hx
    have := List.mem_takeWhile_imp hx
    simpa using this
  | false => simp [isWsChunk, hc]

/-- Fuel-indexed alternation of chunk kinds. -/
theorem splitChunks_chain_aux :
    ∀ (n : Nat) (l : List Char), l.length ≤ n →
      List.Chain' (fun a b => isWsChunk a ≠ isWsChunk b) (splitChunks l) := by
  intro n
  induction n with
  | zero =>
    intro l hl
    have : l = [] := List.length_eq_zero.mp (Nat.le_zero.mp hl)
    subst this
    simp [splitChunks, splitRunsAux]
  | succ n ih =>
    intro l hl
    cases l with
    | nil => simp [splitChunks, splitRunsAux]
    | cons c cs =>
      rw [splitChunks_cons, List.chain'_cons']
      constructor
      · intro y hy
        cases hrest : cs.dropWhile (fun x => pyIsSpace x == pyIsSpace c) with
        | nil => rw [hrest] at hy; simp [splitChunks, splitRunsAux] at hy
        | cons d ds =>
          rw [hrest, splitChunks_cons] at hy
          simp only [List.head?_cons, Option.mem_def, Option.some.injEq] at hy
          subst hy
          rw [isWsChunk_run, isWsChunk_run]
          have hd : (pyIsSpace d == pyIsSpace c) = false := dropWhile_head_not hrest
          intro heq
          rw [heq] at hd; simp at hd
      · apply ih
        have := (List.dropWhile_sublist (l := cs)
          (fun x => pyIsSpace x == pyIsSpace c)).length_le
        simp only [List.length_cons] at hl
        omega

/-- Adjacent chunks of a string alternate between whitespace and
non-whitespace kind. -/
theorem splitChunks_chain (l : List Char) :
    List.Chain' (fun a b => isWsChunk a ≠ isWsChunk b) (splitChunks l) :=
  splitChunks_chain_aux l.length l le_rfl

/-- The chunks taken by `takeFit` keep the accumulated length within the
budget (unless nothing was taken). -/
theorem takeFit_sum (avail : Int) :
    ∀ (curLen : Int) (cs : List (List Char)),
      (takeFit avail curLen cs).1 = [] ∨
        curLen + (sumLen (takeFit avail curLen cs).1 : Int) ≤ avail := by
  intro curLen cs
  induction cs generalizing curLen with
  | nil => left; rfl
  | cons c cs ih =>
    by_cases h : curLen + (c.length : Int) ≤ avail
    · right
      simp only [takeFit, if_pos h]
      rcases ih (curLen + (c.length : Int)) with h1 | h1
      · rw [h1]
        simp only [sumLen, List.map_cons, List.map_nil, List.sum_cons, List.sum_nil]
        omega
      · simp only [sumLen, List.map_cons, List.sum_cons] at h1 ⊢
        push_cast at h1 ⊢
        omega
    · left
      simp [takeFit, if_neg h]

/-- `dropTrailingWs` keeps only elements of its input. -/
theorem dropTrailingWs_subset (cur : List (List Char)) :
    ∀ ch ∈ dropTrailingWs cur, ch ∈ cur := by
  intro ch hch
  unfold dropTrailingWs at hch
  by_cases hcond : (!cur.isEmpty && (strip (cur.getLast?.getD [])).isEmpty) = true
  · rw [if_pos hcond] at hch
    exact List.dropLast_subset _ hch
  · rw [if_neg hcond] at hch
    exact hch

/-- If `dropTrailingWs` returns a nonempty line, its final chunk is not
whitespace-only, provided chunk kinds alternate. -/
theorem dropTrailingWs_last_not_ws (cur : List (List Char))
    (hchain : List.Chain' (fun a b => isWsChunk a ≠ isWsChunk b) cur) :
    dropTrailingWs cur = [] ∨
      ∃ last, (dropTrailingWs cur).getLast? = some last ∧ (strip last).isEmpty = false := by
  unfold dropTrailingWs
  cases hcur : cur with
  | nil => left; rfl
  | cons c0 cur0 =>
  rw [← hcur]
  have hcne : cur ≠ [] := by rw [hcur]; simp
  have hie : cur.isEmpty = false := by rw [hcur]; rfl
  cases hlast : cur.getLast? with
  | none => exact absurd (List.getLast?_eq_none_iff.mp hlast) hcne
  | some last =>
    have hdecomp : cur.dropLast ++ [last] = cur := by
      have h1 := List.dropLast_concat_getLast hcne
      have h2 : cur.getLast hcne = last := by
        have := List.getLast?_eq_getLast cur hcne
        rw [hlast] at this
        exact (Option.some.injEq _ _ ▸ this.symm)
      rw [h2] at h1
      exact h1
    by_cases hws : (strip last).isEmpty = true
    · rw [if_pos (by rw [hie]; simpa using hws)]
      cases hdl : cur.dropLast.getLast? with
      | none =>
        left
        exact List.getLast?_eq_none_iff.mp hdl
      | some y =>
        right
        refine ⟨y, rfl, ?_⟩
        have hdne : cur.dropLast ≠ [] := by
          intro h; rw [h] at hdl; exact Option.noConfusion hdl
        have hdecomp2 : cur.dropLast.dropLast ++ [y] = cur.dropLast := by
          have h1 := List.dropLast_concat_getLast hdne
          have h2 : cur.dropLast.getLast hdne = y := by
            have := List.getLast?_eq_getLast cur.dropLast hdne
            rw [hdl] at this
            exact (Option.some.injEq _ _ ▸ this.symm)
          rw [h2] at h1
          exact h1
        -- y and last are adjacent in cur
        have hcur : cur.dropLast.dropLast ++ ([y] ++ [last]) = cur := by
          rw [← List.append_assoc, hdecomp2, hdecomp]
        have hR : isWsChunk y ≠ isWsChunk last := by
          have hch : List.Chain' (fun a b => isWsChunk a ≠ isWsChunk b)
              ([y] ++ [last]) := by
            rw [← hcur] at hchain
            exact hchain.right_of_append
          exact (List.chain'_cons.mp hch).1
        -- last is whitespace-only, hence y is not
        have hlastws : isWsChunk last = true := by
          unfold isWsChunk
          rw [← strip_eq_nil_iff]
          cases hx : strip last with
          | nil => rfl
          | cons a as => rw [hx] at hws; exact absurd hws (by simp)
        have hynotws : isWsChunk y = false := by
          cases hy : isWsChunk y with
          | false => rfl
          | true => rw [hy, hlastws] at hR; exact absurd rfl hR
        rw [← Bool.not_eq_true] at hynotws ⊢
        intro hcon
        apply hynotws
        unfold isWsChunk
        rw [← strip_eq_nil_iff]
        exact List.isEmpty_iff.mp hcon
    · rw [if_neg (by rw [hie]; simpa using hws)]
      right
      refine ⟨last, hlast, ?_⟩
      simpa using hws

/-- `sumLen` of `dropLast` is at most `sumLen`. -/
theorem sumLen_dropLast_le (l : List (List Char)) : sumLen l.dropLast ≤ sumLen l := by
  induction l with
  | nil => exact le_rfl
  | cons c cs ih =>
    cases cs with
    | nil => simp [sumLen]
    | cons d ds =>
      have hdl : (c :: d :: ds).dropLast = c :: (d :: ds).dropLast := by simp
      rw [hdl]
      simp only [sumLen, List.map_cons, List.sum_cons] at ih ⊢
      omega

/-- A nonblank string has a non-whitespace character. -/
theorem strip_isEmpty_false_iff (l : List Char) :
    (strip l).isEmpty = false ↔ ¬ l.all pyIsSpace = true := by
  constructor
  · intro h hall
    rw [(strip_eq_nil_iff l).mpr hall] at h
    exact absurd h (by simp)
  · intro h
    cases hx : strip l with
    | nil => exact absurd ((strip_eq_nil_iff l).mp hx) h
    | cons a as => rfl

/-- A nonempty all-non-whitespace string ends in a non-whitespace
character. -/
theorem all_nonws_getLast {w : List Char} (hne : w ≠ [])
    (hall : w.all (fun c => !pyIsSpace c) = true) :
    ∃ cl, w.getLast? = some cl ∧ pyIsSpace cl = false := by
  cases hgl : w.getLast? with
  | none => exact absurd (List.getLast?_eq_none_iff.mp hgl) hne
  | some a =>
    refine ⟨a, rfl, ?_⟩
    have hmem : a ∈ w := by
      have h1 := List.getLast_mem_getLast? (l := w) hne
      rw [hgl] at h1
      have h2 : w.getLast hne = a := (by simpa using h1 : a = w.getLast hne).symm
      rw [← h2]
      exact List.getLast_mem hne
    have := List.all_eq_true.mp hall a hmem
    simpa using this

/-- A nonempty line after `dropTrailingWs` flattens to nonblank content
drawn from the input chunks, no longer than the input chunks, ending in a
non-whitespace character. -/
theorem dropTrailingWs_flatten_spec (p1 : List (List Char))
    (hgoodp : ∀ ch ∈ p1, ch ≠ [] ∧
      (ch.all pyIsSpace = true ∨ ch.all (fun c => !pyIsSpace c) = true))
    (hchainp : List.Chain' (fun a b => isWsChunk a ≠ isWsChunk b) p1)
    (hne : (dropTrailingWs p1).isEmpty = false) :
    (strip (dropTrailingWs p1).flatten).isEmpty = false ∧
      (∀ x ∈ (dropTrailingWs p1).flatten, ∃ ch ∈ p1, x ∈ ch) ∧
      sumLen (dropTrailingWs p1) ≤ sumLen p1 ∧
      (∃ cl, ((dropTrailingWs p1).flatten).getLast? = some cl ∧
        pyIsSpace cl = false) := by
  have hcurne : dropTrailingWs p1 ≠ [] := by
    intro h
    rw [h] at hne
    exact absurd hne (by simp)
  rcases dropTrailingWs_last_not_ws p1 hchainp with hnil | ⟨last, hlast, hlws⟩
  · exact absurd hnil hcurne
  have hdecomp : (dropTrailingWs p1).dropLast ++ [last] = dropTrailingWs p1 := by
    have h1 := List.dropLast_concat_getLast hcurne
    have h2 : (dropTrailingWs p1).getLast hcurne = last := by
      have := List.getLast?_eq_getLast (dropTrailingWs p1) hcurne
      rw [hlast] at this
      exact (Option.some.injEq _ _ ▸ this.symm)
    rw [h2] at h1
    exact h1
  have hmem : last ∈ dropTrailingWs p1 := by
    rw [← hdecomp]
    exact List.mem_append_right _ (List.mem_singleton.mpr rfl)
  have hmemp : last ∈ p1 := dropTrailingWs_subset p1 last hmem
  have hlne : last ≠ [] := (hgoodp last hmemp).1
  have hlnws : last.all (fun c => !pyIsSpace c) = true := by
    rcases (hgoodp last hmemp).2 with hws | hnws
    · exfalso
      have hnil := (strip_eq_nil_iff last).mpr hws
      rw [hnil] at hlws
      exact absurd hlws (by simp)
    · exact hnws
  obtain ⟨cl, hcl, hclnws⟩ := all_nonws_getLast hlne hlnws
  have hclmem : cl ∈ (dropTrailingWs p1).flatten := by
    rw [← hdecomp, List.flatten_append]
    refine List.mem_append_right _ ?_
    simp only [List.flatten_cons, List.flatten_nil, List.append_nil]
    have h1 := List.getLast_mem_getLast? (l := last) hlne
    rw [hcl] at h1
    have h2 : last.getLast hlne = cl := (by simpa using h1 : cl = _).symm
    rw [← h2]
    exact List.getLast_mem hlne
  have hflast : ((dropTrailingWs p1).flatten).getLast? = some cl := by
    rw [← hdecomp, List.flatten_append]
    rw [List.getLast?_append]
    simp only [List.flatten_cons, List.flatten_nil, List.append_nil, hcl]
    rfl
  refine ⟨?_, ?_, ?_, ⟨cl, hflast, hclnws⟩⟩
  · rw [strip_isEmpty_false_iff]
    intro hall
    have := List.all_eq_true.mp hall cl hclmem
    rw [this] at hclnws
    exact absurd hclnws (by simp)
  · intro x hx
    rcases List.mem_flatten.mp hx with ⟨ch, hch, hxch⟩
    exact ⟨ch, dropTrailingWs_subset p1 ch hch, hxch⟩
  · unfold dropTrailingWs
    by_cases hcond : (!p1.isEmpty && (strip (p1.getLast?.getD [])).isEmpty) = true
    · rw [if_pos hcond]
      exact sumLen_dropLast_le p1
    · rw [if_neg hcond]

/-- Specification of one line construction: the unconsumed chunks are a
suffix of the input, and an emitted line is the indent followed by
nonblank chunk content drawn from the input chunks that either fits
within the width or is a single unbroken word. -/
theorem wrapLineCore_spec (W : Nat) (ind : List Char) (chunks1 : List (List Char))
    (hgood : ∀ ch ∈ chunks1, ch ≠ [] ∧
      (ch.all pyIsSpace = true ∨ ch.all (fun c => !pyIsSpace c) = true))
    (hchain : List.Chain' (fun a b => isWsChunk a ≠ isWsChunk b) chunks1) :
    (∃ pre, pre ++ (wrapLineCore W ind chunks1).2 = chunks1) ∧
      ∀ line, (wrapLineCore W ind chunks1).1 = some line →
        ∃ w, line = ind ++ w ∧ (strip w).isEmpty = false ∧
          (∀ x ∈ w, ∃ ch ∈ chunks1, x ∈ ch) ∧
          (ind.length + w.length ≤ W ∨ w.all (fun c => !pyIsSpace c) = true) ∧
          (∃ cl, w.getLast? = some cl ∧ pyIsSpace cl = false) := by
  unfold wrapLineCore
  simp only
  have hsplit := takeFit_append ((W : Int) - (ind.length : Int)) 0 chunks1
  have hsum := takeFit_sum ((W : Int) - (ind.length : Int)) 0 chunks1
  set p := takeFit ((W : Int) - (ind.length : Int)) 0 chunks1 with hp
  have hgoodp1 : ∀ ch ∈ p.1, ch ≠ [] ∧
      (ch.all pyIsSpace = true ∨ ch.all (fun c => !pyIsSpace c) = true) := by
    intro ch hch
    exact hgood ch (by rw [← hsplit]; exact List.mem_append_left _ hch)
  have hchainp1 : List.Chain' (fun a b => isWsChunk a ≠ isWsChunk b) p.1 := by
    rw [← hsplit] at hchain
    exact hchain.left_of_append
  have hfitline : ∀ (line : List Char) (rest : List (List Char)),
      (wrapEmit ind p.1 rest).1 = some line →
      ∃ w, line = ind ++ w ∧ (strip w).isEmpty = false ∧
        (∀ x ∈ w, ∃ ch ∈ chunks1, x ∈ ch) ∧
        (ind.length + w.length ≤ W ∨ w.all (fun c => !pyIsSpace c) = true) ∧
        (∃ cl, w.getLast? = some cl ∧ pyIsSpace cl = false) := by
    intro line rest hline
    obtain ⟨hne, hlineq⟩ := wrapEmit_fst_eq_some hline
    obtain ⟨hnb, hprov, hlen, hcl⟩ := dropTrailingWs_flatten_spec p.1 hgoodp1 hchainp1 hne
    refine ⟨(dropTrailingWs p.1).flatten, hlineq, hnb, ?_, ?_, hcl⟩
    · intro x hx
      rcases hprov x hx with ⟨ch, hch, hxch⟩
      exact ⟨ch, by rw [← hsplit]; exact List.mem_append_left _ hch, hxch⟩
    · left
      have hp1ne : p.1 ≠ [] := by
        intro h0
        rw [h0] at hne
        simp [dropTrailingWs] at hne
      rcases hsum with h0 | h0
      · exact absurd h0 hp1ne
      · have h1 : ((dropTrailingWs p.1).flatten).length =
            sumLen (dropTrailingWs p.1) := by
          simp [sumLen]
        omega
  rcases hq : p.2 with _ | ⟨c', cs'⟩
  · simp only [hq]
    constructor
    · rw [wrapEmit_snd]
      exact ⟨chunks1, List.append_nil chunks1⟩
    · intro line hline
      exact hfitline line [] hline
  · simp only [hq]
    by_cases hbig : ((c'.length : Int) > (W : Int) - (ind.length : Int) && p.1.isEmpty) = true
    · rw [if_pos hbig]
      have hp1nil : p.1 = [] := by
        cases hpe : p.1.isEmpty
        · rw [hpe, Bool.and_false] at hbig
          exact absurd hbig (by simp)
        · exact List.isEmpty_iff.mp hpe
      have hc'mem : c' ∈ chunks1 := by
        rw [← hsplit, hq]
        exact List.mem_append_right _ (List.mem_cons_self _ _)
      constructor
      · rw [wrapEmit_snd]
        refine ⟨p.1 ++ [c'], ?_⟩
        rw [List.append_assoc, List.singleton_append, ← hq, hsplit]
      · intro line hline
        obtain ⟨hne, hlineq⟩ := wrapEmit_fst_eq_some hline
        rw [hp1nil, List.nil_append] at hne hlineq
        have hstr : (strip c').isEmpty = false := by
          cases hst : (strip c').isEmpty
          · rfl
          · exfalso
            rw [show dropTrailingWs [c'] = [] from by
              unfold dropTrailingWs
              rw [if_pos (by simp [hst])]
              rfl] at hne
            simp at hne
        have hkeep : dropTrailingWs [c'] = [c'] := by
          unfold dropTrailingWs
          rw [if_neg (by simp [hstr])]
        rw [hkeep] at hlineq
        simp only [List.flatten_cons, List.flatten_nil, List.append_nil] at hlineq
        have hnws : c'.all (fun c => !pyIsSpace c) = true := by
          rcases hgood c' hc'mem with ⟨hcne, hws | hnws⟩
          · rw [strip_isEmpty_false_iff] at hstr
            exact absurd hws hstr
          · exact hnws
        refine ⟨c', hlineq, hstr, ?_, Or.inr hnws,
          all_nonws_getLast (hgood c' hc'mem).1 hnws⟩
        intro x hx
        exact ⟨c', hc'mem, hx⟩
    · rw [if_neg hbig]
      constructor
      · rw [wrapEmit_snd]
        exact ⟨p.1, by rw [← hq, hsplit]⟩
      · intro line hline
        exact hfitline line _ hline

/-- `wrapStep` specification: lifted from `wrapLineCore_spec` through the
optional leading-whitespace drop. -/
theorem wrapStep_spec (W : Nat) (ind : List Char) (dropLead : Bool)
    (chunks : List (List Char))
    (hgood : ∀ ch ∈ chunks, ch ≠ [] ∧
      (ch.all pyIsSpace = true ∨ ch.all (fun c => !pyIsSpace c) = true))
    (hchain : List.Chain' (fun a b => isWsChunk a ≠ isWsChunk b) chunks) :
    (∃ pre, pre ++ (wrapStep W ind dropLead chunks).2 = chunks) ∧
      ∀ line, (wrapStep W ind dropLead chunks).1 = some line →
        ∃ w, line = ind ++ w ∧ (strip w).isEmpty = false ∧
          (∀ x ∈ w, ∃ ch ∈ chunks, x ∈ ch) ∧
          (ind.length + w.length ≤ W ∨ w.all (fun c => !pyIsSpace c) = true) ∧
          (∃ cl, w.getLast? = some cl ∧ pyIsSpace cl = false) := by
  cases chunks with
  | nil =>
    constructor
    · refine ⟨[], ?_⟩
      rw [show wrapStep W ind dropLead [] = wrapLineCore W ind [] from rfl,
        wrapLineCore_nil]
      rfl
    · intro line hline
      rw [show wrapStep W ind dropLead [] = wrapLineCore W ind [] from rfl,
        wrapLineCore_nil] at hline
      exact absurd hline (by simp)
  | cons c cs =>
    rw [wrapStep_cons]
    by_cases hdl : (dropLead && (strip c).isEmpty) = true
    · rw [if_pos hdl]
      have hgood' : ∀ ch ∈ cs, ch ≠ [] ∧
          (ch.all pyIsSpace = true ∨ ch.all (fun c => !pyIsSpace c) = true) :=
        fun ch hch => hgood ch (List.mem_cons_of_mem _ hch)
      have hchain' : List.Chain' (fun a b => isWsChunk a ≠ isWsChunk b) cs := hchain.tail
      obtain ⟨⟨pre, hpre⟩, hlines⟩ := wrapLineCore_spec W ind cs hgood' hchain'
      constructor
      · exact ⟨c :: pre, by rw [List.cons_append, hpre]⟩
      · intro line hline
        obtain ⟨w, h1, h2, h3, h4, h5⟩ := hlines line hline
        refine ⟨w, h1, h2, ?_, h4, h5⟩
        intro x hx
        rcases h3 x hx with ⟨ch, hch, hxch⟩
        exact ⟨ch, List.mem_cons_of_mem _ hch, hxch⟩
    · rw [if_neg hdl]
      exact wrapLineCore_spec W ind (c :: cs) hgood hchain

/-- Every line emitted by `wrapLineCore` starts with the given indent. -/
theorem wrapLineCore_fst_shape {W : Nat} {ind : List Char}
    {chunks1 : List (List Char)} {line : List Char}
    (h : (wrapLineCore W ind chunks1).1 = some line) :
    ∃ w, line = ind ++ w := by
  unfold wrapLineCore at h
  simp only at h
  split at h
  · split at h
    · exact ⟨_, (wrapEmit_fst_eq_some h).2⟩
    · exact ⟨_, (wrapEmit_fst_eq_some h).2⟩
  · exact ⟨_, (wrapEmit_fst_eq_some h).2⟩

/-- Every line emitted by `wrapStep` starts with the given indent. -/
theorem wrapStep_fst_shape {W : Nat} {ind : List Char} {dropLead : Bool}
    {chunks : List (List Char)} {line : List Char}
    (h : (wrapStep W ind dropLead chunks).1 = some line) :
    ∃ w, line = ind ++ w := by
  cases chunks with
  | nil =>
    rw [show wrapStep W ind dropLead [] = wrapLineCore W ind [] from rfl,
      wrapLineCore_nil] at h
    exact absurd h (by simp)
  | cons c cs =>
    rw [wrapStep_cons] at h
    by_cases hdl : (dropLead && (strip c).isEmpty) = true
    · rw [if_pos hdl] at h
      exact wrapLineCore_fst_shape h
    · rw [if_neg hdl] at h
      exact wrapLineCore_fst_shape h

/-- Main loop invariant: every emitted line is one of the two indents
followed by nonblank content drawn from the chunks, and either fits
within the width or carries a single unbroken word. -/
theorem wrapChunksGo_lines (W : Nat) (ini subs : List Char) :
    ∀ (fuel : Nat) (first : Bool) (cs : List (List Char)),
      cs.length ≤ fuel →
      (∀ ch ∈ cs, ch ≠ [] ∧
        (ch.all pyIsSpace = true ∨ ch.all (fun c => !pyIsSpace c) = true)) →
      List.Chain' (fun a b => isWsChunk a ≠ isWsChunk b) cs →
      ∀ line ∈ wrapChunksGo W ini subs fuel first cs,
        ∃ ind w, (ind = ini ∨ ind = subs) ∧ line = ind ++ w ∧
          (strip w).isEmpty = false ∧
          (∀ x ∈ w, ∃ ch ∈ cs, x ∈ ch) ∧
          (ind.length + w.length ≤ W ∨ w.all (fun c => !pyIsSpace c) = true) ∧
          (∃ cl, w.getLast? = some cl ∧ pyIsSpace cl = false) := by
  intro fuel
  induction fuel with
  | zero =>
    intro first cs _ _ _ line hline
    simp [wrapChunksGo] at hline
  | succ n ih =>
    intro first cs hlen hgood hchain line hline
    cases cs with
    | nil => simp [wrapChunksGo] at hline
    | cons c cs' =>
      simp only [wrapChunksGo] at hline
      obtain ⟨⟨pre, hpre⟩, hlspec⟩ := wrapStep_spec W (if first then ini else subs)
        (!first) (c :: cs') hgood hchain
      have hrest_len :
          (wrapStep W (if first then ini else subs) (!first) (c :: cs')).2.length ≤ n := by
        have := wrapStep_rest_length_lt W (if first then ini else subs) (!first)
          (c :: cs') (by simp)
        simp only [List.length_cons] at this hlen
        omega
      have hrest_good : ∀ ch ∈ (wrapStep W (if first then ini else subs) (!first)
          (c :: cs')).2, ch ≠ [] ∧
          (ch.all pyIsSpace = true ∨ ch.all (fun c => !pyIsSpace c) = true) := by
        intro ch hch
        apply hgood
        rw [← hpre]
        exact List.mem_append_right _ hch
      have hrest_chain : List.Chain' (fun a b => isWsChunk a ≠ isWsChunk b)
          (wrapStep W (if first then ini else subs) (!first) (c :: cs')).2 := by
        rw [← hpre] at hchain
        exact hchain.right_of_append
      have hlift : ∀ (w : List Char), (∀ x ∈ w, ∃ ch ∈ (wrapStep W (if first then ini else subs)
          (!first) (c :: cs')).2, x ∈ ch) → ∀ x ∈ w, ∃ ch ∈ c :: cs', x ∈ ch := by
        intro w hw x hx
        rcases hw x hx with ⟨ch, hch, hxch⟩
        refine ⟨ch, ?_, hxch⟩
        rw [← hpre]
        exact List.mem_append_right _ hch
      cases hst : (wrapStep W (if first then ini else subs) (!first) (c :: cs')).1 with
      | some l0 =>
        rw [hst] at hline
        simp only [List.mem_cons] at hline
        rcases hline with rfl | hline'
        · obtain ⟨w, h1, h2, h3, h4, h5⟩ := hlspec line hst
          refine ⟨if first then ini else subs, w, ?_, h1, h2, ?_, h4, h5⟩
          · cases first
            · right; rfl
            · left; rfl
          · intro x hx
            rcases h3 x hx with ⟨ch, hch, hxch⟩
            exact ⟨ch, hch, hxch⟩
        · obtain ⟨ind, w, h1, h2, h3, h4, h5, h6⟩ := ih false _ hrest_len hrest_good
            hrest_chain line hline'
          exact ⟨ind, w, h1, h2, h3, hlift w h4, h5, h6⟩
      | none =>
        rw [hst] at hline
        obtain ⟨ind, w, h1, h2, h3, h4, h5, h6⟩ := ih first _ hrest_len hrest_good
          hrest_chain line hline
        exact ⟨ind, w, h1, h2, h3, hlift w h4, h5, h6⟩

/-- `wrapLines` invariant at the `fill` entry point. -/
theorem wrapLines_spec (W : Nat) (ini subs text : List Char) :
    ∀ line ∈ wrapLines W ini subs text,
      ∃ ind w, (ind = ini ∨ ind = subs) ∧ line = ind ++ w ∧
        (strip w).isEmpty = false ∧
        (∀ x ∈ w, x ∈ munge text) ∧
        (ind.length + w.length ≤ W ∨ w.all (fun c => !pyIsSpace c) = true) ∧
        (∃ cl, w.getLast? = some cl ∧ pyIsSpace cl = false) := by
  intro line hline
  unfold wrapLines at hline
  obtain ⟨ind, w, h1, h2, h3, h4, h5, h6⟩ := wrapChunksGo_lines W ini subs _ true _
    le_rfl (mem_splitChunks (munge text)) (splitChunks_chain (munge text)) line hline
  refine ⟨ind, w, h1, h2, h3, ?_, h5, h6⟩
  intro x hx
  rcases h4 x hx with ⟨ch, hch, hxch⟩
  rw [← splitChunks_flatten (munge text)]
  exact List.mem_flatten.mpr ⟨ch, hch, hxch⟩

/-- With `first = false` every line uses the subsequent indent. -/
theorem wrapChunksGo_false_lines (W : Nat) (ini subs : List Char) :
    ∀ (fuel : Nat) (cs : List (List Char)),
      ∀ line ∈ wrapChunksGo W ini subs fuel false cs, ∃ w, line = subs ++ w := by
  intro fuel
  induction fuel with
  | zero => intro cs line h; simp [wrapChunksGo] at h
  | succ n ih =>
    intro cs line hline
    cases cs with
    | nil => simp [wrapChunksGo] at hline
    | cons c cs' =>
      simp only [wrapChunksGo, Bool.not_false, Bool.false_eq_true, if_false] at hline
      cases hst : (wrapStep W subs true (c :: cs')).1 with
      | some l0 =>
        rw [hst] at hline
        simp only [List.mem_cons] at hline
        rcases hline with rfl | hline'
        · exact wrapStep_fst_shape hst
        · exact ih _ line hline'
      | none =>
        rw [hst] at hline
        exact ih _ line hline

/-- With `first = true` the output is empty, or its head uses the initial
indent and every later line uses the subsequent indent. -/
theorem wrapChunksGo_true_shape (W : Nat) (ini subs : List Char) :
    ∀ (fuel : Nat) (cs : List (List Char)),
      wrapChunksGo W ini subs fuel true cs = [] ∨
        ∃ w rest, wrapChunksGo W ini subs fuel true cs = (ini ++ w) :: rest ∧
          ∀ l ∈ rest, ∃ w', l = subs ++ w' := by
  intro fuel
  induction fuel with
  | zero => intro cs; left; rfl
  | succ n ih =>
    intro cs
    cases cs with
    | nil => left; rfl
    | cons c cs' =>
      simp only [wrapChunksGo, Bool.not_true, if_true]
      cases hst : (wrapStep W ini false (c :: cs')).1 with
      | some l0 =>
        right
        obtain ⟨w, hw⟩ := wrapStep_fst_shape hst
        refine ⟨w, wrapChunksGo W ini subs n false
            (wrapStep W ini false (c :: cs')).2, ?_, ?_⟩
        · show l0 :: _ = (ini ++ w) :: _
          rw [hw]
        · intro l hl
          exact wrapChunksGo_false_lines W ini subs n _ l hl
      | none =>
        exact ih _

/-- Characters of any token of `pySplit` come from the split string. -/
theorem mem_pySplit_subset {s t : List Char} (ht : t ∈ pySplit s) :
    ∀ x ∈ t, x ∈ s := by
  intro x hx
  have h1 : t ∈ splitChunks s := List.mem_of_mem_filter ht
  rw [← splitChunks_flatten s]
  exact List.mem_flatten.mpr ⟨t, h1, hx⟩

/-- The bullet marker computed by `bulletMarkerSplit` is empty or the
first token of the stripped first line. -/
theorem bulletMarkerSplit_fst (ls ct : List Char) :
    (bulletMarkerSplit ls ct).1 = [] ∨
      (bulletMarkerSplit ls ct).1 = (pySplit ls).headD [] := by
  unfold bulletMarkerSplit
  by_cases h1 : ((ls.head? == some '-' || ls.head? == some '*' ||
      ls.head? == some '+') && decide ((pySplit ls).length > 1)) = true
  · rw [if_pos h1]
    right
    rfl
  · rw [if_neg h1]
    by_cases h2 : pyIsDigit (rstripDots (ls.takeWhile (· != ' '))) = true
    · rw [if_pos h2]
      by_cases h3 : (((pySplit ls).headD []).getLast? == some '.') = true
      · rw [if_pos h3]
        right
        rfl
      · rw [if_neg h3]
        left
        rfl
    · rw [if_neg h2]
      left
      rfl

/-- Characters of the bullet marker come from the block's first line. -/
theorem blockBullet_subset (block : List (List Char)) :
    ∀ x ∈ blockBullet block, x ∈ block.headD [] := by
  intro x hx
  unfold blockBullet at hx
  rcases bulletMarkerSplit_fst (lstrip (block.headD []))
      (blockContents block) with h | h
  · rw [h] at hx
    cases hx
  · rw [h] at hx
    have hx2 : x ∈ lstrip (block.headD []) := by
      cases hps : pySplit (lstrip (block.headD [])) with
      | nil => rw [hps] at hx; cases hx
      | cons t ts =>
        rw [hps] at hx
        simp only [List.headD_cons] at hx
        exact mem_pySplit_subset (by rw [hps]; exact List.mem_cons_self t ts) x hx
    exact (List.dropWhile_sublist pyIsSpace).subset hx2

/-- The munged text contains no newline. -/
theorem munge_no_newline (t : List Char) : '\n' ∉ munge t := by
  intro hmem
  unfold munge replaceWs at hmem
  rcases List.mem_map.mp hmem with ⟨y, hy, heq⟩
  by_cases hws : pyIsSpace y = true
  · rw [if_pos hws] at heq
    exact absurd heq (by decide)
  · rw [if_neg hws] at heq
    rw [heq] at hws
    exact hws (by decide)

/-- Lines of a rendered plain or bullet paragraph: nonblank and
newline-free (given newline-free block lines), ending in non-whitespace,
and within the width except for a single unbroken word after a prefix. -/
theorem formatParagraphLines_spec (block : List (List Char)) (indent width : Nat)
    (hnl : ∀ l ∈ block, '\n' ∉ l) :
    ∀ line ∈ formatParagraphLines block indent width,
      (strip line).isEmpty = false ∧ '\n' ∉ line ∧
        (∃ cl, line.getLast? = some cl ∧ pyIsSpace cl = false) ∧
        (line.length ≤ width ∨
          ∃ pre w, line = pre ++ w ∧ w ≠ [] ∧
            w.all (fun c => !pyIsSpace c) = true) := by
  intro line hline
  unfold formatParagraphLines at hline
  simp only at hline
  by_cases hc : (blockContents block).isEmpty = true
  · rw [if_pos hc] at hline
    cases hline
  · rw [if_neg hc] at hline
    obtain ⟨ind, w, hind, hlw, hwnb, hwmem, hbound, hcl⟩ :=
      wrapLines_spec width _ _ _ line hline
    have hindnl : '\n' ∉ ind := by
      have hbase : '\n' ∉ List.replicate indent ' ' := by
        intro hmem
        have := List.eq_of_mem_replicate hmem
        exact absurd this (by decide)
      have hbul : '\n' ∉ blockBullet block := by
        intro hmem
        have hx := blockBullet_subset block '\n' hmem
        cases hb : block with
        | nil => rw [hb] at hx; cases hx
        | cons b bs =>
          rw [hb] at hx
          exact hnl b (hb ▸ List.mem_cons_self b bs) hx
      rcases hind with rfl | rfl
      · by_cases hbp : ((bulletMarkerSplit (lstrip (block.headD []))
            (blockContents block)).1).isEmpty = true
        · rw [if_pos hbp]
          exact hbase
        · rw [if_neg hbp]
          intro hmem
          rcases List.mem_append.mp hmem with h | h
          · rcases List.mem_append.mp h with h2 | h2
            · exact hbase h2
            · exact hbul h2
          · exact absurd (List.mem_singleton.mp h) (by decide)
      · by_cases hbp : ((bulletMarkerSplit (lstrip (block.headD []))
            (blockContents block)).1).isEmpty = true
        · rw [if_pos hbp]
          exact hbase
        · rw [if_neg hbp]
          intro hmem
          rcases List.mem_append.mp hmem with h | h
          · exact hbase h
          · have := List.eq_of_mem_replicate h
            exact absurd this (by decide)
    obtain ⟨cl, hcl1, hcl2⟩ := hcl
    have hwne : w ≠ [] := by
      intro h0
      rw [h0] at hcl1
      exact Option.noConfusion hcl1
    refine ⟨?_, ?_, ?_, ?_⟩
    · rw [strip_isEmpty_false_iff] at hwnb ⊢
      intro hall
      apply hwnb
      rw [List.all_eq_true] at hall ⊢
      intro x hx
      exact hall x (by rw [hlw]; exact List.mem_append_right _ hx)
    · rw [hlw]
      intro hmem
      rcases List.mem_append.mp hmem with h | h
      · exact hindnl h
      · exact munge_no_newline _ (hwmem _ h)
    · refine ⟨cl, ?_, hcl2⟩
      rw [hlw, List.getLast?_append, hcl1]
      rfl
    · rcases hbound with h | h
      · left
        rw [hlw, List.length_append]
        exact h
      · right
        exact ⟨ind, w, hlw, hwne, h⟩

/-! ### Claim C6: bullet marker and continuation alignment -/

/-- Claim C6: for a block rendered as a bullet (nonempty contents and a
nonempty marker), the rendering is either empty (an empty remainder) or
its first line is prefixed by the indent spaces, the verbatim marker and
one space, and every continuation line is prefixed by the indent spaces
plus marker-length-plus-one spaces, aligning under the first word after
the marker. -/
theorem c6_bullet_alignment (block : List (List Char)) (indent width : Nat)
    (hc : (blockContents block).isEmpty = false)
    (hbp : (blockBullet block).isEmpty = false) :
    formatParagraphLines block indent width = [] ∨
      ∃ w rest, formatParagraphLines block indent width =
          (List.replicate indent ' ' ++ blockBullet block ++ [' '] ++ w) :: rest ∧
        ∀ l ∈ rest, ∃ w', l = List.replicate indent ' ' ++
          List.replicate ((blockBullet block).length + 1) ' ' ++ w' := by
  unfold formatParagraphLines
  simp only
  rw [if_neg (by simp [hc])]
  unfold blockBullet at hbp ⊢
  simp only [hbp, Bool.false_eq_true, if_false]
  unfold wrapLines
  rcases wrapChunksGo_true_shape width
      (List.replicate indent ' ' ++
        (bulletMarkerSplit (lstrip (block.headD [])) (blockContents block)).1 ++ [' '])
      (List.replicate indent ' ' ++ List.replicate
        ((bulletMarkerSplit (lstrip (block.headD [])) (blockContents block)).1.length + 1) ' ')
      (splitChunks (munge (bulletMarkerSplit (lstrip (block.headD []))
        (blockContents block)).2)).length
      (splitChunks (munge (bulletMarkerSplit (lstrip (block.headD []))
        (blockContents block)).2)) with h | ⟨w, rest, h1, h2⟩
  · left
    exact h
  · right
    exact ⟨w, rest, h1, h2⟩

/-- Witness for claim C6 at the block `["- first item longer than ten"]`,
indent 2, width 12: the first line is `"  - first"` and both
continuation lines start with four spaces. -/
theorem c6_bullet_alignment_witness :
    formatParagraphLines [("- first item").toList] 2 8 = [] ∨
      ∃ w rest, formatParagraphLines [("- first item").toList] 2 8 =
          (List.replicate 2 ' ' ++ blockBullet [("- first item").toList] ++ [' '] ++ w) :: rest ∧
        ∀ l ∈ rest, ∃ w', l = List.replicate 2 ' ' ++
          List.replicate ((blockBullet [("- first item").toList]).length + 1) ' ' ++ w' :=
  c6_bullet_alignment [("- first item").toList] 2 8 (by decide) (by decide)

/-- Joining a one-element list of lines is that line. -/
theorem intercalate_singleton_line (x : List Char) : List.intercalate ['\n'] [x] = x := by
  simp [List.intercalate]

/-- Joining a two-or-more element list of lines. -/
theorem intercalate_cons_cons_line (x y : List Char) (ls : List (List Char)) :
    List.intercalate ['\n'] (x :: y :: ls) =
      x ++ '\n' :: List.intercalate ['\n'] (y :: ls) := by
  simp [List.intercalate, List.intersperse]

/-- Joining a list of lines with a nonempty tail. -/
theorem intercalate_cons_ne_nil (x : List Char) (rest : List (List Char))
    (h : rest ≠ []) :
    List.intercalate ['\n'] (x :: rest) =
      x ++ '\n' :: List.intercalate ['\n'] rest := by
  cases rest with
  | nil => exact absurd rfl h
  | cons y ys => exact intercalate_cons_cons_line x y ys

/-! ### Lemmas about the total line splitter -/

/-- `splitNl` never returns the empty list. -/
theorem splitNl_ne_nil (l : List Char) : splitNl l ≠ [] := by
  cases l with
  | nil => simp [splitNl]
  | cons c cs =>
    unfold splitNl
    by_cases h : c = '\n'
    · simp [h]
    · rw [if_neg h]
      simp

/-- The lines produced by `splitNl` contain no newline. -/
theorem splitNl_no_newline (l : List Char) : ∀ x ∈ splitNl l, '\n' ∉ x := by
  induction l with
  | nil => intro x hx; rcases List.mem_singleton.mp hx with rfl; simp
  | cons c cs ih =>
    intro x hx
    unfold splitNl at hx
    by_cases h : c = '\n'
    · rw [if_pos h] at hx
      rcases List.mem_cons.mp hx with rfl | hx'
      · simp
      · exact ih x hx'
    · rw [if_neg h] at hx
      cases hs : splitNl cs with
      | nil => exact absurd hs (splitNl_ne_nil cs)
      | cons p ps =>
        rw [hs] at hx
        simp only [List.headD_cons, List.tail_cons] at hx
        rcases List.mem_cons.mp hx with rfl | hx'
        · intro hmem
          rcases List.mem_cons.mp hmem with rfl | hmem'
          · exact h rfl
          · exact ih p (hs ▸ List.mem_cons_self _ _) hmem'
        · exact ih x (hs ▸ List.mem_cons_of_mem _ hx')

/-- Joining the lines of a string reproduces the string. -/
theorem intercalate_splitNl (l : List Char) :
    List.intercalate ['\n'] (splitNl l) = l := by
  induction l with
  | nil => simp [splitNl, intercalate_singleton_line]
  | cons c cs ih =>
    unfold splitNl
    by_cases h : c = '\n'
    · rw [if_pos h]
      cases hs : splitNl cs with
      | nil => exact absurd hs (splitNl_ne_nil cs)
      | cons p ps =>
        rw [hs] at ih
        rw [intercalate_cons_cons_line, List.nil_append, h, ih]
    · rw [if_neg h]
      cases hs : splitNl cs with
      | nil => exact absurd hs (splitNl_ne_nil cs)
      | cons p ps =>
        rw [hs] at ih
        simp only [List.headD_cons, List.tail_cons]
        cases ps with
        | nil =>
          rw [intercalate_singleton_line]
          rw [intercalate_singleton_line] at ih
          rw [ih]
        | cons q qs =>
          rw [intercalate_cons_cons_line]
          rw [intercalate_cons_cons_line] at ih
          rw [List.cons_append, ih]

/-- A string without newlines is a single line. -/
theorem splitNl_of_no_newline (l : List Char) (h : '\n' ∉ l) : splitNl l = [l] := by
  induction l with
  | nil => rfl
  | cons c cs ih =>
    unfold splitNl
    rw [if_neg (by intro hc; exact h (hc ▸ List.mem_cons_self _ _))]
    rw [ih (fun hm => h (List.mem_cons_of_mem _ hm))]
    simp

/-- Unfolding `splitNl` at a newline. -/
theorem splitNl_cons_nl (cs : List Char) : splitNl ('\n' :: cs) = [] :: splitNl cs := by
  rw [splitNl, if_pos rfl]

/-- Unfolding `splitNl` at a non-newline character. -/
theorem splitNl_cons_ne (c : Char) (cs : List Char) (h : c ≠ '\n') :
    splitNl (c :: cs) = (c :: (splitNl cs).headD []) :: (splitNl cs).tail := by
  rw [splitNl, if_neg h]

/-- Splitting after a newline-free prefix and an explicit newline. -/
theorem splitNl_append_newline (a b : List Char) (h : '\n' ∉ a) :
    splitNl (a ++ '\n' :: b) = a :: splitNl b := by
  induction a with
  | nil => rw [List.nil_append, splitNl_cons_nl]
  | cons c cs ih =>
    have hc : c ≠ '\n' := fun hc => h (hc ▸ List.mem_cons_self _ _)
    have hcs : '\n' ∉ cs := fun hm => h (List.mem_cons_of_mem _ hm)
    rw [List.cons_append, splitNl_cons_ne _ _ hc, ih hcs]
    simp

/-- Splitting the join of newline-free lines recovers the lines. -/
theorem splitNl_intercalate (ls : List (List Char)) (hne : ls ≠ [])
    (h : ∀ l ∈ ls, '\n' ∉ l) :
    splitNl (List.intercalate ['\n'] ls) = ls := by
  induction ls with
  | nil => exact absurd rfl hne
  | cons x xs ih =>
    cases xs with
    | nil =>
      rw [intercalate_singleton_line]
      exact splitNl_of_no_newline x (h x (List.mem_cons_self _ _))
    | cons y ys =>
      rw [intercalate_cons_cons_line,
        splitNl_append_newline _ _ (h x (List.mem_cons_self _ _)),
        ih (by simp) (fun l hl => h l (List.mem_cons_of_mem _ hl))]

/-! ### Reassembly algebra: rstrip and intercalate over lines -/

/-- A string ending in a non-whitespace character is `rstrip`-invariant. -/
theorem rstrip_eq_self_of_getLast {l : List Char} {c : Char}
    (h : l.getLast? = some c) (hc : pyIsSpace c = false) : rstrip l = l := by
  have hne : l ≠ [] := by
    intro h0
    rw [h0] at h
    exact Option.noConfusion h
  have hrev : l.reverse = c :: l.dropLast.reverse := by
    have hdecomp : l.dropLast ++ [c] = l := by
      have h1 := List.dropLast_concat_getLast hne
      have h2 : l.getLast hne = c := by
        have := List.getLast?_eq_getLast l hne
        rw [h] at this
        exact (Option.some.injEq _ _ ▸ this.symm)
      rw [h2] at h1
      exact h1
    conv_lhs => rw [← hdecomp]
    rw [List.reverse_append]
    rfl
  unfold rstrip
  rw [hrev, List.dropWhile_cons_of_neg (by simp [hc]), ← hrev, List.reverse_reverse]

/-- Appending whitespace does not change `rstrip`. -/
theorem rstrip_append_all_ws {a b : List Char} (h : b.all pyIsSpace = true) :
    rstrip (a ++ b) = rstrip a := by
  unfold rstrip
  rw [List.reverse_append, List.dropWhile_append]
  have hb : b.reverse.dropWhile pyIsSpace = [] := by
    rw [List.dropWhile_eq_nil_iff]
    intro x hx
    exact List.all_eq_true.mp h x (List.mem_reverse.mp hx)
  rw [hb]
  simp

/-- Joining lines with a trailing empty line appends one newline. -/
theorem intercalate_concat_nil_line :
    ∀ (init : List (List Char)), init ≠ [] →
      List.intercalate ['\n'] (init ++ [([] : List Char)]) =
        List.intercalate ['\n'] init ++ ['\n'] := by
  intro init
  induction init with
  | nil => intro h; exact absurd rfl h
  | cons x xs ih =>
    intro _
    cases xs with
    | nil =>
      rw [List.cons_append, List.nil_append, intercalate_cons_cons_line,
        intercalate_singleton_line, intercalate_singleton_line]
    | cons y ys =>
      rw [show (x :: y :: ys : List (List Char)) ++ [([] : List Char)] =
        x :: ((y :: ys) ++ [([] : List Char)]) from rfl]
      rw [intercalate_cons_ne_nil _ _ (by simp), ih (by simp),
        intercalate_cons_cons_line]
      simp [List.append_assoc]

/-- The join of lines ends as its last line ends. -/
theorem intercalate_getLast :
    ∀ (L : List (List Char)) (cl : Char), L ≠ [] →
      (∀ hne : L ≠ [], (L.getLast hne).getLast? = some cl) →
      (List.intercalate ['\n'] L).getLast? = some cl := by
  intro L
  induction L with
  | nil => intro cl h; exact absurd rfl h
  | cons x xs ih =>
    intro cl _ hlast
    cases xs with
    | nil =>
      rw [intercalate_singleton_line]
      exact hlast (by simp)
    | cons y ys =>
      rw [intercalate_cons_cons_line]
      have htail : (List.intercalate ['\n'] (y :: ys)).getLast? = some cl := by
        apply ih cl (by simp)
        intro hne
        have := hlast (by simp)
        rwa [List.getLast_cons (by simp : (y :: ys : List (List Char)) ≠ [])] at this
      rw [show ('\n' :: List.intercalate ['\n'] (y :: ys) : List Char) =
        ['\n'] ++ List.intercalate ['\n'] (y :: ys) from rfl]
      rw [← List.append_assoc, List.getLast?_append, htail]
      rfl

/-- Joining a concatenation of two nonempty line lists. -/
theorem intercalate_append_ne_nil :
    ∀ (A B : List (List Char)), A ≠ [] → B ≠ [] →
      List.intercalate ['\n'] (A ++ B) =
        List.intercalate ['\n'] A ++ '\n' :: List.intercalate ['\n'] B := by
  intro A
  induction A with
  | nil => intro B h; exact absurd rfl h
  | cons x xs ih =>
    intro B _ hB
    cases xs with
    | nil =>
      cases B with
      | nil => exact absurd rfl hB
      | cons b bs =>
        rw [List.cons_append, List.nil_append, intercalate_cons_cons_line,
          intercalate_singleton_line]
    | cons y ys =>
      rw [show (x :: y :: ys : List (List Char)) ++ B =
        x :: ((y :: ys) ++ B) from rfl]
      rw [intercalate_cons_ne_nil _ _ (by simp), ih B (by simp) hB,
        intercalate_cons_cons_line]
      simp [List.append_assoc]

/-- The lines of a nonempty paragraph list are nonempty. -/
theorem flatMap_splitNl_ne_nil (ps : List (List Char)) (h : ps ≠ []) :
    ps.flatMap splitNl ≠ [] := by
  cases ps with
  | nil => exact absurd rfl h
  | cons p rest =>
    simp only [List.flatMap_cons]
    intro hcon
    rcases List.append_eq_nil.mp hcon with ⟨h1, _⟩
    exact splitNl_ne_nil p h1

/-- Joining paragraphs equals joining all the paragraphs' lines. -/
theorem intercalate_flatMap_splitNl :
    ∀ (ps : List (List Char)), ps ≠ [] →
      List.intercalate ['\n'] ps =
        List.intercalate ['\n'] (ps.flatMap splitNl) := by
  intro ps
  induction ps with
  | nil => intro h; exact absurd rfl h
  | cons p rest ih =>
    intro _
    cases rest with
    | nil =>
      simp only [List.flatMap_cons, List.flatMap_nil, List.append_nil]
      rw [intercalate_singleton_line, intercalate_splitNl]
    | cons q qs =>
      rw [intercalate_cons_cons_line, ih (by simp)]
      simp only [List.flatMap_cons]
      rw [← List.flatMap_cons, intercalate_append_ne_nil _ _
        (splitNl_ne_nil p) (flatMap_splitNl_ne_nil _ (by simp)),
        intercalate_splitNl]

/-- A list of nonblank lines has no two adjacent blank lines. -/
theorem chain_of_all_nonblank (L : List (List Char))
    (h : ∀ x ∈ L, (strip x).isEmpty = false) :
    List.Chain' (fun a b => ¬((strip a).isEmpty = true ∧ (strip b).isEmpty = true)) L := by
  induction L with
  | nil => exact List.chain'_nil
  | cons x xs ih =>
    rw [List.chain'_cons']
    constructor
    · intro y _ hcon
      have := h x (List.mem_cons_self _ _)
      rw [hcon.1] at this
      exact absurd this (by simp)
    · exact ih (fun y hy => h y (List.mem_cons_of_mem _ hy))

/-! ### Provenance of lines, rstrip decomposition, trailing-newline split -/

/-- Lines produced by `splitlinesAux` contain no newline, given a clean
accumulator. -/
theorem splitlinesAux_no_newline :
    ∀ (l acc : List Char), '\n' ∉ acc →
      ∀ x ∈ splitlinesAux l acc, '\n' ∉ x := by
  intro l
  induction l with
  | nil =>
    intro acc hacc x hx
    unfold splitlinesAux at hx
    by_cases he : acc.isEmpty = true
    · rw [if_pos he] at hx; cases hx
    · rw [if_neg he] at hx
      rcases List.mem_singleton.mp hx with rfl
      intro hmem
      exact hacc (List.mem_reverse.mp hmem)
  | cons c cs ih =>
    intro acc hacc x hx
    unfold splitlinesAux at hx
    by_cases hc : (c == '\n') = true
    · rw [if_pos hc] at hx
      rcases List.mem_cons.mp hx with rfl | hx2
      · intro hmem
        exact hacc (List.mem_reverse.mp hmem)
      · exact ih [] (by intro h; cases h) x hx2
    · rw [if_neg hc] at hx
      refine ih (c :: acc) ?_ x hx
      intro hmem
      rcases List.mem_cons.mp hmem with heq | hmem2
      · exact hc (by rw [← heq]; rfl)
      · exact hacc hmem2

/-- Lines of `splitlines` contain no newline. -/
theorem splitlines_no_newline (t : List Char) : ∀ x ∈ splitlines t, '\n' ∉ x :=
  splitlinesAux_no_newline t [] (by intro h; cases h)

/-- Every line of every segmented block comes from the input lines or the
pending buffer. -/
theorem segmentAux_subset :
    ∀ (lines block : List (List Char)) (b : List (List Char)),
      b ∈ segmentAux lines block → ∀ x ∈ b, x ∈ lines ∨ x ∈ block := by
  intro lines
  induction lines with
  | nil =>
    intro block b hb x hx
    unfold segmentAux at hb
    by_cases he : block.isEmpty = true
    · rw [if_pos he] at hb; cases hb
    · rw [if_neg he] at hb
      rcases List.mem_singleton.mp hb with rfl
      exact Or.inr hx
  | cons l ls ih =>
    intro block b hb x hx
    unfold segmentAux at hb
    by_cases hblank : (strip l).isEmpty = true
    · rw [if_pos hblank] at hb
      rcases List.mem_append.mp hb with hb1 | hb2
      · by_cases he : block.isEmpty = true
        · rw [if_pos he] at hb1; cases hb1
        · rw [if_neg he] at hb1
          rcases List.mem_singleton.mp hb1 with rfl
          exact Or.inr hx
      · rcases List.mem_cons.mp hb2 with rfl | hb3
        · cases hx
        · rcases ih [] b hb3 x hx with h | h
          · exact Or.inl (List.mem_cons_of_mem _ h)
          · cases h
    · rw [if_neg hblank] at hb
      by_cases hbul : isBulletLine l = true
      · rw [if_pos hbul] at hb
        rcases List.mem_append.mp hb with hb1 | hb2
        · by_cases he : block.isEmpty = true
          · rw [if_pos he] at hb1; cases hb1
          · rw [if_neg he] at hb1
            rcases List.mem_singleton.mp hb1 with rfl
            exact Or.inr hx
        · rcases List.mem_cons.mp hb2 with rfl | hb3
          · rcases List.mem_singleton.mp hx with rfl
            exact Or.inl (List.mem_cons_self _ _)
          · rcases ih [] b hb3 x hx with h | h
            · exact Or.inl (List.mem_cons_of_mem _ h)
            · cases h
      · rw [if_neg hbul] at hb
        rcases ih (block ++ [l]) b hb x hx with h | h
        · exact Or.inl (List.mem_cons_of_mem _ h)
        · rcases List.mem_append.mp h with h1 | h2
          · exact Or.inr h1
          · rcases List.mem_singleton.mp h2 with rfl
            exact Or.inl (List.mem_cons_self _ _)

/-- Every paragraph surviving blank normalization is a blank marker or one
of the input paragraphs. -/
theorem normalizeAux_subset :
    ∀ (ps : List (List Char)) (bp hc : Bool) (p : List Char),
      p ∈ normalizeAux ps bp hc → p = [] ∨ p ∈ ps := by
  intro ps
  induction ps with
  | nil =>
    intro bp hc p h
    unfold normalizeAux at h
    cases h
  | cons q qs ih =>
    intro bp hc p hp
    unfold normalizeAux at hp
    by_cases hq : q.isEmpty = true
    · rw [if_pos hq] at hp
      by_cases hcond : (!bp && hc) = true
      · rw [if_pos hcond] at hp
        rcases List.mem_cons.mp hp with rfl | hp2
        · exact Or.inl rfl
        · rcases ih true hc p hp2 with h | h
          · exact Or.inl h
          · exact Or.inr (List.mem_cons_of_mem _ h)
      · rw [if_neg hcond] at hp
        rcases ih true hc p hp with h | h
        · exact Or.inl h
        · exact Or.inr (List.mem_cons_of_mem _ h)
    · rw [if_neg hq] at hp
      rcases List.mem_cons.mp hp with rfl | hp2
      · exact Or.inr (List.mem_cons_self _ _)
      · rcases ih false true p hp2 with h | h
        · exact Or.inl h
        · exact Or.inr (List.mem_cons_of_mem _ h)

/-- Characters of `rstrip l` come from `l`. -/
theorem rstrip_subset (l : List Char) : ∀ c ∈ rstrip l, c ∈ l := by
  intro c hc
  unfold rstrip at hc
  have h1 := List.mem_reverse.mp hc
  have h2 := (List.dropWhile_sublist (l := l.reverse) pyIsSpace).subset h1
  exact List.mem_reverse.mp h2

/-- A nonempty `rstrip` result ends in a non-whitespace character. -/
theorem rstrip_getLast_not_ws {l : List Char} (h : rstrip l ≠ []) :
    ∃ c, (rstrip l).getLast? = some c ∧ pyIsSpace c = false := by
  cases hd : l.reverse.dropWhile pyIsSpace with
  | nil =>
    exfalso
    apply h
    unfold rstrip
    rw [hd]
    rfl
  | cons a as =>
    refine ⟨a, ?_, dropWhile_head_not hd⟩
    unfold rstrip
    rw [hd]
    show (a :: as).reverse.getLast? = some a
    rw [List.reverse_cons]
    exact List.getLast?_concat _

/-- Every string is its `rstrip` followed by trailing whitespace. -/
theorem rstrip_decomp (l : List Char) :
    ∃ s, l = rstrip l ++ s ∧ s.all pyIsSpace = true := by
  refine ⟨(l.reverse.takeWhile pyIsSpace).reverse, ?_, ?_⟩
  · conv_lhs => rw [← List.reverse_reverse l,
      ← List.takeWhile_append_dropWhile (p := pyIsSpace) (l := l.reverse)]
    rw [List.reverse_append]
    rfl
  · rw [List.all_eq_true]
    intro x hx
    exact List.mem_takeWhile_imp (List.mem_reverse.mp hx)

/-- A list contains the element its `getLast?` reports. -/
theorem mem_of_getLastSome {α : Type} {l : List α} {a : α} (h : l.getLast? = some a) :
    a ∈ l := by
  induction l with
  | nil => exact Option.noConfusion h
  | cons x xs ih =>
    cases xs with
    | nil =>
      rw [show ([x] : List α).getLast? = some x from rfl] at h
      rcases Option.some.injEq x a ▸ h with rfl
      exact List.mem_cons_self _ _
    | cons y ys =>
      rw [List.getLast?_cons_cons] at h
      exact List.mem_cons_of_mem _ (ih h)

/-- Splitting after appending one newline appends one empty line. -/
theorem splitNl_append_nl (a : List Char) :
    splitNl (a ++ ['\n']) = splitNl a ++ [[]] := by
  induction a with
  | nil => rfl
  | cons c cs ih =>
    by_cases hc : c = '\n'
    · subst hc
      rw [List.cons_append, splitNl_cons_nl, splitNl_cons_nl, ih]
      rfl
    · rw [List.cons_append, splitNl_cons_ne c _ hc, splitNl_cons_ne c _ hc, ih]
      cases hs : splitNl cs with
      | nil => exact absurd hs (splitNl_ne_nil cs)
      | cons z zs => rfl

/-! ### Structure of the normalized paragraph list -/

/-- The blank-collapsing loop never emits a blank first (when no content
was emitted yet, or when a blank is pending) and never emits two adjacent
blanks. -/
theorem normalizeAux_structure :
    ∀ (ps : List (List Char)) (bp hc : Bool),
      (∀ q, (bp = true ∨ hc = false) →
        (normalizeAux ps bp hc).head? = some q → q ≠ []) ∧
      List.Chain' (fun a b => ¬(a = [] ∧ b = [])) (normalizeAux ps bp hc) := by
  intro ps
  induction ps with
  | nil =>
    intro bp hc
    constructor
    · intro q _ hq
      unfold normalizeAux at hq
      exact Option.noConfusion hq
    · unfold normalizeAux
      exact List.chain'_nil
  | cons p ps ih =>
    intro bp hc
    by_cases hpe : p.isEmpty = true
    · by_cases hcond : (!bp && hc) = true
      · have hout : normalizeAux (p :: ps) bp hc = [] :: normalizeAux ps true hc := by
          show (if p.isEmpty = true then
              if (!bp && hc) = true then [] :: normalizeAux ps true hc
              else normalizeAux ps true hc
            else p :: normalizeAux ps false true) = [] :: normalizeAux ps true hc
          rw [if_pos hpe, if_pos hcond]
        constructor
        · intro q hside hq
          have hbp : bp = false := by
            cases bp
            · rfl
            · simp at hcond
          have hhc : hc = true := by
            cases hc
            · simp at hcond
            · rfl
          rcases hside with h | h
          · rw [hbp] at h; exact Bool.noConfusion h
          · rw [hhc] at h; exact Bool.noConfusion h
        · rw [hout, List.chain'_cons']
          constructor
          · intro y hy hcon
            exact ((ih true hc).1 y (Or.inl rfl) (Option.mem_def.mp hy)) hcon.2
          · exact (ih true hc).2
      · have hout : normalizeAux (p :: ps) bp hc = normalizeAux ps true hc := by
          show (if p.isEmpty = true then
              if (!bp && hc) = true then [] :: normalizeAux ps true hc
              else normalizeAux ps true hc
            else p :: normalizeAux ps false true) = normalizeAux ps true hc
          rw [if_pos hpe, if_neg hcond]
        constructor
        · intro q hside hq
          rw [hout] at hq
          exact (ih true hc).1 q (Or.inl rfl) hq
        · rw [hout]
          exact (ih true hc).2
    · have hout : normalizeAux (p :: ps) bp hc = p :: normalizeAux ps false true := by
        show (if p.isEmpty = true then
            if (!bp && hc) = true then [] :: normalizeAux ps true hc
            else normalizeAux ps true hc
          else p :: normalizeAux ps false true) = p :: normalizeAux ps false true
        rw [if_neg hpe]
      have hpne : p ≠ [] := by
        intro h
        rw [h] at hpe
        exact hpe rfl
      constructor
      · intro q _ hq
        rw [hout, List.head?_cons] at hq
        injection hq with h
        rw [← h]
        exact hpne
      · rw [hout, List.chain'_cons']
        constructor
        · intro y _ hcon
          exact hpne hcon.1
        · exact (ih false true).2

/-- Concatenating the line lists of paragraphs with isolated blank markers
yields no two adjacent blank lines. -/
theorem chain_flatMap_splitNl :
    ∀ (ms : List (List Char)),
      List.Chain' (fun a b => ¬(a = [] ∧ b = [])) ms →
      (∀ p ∈ ms, p = [] ∨ ∀ x ∈ splitNl p, (strip x).isEmpty = false) →
      List.Chain' (fun a b => ¬((strip a).isEmpty = true ∧ (strip b).isEmpty = true))
        (ms.flatMap splitNl) := by
  intro ms
  induction ms with
  | nil =>
    intro _ _
    exact List.chain'_nil
  | cons p rest ih =>
    intro hchain hgood
    rw [List.flatMap_cons]
    apply List.chain'_append.mpr
    refine ⟨?_, ?_, ?_⟩
    · rcases hgood p (List.mem_cons_self _ _) with hp0 | hpn
      · rw [hp0]
        exact List.chain'_singleton _
      · exact chain_of_all_nonblank _ hpn
    · exact ih hchain.tail (fun q hq => hgood q (List.mem_cons_of_mem _ hq))
    · intro x hx y hy
      cases rest with
      | nil => simp at hy
      | cons q qs =>
        have hyq : y ∈ splitNl q := by
          rw [List.flatMap_cons] at hy
          cases hsq : splitNl q with
          | nil => exact absurd hsq (splitNl_ne_nil q)
          | cons z zs =>
            rw [hsq] at hy
            have hyz : z = y := by simpa using hy
            rw [← hyz]
            exact List.mem_cons_self _ _
        have hrel : ¬(p = [] ∧ q = []) :=
          (List.chain'_cons'.mp hchain).1 q (by simp)
        by_cases hp0 : p = []
        · have hq0 : q ≠ [] := fun h => hrel ⟨hp0, h⟩
          rcases hgood q (List.mem_cons_of_mem _ (List.mem_cons_self _ _)) with h | h
          · exact absurd h hq0
          · intro hcon
            rw [h y hyq] at hcon
            exact Bool.noConfusion hcon.2
        · rcases hgood p (List.mem_cons_self _ _) with h | h
          · exact absurd h hp0
          · have hxp : x ∈ splitNl p := mem_of_getLastSome (Option.mem_def.mp hx)
            intro hcon
            rw [h x hxp] at hcon
            exact Bool.noConfusion hcon.1

/-- Right-trimming a join of lines whose last line survives its own trim
only trims the last line. -/
theorem rstrip_intercalate_lines (d : List (List Char)) (bl : List Char)
    (hr : rstrip bl ≠ []) :
    rstrip (List.intercalate ['\n'] (d ++ [bl])) =
      List.intercalate ['\n'] (d ++ [rstrip bl]) := by
  obtain ⟨s, hdec, hall⟩ := rstrip_decomp bl
  obtain ⟨c, hc1, hc2⟩ := rstrip_getLast_not_ws hr
  cases d with
  | nil =>
    rw [List.nil_append, List.nil_append, intercalate_singleton_line,
      intercalate_singleton_line]
  | cons d0 ds =>
    rw [intercalate_append_ne_nil (d0 :: ds) [bl] (by simp) (by simp),
      intercalate_append_ne_nil (d0 :: ds) [rstrip bl] (by simp) (by simp),
      intercalate_singleton_line, intercalate_singleton_line]
    conv_lhs => rw [hdec]
    have hassoc : List.intercalate ['\n'] (d0 :: ds) ++ '\n' :: (rstrip bl ++ s) =
        (List.intercalate ['\n'] (d0 :: ds) ++ '\n' :: rstrip bl) ++ s := by
      rw [List.append_assoc]
      rfl
    rw [hassoc, rstrip_append_all_ws hall]
    have hlast2 : (List.intercalate ['\n'] (d0 :: ds) ++ '\n' :: rstrip bl).getLast? =
        some c := by
      rw [show (List.intercalate ['\n'] (d0 :: ds) ++ '\n' :: rstrip bl : List Char) =
        (List.intercalate ['\n'] (d0 :: ds) ++ ['\n']) ++ rstrip bl from by
          rw [List.append_assoc]; rfl]
      rw [List.getLast?_append, hc1]
      rfl
    exact rstrip_eq_self_of_getLast hlast2 hc2

/-- Dropping a single trailing blank marker from the paragraph list does
not change the trimmed joined body, and leaves a list with a nonblank
last element. -/
theorem trim_trailing_blank (ns : List (List Char)) (hne : ns ≠ [])
    (hhead : ∀ q, ns.head? = some q → q ≠ [])
    (hchain : List.Chain' (fun a b => ¬(a = [] ∧ b = [])) ns) :
    ∃ A, A ≠ [] ∧ A.head? = ns.head? ∧ (∀ p ∈ A, p ∈ ns) ∧
      List.Chain' (fun a b => ¬(a = [] ∧ b = [])) A ∧
      (∀ h : A ≠ [], A.getLast h ≠ []) ∧
      rstrip (List.intercalate ['\n'] ns) = rstrip (List.intercalate ['\n'] A) := by
  by_cases htr : ns.getLast hne = []
  · have hdecomp : ns = ns.dropLast ++ [[]] := by
      have h1 := List.dropLast_concat_getLast hne
      rw [htr] at h1
      exact h1.symm
    have hAne : ns.dropLast ≠ [] := by
      intro h0
      have : ns = [[]] := by rw [hdecomp, h0]; rfl
      have hq := hhead [] (by rw [this]; rfl)
      exact hq rfl
    have hchainA := (List.chain'_append.mp (hdecomp ▸ hchain))
    refine ⟨ns.dropLast, hAne, ?_, ?_, hchainA.1, ?_, ?_⟩
    · cases hns : ns with
      | nil => exact absurd hns hne
      | cons a l =>
        cases hl : l with
        | nil =>
          exfalso
          apply hAne
          rw [hns, hl]
          rfl
        | cons b m => rfl
    · intro p hp
      rw [hdecomp]
      exact List.mem_append_left _ hp
    · intro h
      have hin : ns.dropLast.getLast? = some (ns.dropLast.getLast h) :=
        List.getLast?_eq_getLast _ h
      have := hchainA.2.2 (ns.dropLast.getLast h) (Option.mem_def.mpr hin) []
        (by simp)
      intro h0
      exact this ⟨h0, rfl⟩
    · conv_lhs => rw [hdecomp]
      rw [intercalate_concat_nil_line ns.dropLast hAne,
        rstrip_append_all_ws (by decide : (['\n'] : List Char).all pyIsSpace = true)]
  · refine ⟨ns, hne, rfl, fun p hp => hp, hchain, ?_, rfl⟩
    intro h
    exact htr

/-- Shape of a rendered paragraph line: one of the block's two indents
followed by nonblank content, within the width unless the content is a
single unbroken word. -/
theorem formatParagraphLines_shape (block : List (List Char)) (indent width : Nat) :
    ∀ line ∈ formatParagraphLines block indent width,
      ∃ ind w, (ind = blockIni block indent ∨ ind = blockSubs block indent) ∧
        line = ind ++ w ∧ (strip w).isEmpty = false ∧
        (line.length ≤ width ∨ w.all (fun c => !pyIsSpace c) = true) := by
  intro line hline
  unfold formatParagraphLines at hline
  simp only at hline
  by_cases hc : (blockContents block).isEmpty = true
  · rw [if_pos hc] at hline
    cases hline
  · rw [if_neg hc] at hline
    obtain ⟨ind, w, hind, hlw, hwnb, _, hbound, _⟩ := wrapLines_spec width _ _ _ line hline
    refine ⟨ind, w, ?_, hlw, hwnb, ?_⟩
    · rcases hind with rfl | rfl
      · left
        rfl
      · right
        rfl
    · rcases hbound with h | h
      · left
        rw [hlw, List.length_append]
        exact h
      · right
        exact h

/-- Per-paragraph line facts for `format_text`: every nonempty rendered
paragraph ends in a non-whitespace character, and each of its lines is
nonblank and either comes from a verbatim preformatted block, fits the
width, or is an indent followed by a single unbroken word. -/
theorem paragraph_splitNl_spec (text : List Char) (indent width : Nat)
    (p : List Char) (hp : p ∈ paragraphsOf text indent width) (hne : p ≠ []) :
    (∃ c, p.getLast? = some c ∧ pyIsSpace c = false) ∧
    ∀ x ∈ splitNl p,
      (strip x).isEmpty = false ∧
      ((∃ b, b ∈ blocksOf (splitlines text) ∧ isPreformatted b = true ∧
          p = renderBlock indent width b) ∨
        x.length ≤ width ∨
        ∃ b, b ∈ blocksOf (splitlines text) ∧ ∃ w, w ≠ [] ∧
          w.all (fun c => !pyIsSpace c) = true ∧
          (x = blockIni b indent ++ w ∨ x = blockSubs b indent ++ w)) := by
  unfold paragraphsOf at hp
  rcases List.mem_map.mp hp with ⟨b, hb, hpb⟩
  have hbnonblank : ∀ x ∈ b, (strip x).isEmpty = false :=
    segmentAux_blocks_nonblank (splitlines text) [] (by intro y hy; cases hy) b hb
  have hbnl : ∀ x ∈ b, '\n' ∉ x := by
    intro x hx
    rcases segmentAux_subset (splitlines text) [] b hb x hx with h | h
    · exact splitlines_no_newline text x h
    · cases h
  by_cases hbe : b.isEmpty = true
  · exfalso
    apply hne
    rw [← hpb]
    unfold renderBlock
    rw [if_pos hbe]
  · by_cases hpre : isPreformatted b = true
    · have hpval : p = rstrip (List.intercalate ['\n'] b) := by
        rw [← hpb]
        unfold renderBlock
        rw [if_neg hbe, if_pos hpre]
      have hbne : b ≠ [] := by
        intro h
        rw [h] at hbe
        exact hbe rfl
      obtain ⟨bl, d, hbd⟩ : ∃ bl d, b = d ++ [bl] :=
        ⟨b.getLast hbne, b.dropLast, (List.dropLast_concat_getLast hbne).symm⟩
      have hblmem : bl ∈ b := by
        rw [hbd]
        exact List.mem_append_right _ (List.mem_cons_self _ _)
      have hblnb : (strip bl).isEmpty = false := hbnonblank bl hblmem
      have hrbl : rstrip bl ≠ [] := by
        intro h
        have hall := (rstrip_eq_nil_iff bl).mp h
        have hnil := (strip_eq_nil_iff bl).mpr hall
        rw [hnil] at hblnb
        exact Bool.noConfusion hblnb
      have hkey : p = List.intercalate ['\n'] (d ++ [rstrip bl]) := by
        rw [hpval, hbd]
        exact rstrip_intercalate_lines d bl hrbl
      have hprest : rstrip p ≠ [] := by
        rw [hpval, rstrip_idem]
        rw [← hpval]
        exact hne
      have hpr : rstrip p = p := by
        rw [hpval, rstrip_idem]
      obtain ⟨c, hc1, hc2⟩ := rstrip_getLast_not_ws hprest
      rw [hpr] at hc1
      refine ⟨⟨c, hc1, hc2⟩, ?_⟩
      intro x hx
      have hnl2 : ∀ y ∈ d ++ [rstrip bl], '\n' ∉ y := by
        intro y hy
        rcases List.mem_append.mp hy with h | h
        · exact hbnl y (by rw [hbd]; exact List.mem_append_left _ h)
        · rcases List.mem_singleton.mp h with rfl
          intro hmem
          exact hbnl bl hblmem (rstrip_subset bl _ hmem)
      rw [hkey, splitNl_intercalate _ (by simp) hnl2] at hx
      constructor
      · rcases List.mem_append.mp hx with h | h
        · exact hbnonblank x (by rw [hbd]; exact List.mem_append_left _ h)
        · rcases List.mem_singleton.mp h with rfl
          obtain ⟨c2, hc21, hc22⟩ := rstrip_getLast_not_ws hrbl
          cases hres : (strip (rstrip bl)).isEmpty with
          | false => rfl
          | true =>
            exfalso
            have hnil : strip (rstrip bl) = [] := by
              cases hsx : strip (rstrip bl) with
              | nil => rfl
              | cons u us =>
                rw [hsx] at hres
                exact Bool.noConfusion hres
            have hall := (strip_eq_nil_iff _).mp hnil
            have hcmem : c2 ∈ rstrip bl := mem_of_getLastSome hc21
            have hfls := List.all_eq_true.mp hall c2 hcmem
            rw [hc22] at hfls
            exact Bool.noConfusion hfls
      · left
        exact ⟨b, hb, hpre, hpb.symm⟩
    · have hpval : p = formatParagraph b indent width := by
        rw [← hpb]
        unfold renderBlock
        rw [if_neg hbe, if_neg hpre]
      have hflne : formatParagraphLines b indent width ≠ [] := by
        intro h
        apply hne
        rw [hpval]
        unfold formatParagraph
        rw [h]
        simp [List.intercalate]
      have hspec := formatParagraphLines_spec b indent width hbnl
      have hshape := formatParagraphLines_shape b indent width
      have hflnl : ∀ y ∈ formatParagraphLines b indent width, '\n' ∉ y :=
        fun y hy => (hspec y hy).2.1
      have hsplit : splitNl p = formatParagraphLines b indent width := by
        rw [hpval]
        unfold formatParagraph
        exact splitNl_intercalate _ hflne hflnl
      constructor
      · obtain ⟨ll, hll⟩ : ∃ ll, (formatParagraphLines b indent width).getLast? = some ll :=
          ⟨_, List.getLast?_eq_getLast _ hflne⟩
        have hllmem : ll ∈ formatParagraphLines b indent width := mem_of_getLastSome hll
        obtain ⟨cl, hcl1, hcl2⟩ := (hspec ll hllmem).2.2.1
        refine ⟨cl, ?_, hcl2⟩
        rw [hpval]
        unfold formatParagraph
        apply intercalate_getLast _ cl hflne
        intro hne2
        have hgl := List.getLast?_eq_getLast (formatParagraphLines b indent width) hne2
        rw [hll] at hgl
        injection hgl with hgl2
        rw [← hgl2]
        exact hcl1
      · intro x hx
        rw [hsplit] at hx
        refine ⟨(hspec x hx).1, ?_⟩
        obtain ⟨ind, w, hindor, hxw, hwnb, hbound⟩ := hshape x hx
        rcases hbound with h | h
        · right
          left
          exact h
        · right
          right
          refine ⟨b, hb, w, ?_, h, ?_⟩
          · intro h0
            rw [h0] at hwnb
            exact Bool.noConfusion hwnb
          · rcases hindor with rfl | rfl
            · left
              exact hxw
            · right
              exact hxw

/-- Assembling the normalized paragraphs: the trimmed joined body is
empty, or it ends in non-whitespace, its first line is nonblank, no two
adjacent lines are blank, and every line satisfies the per-line payload
`P` carried by the paragraphs (with `P []` for blank separator lines). -/
theorem assembled_body_lines (ns : List (List Char)) (P : List Char → Prop)
    (hhead : ∀ q, ns.head? = some q → q ≠ [])
    (hchain : List.Chain' (fun a b => ¬(a = [] ∧ b = [])) ns)
    (hpara : ∀ p ∈ ns, p ≠ [] →
      ((∃ c, p.getLast? = some c ∧ pyIsSpace c = false) ∧
        ∀ x ∈ splitNl p, (strip x).isEmpty = false ∧ P x))
    (Pnil : P []) :
    rstrip (List.intercalate ['\n'] ns) = [] ∨
      ((∃ c, (rstrip (List.intercalate ['\n'] ns)).getLast? = some c ∧
          pyIsSpace c = false) ∧
        (strip ((splitNl (rstrip (List.intercalate ['\n'] ns))).headD [])).isEmpty
          = false ∧
        List.Chain' (fun a b => ¬((strip a).isEmpty = true ∧ (strip b).isEmpty = true))
          (splitNl (rstrip (List.intercalate ['\n'] ns))) ∧
        ∀ x ∈ splitNl (rstrip (List.intercalate ['\n'] ns)), P x) := by
  by_cases hnse : ns = []
  · left
    rw [hnse]
    rfl
  · obtain ⟨A, hAne, hAhead, hAmem, hAchain, hAlast, hAbody⟩ :=
      trim_trailing_blank ns hnse hhead hchain
    have hApara : ∀ p ∈ A, p ≠ [] →
        ((∃ c, p.getLast? = some c ∧ pyIsSpace c = false) ∧
          ∀ x ∈ splitNl p, (strip x).isEmpty = false ∧ P x) :=
      fun p hp => hpara p (hAmem p hp)
    have hg : A.getLast hAne ≠ [] := hAlast hAne
    have hgmem : A.getLast hAne ∈ A := mem_of_getLastSome (List.getLast?_eq_getLast A hAne)
    obtain ⟨⟨c, hc1, hc2⟩, hglines⟩ := hApara _ hgmem hg
    have hic : (List.intercalate ['\n'] A).getLast? = some c := by
      apply intercalate_getLast A c hAne
      intro h2
      exact hc1
    have hbody3 : rstrip (List.intercalate ['\n'] A) = List.intercalate ['\n'] A :=
      rstrip_eq_self_of_getLast hic hc2
    have hbodyA : rstrip (List.intercalate ['\n'] ns) = List.intercalate ['\n'] A := by
      rw [hAbody, hbody3]
    have hLnl : ∀ x ∈ A.flatMap splitNl, '\n' ∉ x := by
      intro x hx
      rcases List.mem_flatMap.mp hx with ⟨p, hpA, hxp⟩
      exact splitNl_no_newline p x hxp
    have hLne : A.flatMap splitNl ≠ [] := flatMap_splitNl_ne_nil A hAne
    have hsplit : splitNl (rstrip (List.intercalate ['\n'] ns)) = A.flatMap splitNl := by
      rw [hbodyA, intercalate_flatMap_splitNl A hAne]
      exact splitNl_intercalate _ hLne hLnl
    right
    refine ⟨⟨c, by rw [hbodyA]; exact hic, hc2⟩, ?_, ?_, ?_⟩
    · -- first line nonblank
      obtain ⟨n0, A2, hA0⟩ : ∃ n0 A2, A = n0 :: A2 := by
        cases hAc : A with
        | nil => exact absurd hAc hAne
        | cons a l => exact ⟨a, l, rfl⟩
      have hn0 : n0 ≠ [] := by
        apply hhead n0
        rw [← hAhead, hA0]
        rfl
      obtain ⟨_, hn0lines⟩ := hApara n0 (by rw [hA0]; exact List.mem_cons_self _ _) hn0
      rw [hsplit, hA0, List.flatMap_cons]
      cases hz : splitNl n0 with
      | nil => exact absurd hz (splitNl_ne_nil n0)
      | cons z zs =>
        have hzmem : z ∈ splitNl n0 := by
          rw [hz]
          exact List.mem_cons_self _ _
        have := (hn0lines z hzmem).1
        simpa using this
    · rw [hsplit]
      apply chain_flatMap_splitNl A hAchain
      intro q hq
      by_cases hq0 : q = []
      · exact Or.inl hq0
      · exact Or.inr (fun x hx => ((hApara q hq hq0).2 x hx).1)
    · intro x hx
      rw [hsplit] at hx
      rcases List.mem_flatMap.mp hx with ⟨q, hqA, hxq⟩
      by_cases hq0 : q = []
      · rw [hq0] at hxq
        rcases List.mem_singleton.mp hxq with rfl
        exact Pnil
      · exact ((hApara q hqA hq0).2 x hxq).2

/-! ### Word algebra: how pySplit interacts with cons, append and joins -/

/-- A leading whitespace character merges into the leading whitespace run. -/
theorem pySplit_cons_ws (a : Char) (t : List Char) (ha : pyIsSpace a = true) :
    pySplit (a :: t) = pySplit (t.dropWhile pyIsSpace) := by
  unfold pySplit
  rw [splitChunks_cons]
  have hfun : (fun x => pyIsSpace x == pyIsSpace a) = pyIsSpace := by
    funext x
    rw [ha]
    cases pyIsSpace x <;> rfl
  rw [hfun, List.filter_cons]
  have hws : isWsChunk (a :: t.takeWhile pyIsSpace) = true := by
    unfold isWsChunk
    rw [List.all_cons, ha]
    simp only [Bool.true_and]
    rw [List.all_eq_true]
    intro x hx
    exact List.mem_takeWhile_imp hx
  rw [hws]
  simp

/-- Dropping leading whitespace does not change the words. -/
theorem pySplit_dropWhile_ws : ∀ t : List Char, pySplit (t.dropWhile pyIsSpace) = pySplit t := by
  intro t
  induction t with
  | nil => rfl
  | cons b t2 ih =>
    by_cases hb : pyIsSpace b = true
    · rw [List.dropWhile_cons_of_pos (by simp [hb]), pySplit_cons_ws b t2 hb]
    · rw [List.dropWhile_cons_of_neg (by simp [hb])]

/-- A leading whitespace character does not change the words. -/
theorem pySplit_ws_cons (a : Char) (t : List Char) (ha : pyIsSpace a = true) :
    pySplit (a :: t) = pySplit t := by
  rw [pySplit_cons_ws a t ha, pySplit_dropWhile_ws]

/-- A leading all-whitespace prefix does not change the words. -/
theorem pySplit_ws_before : ∀ (A X : List Char), A.all pyIsSpace = true →
    pySplit (A ++ X) = pySplit X := by
  intro A
  induction A with
  | nil => intro X _; rfl
  | cons a A2 ih =>
    intro X hall
    rw [List.all_cons, Bool.and_eq_true] at hall
    rw [List.cons_append, pySplit_ws_cons a _ hall.1]
    exact ih X hall.2

/-- `takeWhile` passes through a prefix satisfying the predicate. -/
theorem takeWhile_append_all (p : Char → Bool) :
    ∀ (A B : List Char), A.all p = true → (A ++ B).takeWhile p = A ++ B.takeWhile p := by
  intro A
  induction A with
  | nil => intro B _; rfl
  | cons a A2 ih =>
    intro B hall
    rw [List.all_cons, Bool.and_eq_true] at hall
    rw [List.cons_append, List.takeWhile_cons_of_pos hall.1, ih B hall.2]
    rfl

/-- `dropWhile` passes over a prefix satisfying the predicate. -/
theorem dropWhile_append_all (p : Char → Bool) :
    ∀ (A B : List Char), A.all p = true → (A ++ B).dropWhile p = B.dropWhile p := by
  intro A
  induction A with
  | nil => intro B _; rfl
  | cons a A2 ih =>
    intro B hall
    rw [List.all_cons, Bool.and_eq_true] at hall
    rw [List.cons_append, List.dropWhile_cons_of_pos hall.1, ih B hall.2]

/-- `takeWhile` is empty when the head fails the predicate. -/
theorem takeWhile_nil_of_headFail (p : Char → Bool) (t : List Char)
    (h : ∀ c, t.head? = some c → p c = false) : t.takeWhile p = [] := by
  cases t with
  | nil => rfl
  | cons a t2 => rw [List.takeWhile_cons_of_neg (by simp [h a rfl])]

/-- `dropWhile` keeps everything when the head fails the predicate. -/
theorem dropWhile_self_of_headFail (p : Char → Bool) (t : List Char)
    (h : ∀ c, t.head? = some c → p c = false) : t.dropWhile p = t := by
  cases t with
  | nil => rfl
  | cons a t2 => rw [List.dropWhile_cons_of_neg (by simp [h a rfl])]

/-- A word followed by whitespace (or nothing) is the first token. -/
theorem pySplit_word_then_ws (w t : List Char) (hne : w ≠ [])
    (hall : w.all (fun c => !pyIsSpace c) = true)
    (ht : ∀ c, t.head? = some c → pyIsSpace c = true) :
    pySplit (w ++ t) = w :: pySplit t := by
  cases w with
  | nil => exact absurd rfl hne
  | cons c w2 =>
    rw [List.all_cons, Bool.and_eq_true] at hall
    have hc : pyIsSpace c = false := by simpa using hall.1
    rw [List.cons_append, pySplit_cons_of_head_not_space c _ hc]
    congr 1
    · unfold firstToken
      rw [List.takeWhile_cons_of_pos (by simp [hc]),
        takeWhile_append_all _ w2 t hall.2,
        takeWhile_nil_of_headFail _ t (by intro c2 hc2; simp [ht c2 hc2]),
        List.append_nil]
    · rw [List.dropWhile_cons_of_pos (by simp [hc]),
        dropWhile_append_all _ w2 t hall.2,
        dropWhile_self_of_headFail _ t (by intro c2 hc2; simp [ht c2 hc2])]

/-- Splitting across a boundary whose right side starts with whitespace. -/
theorem pySplit_append_sep_aux :
    ∀ (n : Nat) (x r : List Char), x.length ≤ n →
      (∀ c, r.head? = some c → pyIsSpace c = true) →
      pySplit (x ++ r) = pySplit x ++ pySplit r := by
  intro n
  induction n with
  | zero =>
    intro x r hl _
    have hx : x = [] := List.length_eq_zero.mp (Nat.le_zero.mp hl)
    subst hx
    rfl
  | succ n ih =>
    intro x r hl hr
    cases x with
    | nil => rfl
    | cons c x2 =>
      simp only [List.length_cons] at hl
      by_cases hc : pyIsSpace c = true
      · rw [List.cons_append, pySplit_ws_cons c _ hc, pySplit_ws_cons c _ hc]
        exact ih x2 r (by omega) hr
      · have hc2 : pyIsSpace c = false := by
          cases hx : pyIsSpace c
          · rfl
          · exact absurd hx hc
        rw [List.cons_append, pySplit_cons_of_head_not_space c _ hc2,
          pySplit_cons_of_head_not_space c _ hc2, List.cons_append]
        congr 1
        · unfold firstToken
          rw [List.takeWhile_cons_of_pos (by simp [hc2]),
            List.takeWhile_cons_of_pos (by simp [hc2])]
          have hx2 : x2 ++ r =
              x2.takeWhile (fun x => !pyIsSpace x) ++
                (x2.dropWhile (fun x => !pyIsSpace x) ++ r) := by
            rw [← List.append_assoc, List.takeWhile_append_dropWhile]
          rw [hx2, takeWhile_append_all _ _ _
            (List.all_eq_true.mpr (fun x hx => List.mem_takeWhile_imp hx))]
          have hrest : (x2.dropWhile (fun x => !pyIsSpace x) ++ r).takeWhile
              (fun x => !pyIsSpace x) = [] := by
            apply takeWhile_nil_of_headFail
            intro c3 hc3
            cases hd : x2.dropWhile (fun x => !pyIsSpace x) with
            | nil =>
              rw [hd] at hc3
              simp only [List.nil_append] at hc3
              simp [hr c3 hc3]
            | cons e d2 =>
              rw [hd] at hc3
              simp only [List.cons_append, List.head?_cons] at hc3
              injection hc3 with hc4
              rw [← hc4]
              exact dropWhile_head_not hd
          rw [hrest, List.append_nil]
        · rw [List.dropWhile_cons_of_pos (by simp [hc2]),
            List.dropWhile_cons_of_pos (by simp [hc2])]
          cases hd : x2.dropWhile (fun x => !pyIsSpace x) with
          | nil =>
            have hall2 : (x2 ++ r).dropWhile (fun x => !pyIsSpace x) = r := by
              rw [List.dropWhile_append, hd]
              simp only [List.isEmpty_nil, if_true]
              exact dropWhile_self_of_headFail _ r (fun c2 hc2b => by simp [hr c2 hc2b])
            rw [hall2]
            rfl
          | cons e d2 =>
            have hall2 : (x2 ++ r).dropWhile (fun x => !pyIsSpace x) = (e :: d2) ++ r := by
              rw [List.dropWhile_append, hd]
              rfl
            rw [hall2]
            have hlen : (e :: d2).length ≤ n := by
              have := (List.dropWhile_sublist (l := x2) (fun x => !pyIsSpace x)).length_le
              rw [hd] at this
              omega
            exact ih (e :: d2) r hlen hr

/-- Splitting across a boundary whose right side starts with whitespace. -/
theorem pySplit_append_sep (x r : List Char)
    (hr : ∀ c, r.head? = some c → pyIsSpace c = true) :
    pySplit (x ++ r) = pySplit x ++ pySplit r :=
  pySplit_append_sep_aux x.length x r le_rfl hr

/-- Trailing whitespace does not change the words. -/
theorem pySplit_append_ws_right (a s : List Char) (h : s.all pyIsSpace = true) :
    pySplit (a ++ s) = pySplit a := by
  rw [pySplit_append_sep a s (fun c hc => by
    cases s with
    | nil => exact Option.noConfusion hc
    | cons b s2 =>
      injection hc with hc2
      rw [List.all_cons, Bool.and_eq_true] at h
      rw [← hc2]
      exact h.1)]
  rw [(pySplit_eq_nil_iff s).mpr h, List.append_nil]

/-- A nonempty whitespace-free string is a single word. -/
theorem pySplit_word (w : List Char) (hne : w ≠ [])
    (hall : w.all (fun c => !pyIsSpace c) = true) : pySplit w = [w] := by
  have h := pySplit_word_then_ws w [] hne hall (fun c hc => Option.noConfusion hc)
  rw [List.append_nil] at h
  rw [h]
  rfl

/-- Left stripping does not change the words. -/
theorem pySplit_lstrip (l : List Char) : pySplit (lstrip l) = pySplit l := by
  unfold lstrip
  exact pySplit_dropWhile_ws l

/-- Right stripping does not change the words. -/
theorem pySplit_rstrip (l : List Char) : pySplit (rstrip l) = pySplit l := by
  obtain ⟨s, hdec, hall⟩ := rstrip_decomp l
  conv_rhs => rw [hdec]
  rw [pySplit_append_ws_right _ s hall]

/-- Stripping does not change the words. -/
theorem pySplit_strip (l : List Char) : pySplit (strip l) = pySplit l := by
  unfold strip
  rw [pySplit_rstrip, pySplit_lstrip]

/-- Tokens produced by `pySplit` are nonempty and whitespace-free. -/
theorem mem_pySplit_all_nonws {s t : List Char} (ht : t ∈ pySplit s) :
    t ≠ [] ∧ t.all (fun c => !pyIsSpace c) = true := by
  unfold pySplit at ht
  have hmem := List.mem_filter.mp ht
  obtain ⟨hne, hhom⟩ := mem_splitChunks s t hmem.1
  refine ⟨hne, ?_⟩
  rcases hhom with h | h
  · exfalso
    have : isWsChunk t = true := h
    rw [this] at hmem
    exact Bool.noConfusion hmem.2
  · exact h

/-- Joining with a single-character separator, singleton case. -/
theorem intercalate_singleton_sep (c : Char) (x : List Char) :
    List.intercalate [c] [x] = x := by
  simp [List.intercalate]

/-- Joining with a single-character separator, two-or-more case. -/
theorem intercalate_cons_cons_sep (c : Char) (x y : List Char) (ls : List (List Char)) :
    List.intercalate [c] (x :: y :: ls) =
      x ++ c :: List.intercalate [c] (y :: ls) := by
  simp [List.intercalate, List.intersperse]

/-- The words of a join on a whitespace separator are the words of the
pieces, in order. -/
theorem pySplit_intercalate_sep (c : Char) (hc : pyIsSpace c = true) :
    ∀ (ls : List (List Char)),
      pySplit (List.intercalate [c] ls) = (ls.map pySplit).flatten := by
  intro ls
  induction ls with
  | nil => rfl
  | cons x xs ih =>
    cases xs with
    | nil =>
      rw [intercalate_singleton_sep]
      simp
    | cons y ys =>
      rw [intercalate_cons_cons_sep,
        pySplit_append_sep x _ (fun c2 hc2 => by
          injection hc2 with hc3
          rw [← hc3]
          exact hc),
        pySplit_ws_cons c _ hc, ih]
      simp

/-- Splitting across a boundary whose left side is empty or ends in
whitespace. -/
theorem pySplit_append_boundary (a b : List Char)
    (h : a = [] ∨ ∃ ci, a.getLast? = some ci ∧ pyIsSpace ci = true) :
    pySplit (a ++ b) = pySplit a ++ pySplit b := by
  rcases h with rfl | ⟨ci, hci, hws⟩
  · rfl
  · have hane : a ≠ [] := by
      intro h0
      rw [h0] at hci
      exact Option.noConfusion hci
    obtain ⟨d, rfl⟩ : ∃ d, a = d ++ [ci] := by
      refine ⟨a.dropLast, ?_⟩
      have h1 := List.dropLast_concat_getLast hane
      have h2 := List.getLast?_eq_getLast a hane
      rw [hci] at h2
      injection h2 with h3
      rw [← h3] at h1
      exact h1.symm
    rw [show (d ++ [ci]) ++ b = d ++ ci :: b from by
      rw [List.append_assoc]
      rfl]
    rw [pySplit_append_sep d (ci :: b) (fun c2 hc2 => by
        injection hc2 with hc3
        rw [← hc3]
        exact hws),
      pySplit_ws_cons ci b hws,
      pySplit_append_sep d [ci] (fun c2 hc2 => by
        injection hc2 with hc3
        rw [← hc3]
        exact hws)]
    have hcw : pySplit [ci] = [] := by
      apply (pySplit_eq_nil_iff [ci]).mpr
      rw [List.all_cons, hws]
      rfl
    rw [hcw, List.append_nil]

/-! ### Munging preserves the word sequence -/

/-- The `textwrap` whitespace substitution preserves the whitespace
classification of each character. -/
theorem pyIsSpace_replaceChar (c : Char) :
    pyIsSpace (if pyIsSpace c then ' ' else c) = pyIsSpace c := by
  by_cases h : pyIsSpace c = true
  · rw [if_pos h, h]
    decide
  · rw [if_neg h]

/-- `replaceWs` fixes whitespace-free strings. -/
theorem replaceWs_nonws_id (w : List Char)
    (h : w.all (fun c => !pyIsSpace c) = true) : replaceWs w = w := by
  induction w with
  | nil => rfl
  | cons a w2 ih =>
    rw [List.all_cons, Bool.and_eq_true] at h
    have ha : pyIsSpace a = false := by simpa using h.1
    show List.map _ (a :: w2) = a :: w2
    rw [List.map_cons, if_neg (by simp [ha])]
    exact congrArg (a :: ·) (ih h.2)

/-- `takeWhile` commutes with `map` on characters. -/
theorem takeWhile_map_char (f : Char → Char) (p : Char → Bool) :
    ∀ l : List Char, (l.map f).takeWhile p = (l.takeWhile (fun x => p (f x))).map f := by
  intro l
  induction l with
  | nil => rfl
  | cons a l2 ih =>
    rw [List.map_cons]
    by_cases h : p (f a) = true
    · rw [List.takeWhile_cons_of_pos h,
        List.takeWhile_cons_of_pos (p := fun x => p (f x)) h, List.map_cons, ih]
    · rw [List.takeWhile_cons_of_neg (by simp [h]),
        List.takeWhile_cons_of_neg (p := fun x => p (f x)) (by simp [h])]
      rfl

/-- `dropWhile` commutes with `map` on characters. -/
theorem dropWhile_map_char (f : Char → Char) (p : Char → Bool) :
    ∀ l : List Char, (l.map f).dropWhile p = (l.dropWhile (fun x => p (f x))).map f := by
  intro l
  induction l with
  | nil => rfl
  | cons a l2 ih =>
    rw [List.map_cons]
    by_cases h : p (f a) = true
    · rw [List.dropWhile_cons_of_pos h,
        List.dropWhile_cons_of_pos (p := fun x => p (f x)) h, ih]
    · rw [List.dropWhile_cons_of_neg (by simp [h]),
        List.dropWhile_cons_of_neg (p := fun x => p (f x)) (by simp [h])]
      rfl

/-- Whitespace replacement preserves the word sequence. -/
theorem pySplit_replaceWs_aux :
    ∀ (n : Nat) (u : List Char), u.length ≤ n → pySplit (replaceWs u) = pySplit u := by
  intro n
  induction n with
  | zero =>
    intro u hl
    have hx : u = [] := List.length_eq_zero.mp (Nat.le_zero.mp hl)
    subst hx
    rfl
  | succ n ih =>
    intro u hl
    cases u with
    | nil => rfl
    | cons c u2 =>
      simp only [List.length_cons] at hl
      by_cases hc : pyIsSpace c = true
      · have hmap : replaceWs (c :: u2) = ' ' :: replaceWs u2 := by
          show List.map _ (c :: u2) = _
          rw [List.map_cons, if_pos hc]
          rfl
        rw [hmap, pySplit_ws_cons ' ' _ (by decide), pySplit_ws_cons c _ hc]
        exact ih u2 (by omega)
      · have hc2 : pyIsSpace c = false := by
          cases hx : pyIsSpace c
          · rfl
          · exact absurd hx hc
        have hmap : replaceWs (c :: u2) = c :: replaceWs u2 := by
          show List.map _ (c :: u2) = _
          rw [List.map_cons, if_neg hc]
          rfl
        have hfun : (fun x => !pyIsSpace (if pyIsSpace x then ' ' else x)) =
            (fun x => !pyIsSpace x) := by
          funext x
          rw [pyIsSpace_replaceChar]
        rw [hmap, pySplit_cons_of_head_not_space c _ hc2,
          pySplit_cons_of_head_not_space c _ hc2]
        congr 1
        · unfold firstToken
          rw [List.takeWhile_cons_of_pos (by simp [hc2]),
            List.takeWhile_cons_of_pos (by simp [hc2])]
          have htw : List.takeWhile (fun x => !pyIsSpace x)
              (List.map (fun c => if pyIsSpace c then ' ' else c) u2) =
              List.takeWhile (fun x => !pyIsSpace x) u2 := by
            rw [takeWhile_map_char, hfun]
            exact replaceWs_nonws_id _
              (List.all_eq_true.mpr (fun x hx =>
                List.mem_takeWhile_imp (p := fun x => !pyIsSpace x) hx))
          rw [show replaceWs u2 =
            List.map (fun c => if pyIsSpace c then ' ' else c) u2 from rfl, htw]
        · rw [List.dropWhile_cons_of_pos (by simp [hc2]),
            List.dropWhile_cons_of_pos (by simp [hc2])]
          have hdw : (replaceWs u2).dropWhile (fun x => !pyIsSpace x) =
              replaceWs (u2.dropWhile (fun x => !pyIsSpace x)) := by
            show (List.map (fun c => if pyIsSpace c then ' ' else c) u2).dropWhile
              (fun x => !pyIsSpace x) = _
            rw [dropWhile_map_char, hfun]
            rfl
          rw [hdw]
          apply ih
          have := (List.dropWhile_sublist (l := u2) (fun x => !pyIsSpace x)).length_le
          omega

/-- Tab expansion on a tab. -/
theorem expandTabsAux_cons_tab (u : List Char) (col : Nat) :
    expandTabsAux ('\t' :: u) col =
      List.replicate (8 - col % 8) ' ' ++ expandTabsAux u (col + (8 - col % 8)) := rfl

/-- Tab expansion on a carriage return or newline resets the column. -/
theorem expandTabsAux_cons_nlcr (c : Char) (u : List Char) (col : Nat)
    (h1 : (c == '\t') = false) (h2 : (c == '\n' || c == '\r') = true) :
    expandTabsAux (c :: u) col = c :: expandTabsAux u 0 := by
  show (if (c == '\t') = true then
      List.replicate (8 - col % 8) ' ' ++ expandTabsAux u (col + (8 - col % 8))
    else if (c == '\n' || c == '\r') = true then c :: expandTabsAux u 0
    else c :: expandTabsAux u (col + 1)) = c :: expandTabsAux u 0
  rw [if_neg (by simp [h1]), if_pos h2]

/-- Tab expansion on any other character advances the column. -/
theorem expandTabsAux_cons_other (c : Char) (u : List Char) (col : Nat)
    (h1 : (c == '\t') = false) (h2 : (c == '\n' || c == '\r') = false) :
    expandTabsAux (c :: u) col = c :: expandTabsAux u (col + 1) := by
  show (if (c == '\t') = true then
      List.replicate (8 - col % 8) ' ' ++ expandTabsAux u (col + (8 - col % 8))
    else if (c == '\n' || c == '\r') = true then c :: expandTabsAux u 0
    else c :: expandTabsAux u (col + 1)) = c :: expandTabsAux u (col + 1)
  rw [if_neg (by simp [h1]), if_neg (by simp [h2])]

/-- A whitespace-free character is none of tab, newline, carriage return. -/
theorem nonws_beq_facts (c : Char) (hc : pyIsSpace c = false) :
    (c == '\t') = false ∧ (c == '\n' || c == '\r') = false := by
  constructor
  · cases hx : (c == '\t') with
    | false => rfl
    | true =>
      exfalso
      have : c = '\t' := by simpa using hx
      rw [this] at hc
      exact Bool.noConfusion hc
  · cases hx : (c == '\n' || c == '\r') with
    | false => rfl
    | true =>
      exfalso
      rcases Bool.or_eq_true_iff.mp hx with h | h
      · have : c = '\n' := by simpa using h
        rw [this] at hc
        exact Bool.noConfusion hc
      · have : c = '\r' := by simpa using h
        rw [this] at hc
        exact Bool.noConfusion hc

/-- Tab expansion passes through a whitespace-free prefix, advancing the
column by its length. -/
theorem expandTabsAux_nonws_pass :
    ∀ (w : List Char), w.all (fun c => !pyIsSpace c) = true →
      ∀ (v : List Char) (col : Nat),
        expandTabsAux (w ++ v) col = w ++ expandTabsAux v (col + w.length) := by
  intro w
  induction w with
  | nil =>
    intro _ v col
    simp
  | cons a w2 ih =>
    intro hall v col
    rw [List.all_cons, Bool.and_eq_true] at hall
    have ha : pyIsSpace a = false := by simpa using hall.1
    obtain ⟨h1, h2⟩ := nonws_beq_facts a ha
    rw [List.cons_append, expandTabsAux_cons_other a _ col h1 h2, ih hall.2 v (col + 1)]
    simp only [List.cons_append, List.length_cons]
    rw [show col + 1 + w2.length = col + (w2.length + 1) from by omega]

/-- The replicate of spaces produced by a tab is all whitespace. -/
theorem replicate_space_all_ws (n : Nat) :
    (List.replicate n ' ').all pyIsSpace = true := by
  rw [List.all_eq_true]
  intro x hx
  rw [List.eq_of_mem_replicate hx]
  decide

/-- Tab expansion of a string starting with whitespace starts with
whitespace. -/
theorem expandTabsAux_head_ws (e : Char) (d2 : List Char) (col : Nat)
    (he : pyIsSpace e = true) :
    ∀ c, (expandTabsAux (e :: d2) col).head? = some c → pyIsSpace c = true := by
  intro c hc
  by_cases ht : (e == '\t') = true
  · have he2 : e = '\t' := by simpa using ht
    subst he2
    rw [expandTabsAux_cons_tab] at hc
    obtain ⟨k2, hk⟩ : ∃ k2, 8 - col % 8 = k2 + 1 := by
      have : col % 8 < 8 := Nat.mod_lt col (by omega)
      exact ⟨8 - col % 8 - 1, by omega⟩
    rw [hk, List.replicate_succ, List.cons_append, List.head?_cons] at hc
    injection hc with hc2
    rw [← hc2]
    decide
  · by_cases hnl : (e == '\n' || e == '\r') = true
    · rw [expandTabsAux_cons_nlcr e d2 col (by simpa using ht) hnl,
        List.head?_cons] at hc
      injection hc with hc2
      rw [← hc2]
      exact he
    · rw [expandTabsAux_cons_other e d2 col (by simpa using ht)
        (by simpa using hnl), List.head?_cons] at hc
      injection hc with hc2
      rw [← hc2]
      exact he

/-- Tab expansion preserves the word sequence. -/
theorem pySplit_expandTabsAux :
    ∀ (n : Nat) (u : List Char), u.length ≤ n →
      ∀ col, pySplit (expandTabsAux u col) = pySplit u := by
  intro n
  induction n with
  | zero =>
    intro u hl col
    have hx : u = [] := List.length_eq_zero.mp (Nat.le_zero.mp hl)
    subst hx
    rfl
  | succ n ih =>
    intro u hl col
    cases u with
    | nil => rfl
    | cons c u2 =>
      simp only [List.length_cons] at hl
      by_cases hc : pyIsSpace c = true
      · by_cases ht : (c == '\t') = true
        · have hc3 : c = '\t' := by simpa using ht
          subst hc3
          rw [expandTabsAux_cons_tab,
            pySplit_ws_before _ _ (replicate_space_all_ws _),
            ih u2 (by omega), pySplit_ws_cons _ _ hc]
        · by_cases hnl : (c == '\n' || c == '\r') = true
          · rw [expandTabsAux_cons_nlcr c u2 col (by simpa using ht) hnl,
              pySplit_ws_cons c _ hc, pySplit_ws_cons c _ hc]
            exact ih u2 (by omega) 0
          · rw [expandTabsAux_cons_other c u2 col (by simpa using ht)
              (by simpa using hnl), pySplit_ws_cons c _ hc, pySplit_ws_cons c _ hc]
            exact ih u2 (by omega) (col + 1)
      · have hc2 : pyIsSpace c = false := by
          cases hx : pyIsSpace c
          · rfl
          · exact absurd hx hc
        have hdec : c :: u2 =
            (c :: u2.takeWhile (fun x => !pyIsSpace x)) ++
              u2.dropWhile (fun x => !pyIsSpace x) := by
          rw [List.cons_append, List.takeWhile_append_dropWhile]
        have hwall : (c :: u2.takeWhile (fun x => !pyIsSpace x)).all
            (fun x => !pyIsSpace x) = true := by
          rw [List.all_cons, Bool.and_eq_true]
          refine ⟨by simp [hc2], ?_⟩
          exact List.all_eq_true.mpr (fun x hx =>
            List.mem_takeWhile_imp (p := fun x => !pyIsSpace x) hx)
        have hdhead : ∀ c2, (u2.dropWhile (fun x => !pyIsSpace x)).head? = some c2 →
            pyIsSpace c2 = true := by
          intro c2 hc3
          cases hd : u2.dropWhile (fun x => !pyIsSpace x) with
          | nil =>
            rw [hd] at hc3
            exact Option.noConfusion hc3
          | cons e d2 =>
            rw [hd] at hc3
            injection hc3 with hc4
            rw [← hc4]
            have := dropWhile_head_not hd
            simpa using this
        conv_lhs => rw [hdec]
        rw [expandTabsAux_nonws_pass _ hwall _ col]
        have hehead : ∀ c2,
            (expandTabsAux (u2.dropWhile (fun x => !pyIsSpace x))
              (col + (c :: u2.takeWhile (fun x => !pyIsSpace x)).length)).head? = some c2 →
            pyIsSpace c2 = true := by
          intro c2 hc3
          cases hd : u2.dropWhile (fun x => !pyIsSpace x) with
          | nil =>
            rw [hd] at hc3
            exact Option.noConfusion hc3
          | cons e d2 =>
            rw [hd] at hc3
            refine expandTabsAux_head_ws e d2 _ ?_ c2 hc3
            have := dropWhile_head_not hd
            simpa using this
        rw [pySplit_word_then_ws _ _ (by simp) hwall hehead]
        have hlen : (u2.dropWhile (fun x => !pyIsSpace x)).length ≤ n := by
          have := (List.dropWhile_sublist (l := u2) (fun x => !pyIsSpace x)).length_le
          omega
        rw [ih _ hlen]
        conv_rhs => rw [hdec]
        rw [pySplit_word_then_ws _ _ (by simp) hwall hdhead]

/-- `_munge_whitespace` preserves the word sequence. -/
theorem pySplit_munge (t : List Char) : pySplit (munge t) = pySplit t := by
  unfold munge expandTabs
  rw [pySplit_replaceWs_aux (expandTabsAux t 0).length _ le_rfl,
    pySplit_expandTabsAux t.length t le_rfl 0]

/-! ### Words of wrapped lines -/

/-- The words of a flattened alternating chunk list are its
non-whitespace chunks. -/
theorem pySplit_flatten_alt :
    ∀ (L : List (List Char)),
      (∀ ch ∈ L, ch ≠ [] ∧
        (ch.all pyIsSpace = true ∨ ch.all (fun c => !pyIsSpace c) = true)) →
      List.Chain' (fun a b => isWsChunk a ≠ isWsChunk b) L →
      pySplit L.flatten = L.filter (fun ch => !isWsChunk ch) := by
  intro L
  induction L with
  | nil => intro _ _; rfl
  | cons ch L2 ih =>
    intro hgood hchain
    rw [List.flatten_cons, List.filter_cons]
    obtain ⟨hne, hhom⟩ := hgood ch (List.mem_cons_self _ _)
    by_cases hws : isWsChunk ch = true
    · rw [pySplit_ws_before ch _ hws, hws, if_neg (by simp)]
      exact ih (fun c hc => hgood c (List.mem_cons_of_mem _ hc)) hchain.tail
    · have hnonws : ch.all (fun c => !pyIsSpace c) = true := by
        rcases hhom with h | h
        · exact absurd h hws
        · exact h
      have hws2 : isWsChunk ch = false := by
        cases hx : isWsChunk ch
        · rfl
        · exact absurd hx hws
      have hhead : ∀ c2, (L2.flatten).head? = some c2 → pyIsSpace c2 = true := by
        intro c2 hc2
        cases L2 with
        | nil => exact Option.noConfusion hc2
        | cons e L3 =>
          have hrel : isWsChunk ch ≠ isWsChunk e :=
            (List.chain'_cons'.mp hchain).1 e (by simp)
          have hews : isWsChunk e = true := by
            cases hx : isWsChunk e
            · exfalso
              apply hrel
              rw [hws2, hx]
            · rfl
          obtain ⟨hene, _⟩ := hgood e (List.mem_cons_of_mem _ (List.mem_cons_self _ _))
          cases he : e with
          | nil => exact absurd he hene
          | cons a e2 =>
            rw [List.flatten_cons, he, List.cons_append, List.head?_cons] at hc2
            injection hc2 with hc3
            rw [← hc3]
            have := (List.all_eq_true.mp hews) a (by rw [he]; exact List.mem_cons_self _ _)
            exact this
      rw [pySplit_word_then_ws ch _ hne hnonws hhead, hws2, if_pos (by simp)]
      rw [ih (fun c hc => hgood c (List.mem_cons_of_mem _ hc)) hchain.tail]

/-- Dropping a trailing whitespace chunk keeps the non-whitespace chunks. -/
theorem filter_dropTrailingWs (cur : List (List Char)) :
    (dropTrailingWs cur).filter (fun ch => !isWsChunk ch) =
      cur.filter (fun ch => !isWsChunk ch) := by
  unfold dropTrailingWs
  by_cases hcond : (!cur.isEmpty && (strip (cur.getLast?.getD [])).isEmpty) = true
  · rw [if_pos hcond]
    rw [Bool.and_eq_true] at hcond
    have hne : cur ≠ [] := by
      intro h
      rw [h] at hcond
      exact Bool.noConfusion hcond.1
    have hlast := List.getLast?_eq_getLast cur hne
    have hws : isWsChunk (cur.getLast hne) = true := by
      have h2 := hcond.2
      rw [hlast] at h2
      simp only [Option.getD_some] at h2
      have h3 : strip (cur.getLast hne) = [] := by
        cases hx : strip (cur.getLast hne) with
        | nil => rfl
        | cons u us =>
          rw [hx] at h2
          exact Bool.noConfusion h2
      exact (strip_eq_nil_iff _).mp h3
    conv_rhs => rw [← List.dropLast_concat_getLast hne]
    rw [List.filter_append]
    have hone : List.filter (fun ch => !isWsChunk ch) [cur.getLast hne] = [] := by
      rw [List.filter_cons, hws, if_neg (by simp)]
      rfl
    rw [hone, List.append_nil]
  · rw [if_neg hcond]

/-- The chunk-kind alternation survives the trailing trim. -/
theorem dropTrailingWs_chain (cur : List (List Char))
    (hchain : List.Chain' (fun a b => isWsChunk a ≠ isWsChunk b) cur) :
    List.Chain' (fun a b => isWsChunk a ≠ isWsChunk b) (dropTrailingWs cur) := by
  unfold dropTrailingWs
  by_cases hcond : (!cur.isEmpty && (strip (cur.getLast?.getD [])).isEmpty) = true
  · rw [if_pos hcond]
    rw [Bool.and_eq_true] at hcond
    have hne : cur ≠ [] := by
      intro h
      rw [h] at hcond
      exact Bool.noConfusion hcond.1
    have h2 : List.Chain' (fun a b => isWsChunk a ≠ isWsChunk b)
        (cur.dropLast ++ [cur.getLast hne]) := by
      rw [List.dropLast_concat_getLast hne]
      exact hchain
    exact (List.chain'_append.mp h2).1
  · rw [if_neg hcond]
    exact hchain

/-- A suppressed line had no words; an emitted line carries the indent's
words and the line chunks' words. -/
theorem wrapEmit_fst_eq_none {ind : List Char} {curLine rest : List (List Char)}
    (h : (wrapEmit ind curLine rest).1 = none) :
    (dropTrailingWs curLine).isEmpty = true := by
  unfold wrapEmit at h
  by_cases hc : (dropTrailingWs curLine).isEmpty = true
  · exact hc
  · rw [if_neg hc] at h
    exact absurd h (by simp)

/-- Words of the line emitted by `wrapEmit`. -/
theorem wrapEmit_words (ind : List Char) (curLine rest : List (List Char))
    (hgood : ∀ ch ∈ curLine, ch ≠ [] ∧
      (ch.all pyIsSpace = true ∨ ch.all (fun c => !pyIsSpace c) = true))
    (hchain : List.Chain' (fun a b => isWsChunk a ≠ isWsChunk b) curLine)
    (hsep : ind = [] ∨ ∃ ci, ind.getLast? = some ci ∧ pyIsSpace ci = true) :
    ((wrapEmit ind curLine rest).1 = none →
      curLine.filter (fun ch => !isWsChunk ch) = []) ∧
    (∀ l, (wrapEmit ind curLine rest).1 = some l →
      pySplit l = pySplit ind ++ curLine.filter (fun ch => !isWsChunk ch)) := by
  constructor
  · intro h
    have hemp := wrapEmit_fst_eq_none h
    rw [← filter_dropTrailingWs]
    have hnil : dropTrailingWs curLine = [] := by
      cases hx : dropTrailingWs curLine with
      | nil => rfl
      | cons u us =>
        rw [hx] at hemp
        exact Bool.noConfusion hemp
    rw [hnil]
    rfl
  · intro l hl
    obtain ⟨_, hline⟩ := wrapEmit_fst_eq_some hl
    rw [hline, pySplit_append_boundary ind _ hsep]
    congr 1
    rw [← filter_dropTrailingWs]
    exact pySplit_flatten_alt _
      (fun ch hch => hgood ch (dropTrailingWs_subset curLine ch hch))
      (dropTrailingWs_chain curLine hchain)

/-- Words consumed and emitted by one `wrapLineCore` call. -/
theorem wrapLineCore_words (W : Nat) (ind : List Char) (chunks1 : List (List Char))
    (hgood : ∀ ch ∈ chunks1, ch ≠ [] ∧
      (ch.all pyIsSpace = true ∨ ch.all (fun c => !pyIsSpace c) = true))
    (hchain : List.Chain' (fun a b => isWsChunk a ≠ isWsChunk b) chunks1)
    (hsep : ind = [] ∨ ∃ ci, ind.getLast? = some ci ∧ pyIsSpace ci = true) :
    ∃ pre, pre ++ (wrapLineCore W ind chunks1).2 = chunks1 ∧
      ((wrapLineCore W ind chunks1).1 = none →
        pre.filter (fun ch => !isWsChunk ch) = []) ∧
      (∀ l, (wrapLineCore W ind chunks1).1 = some l →
        pySplit l = pySplit ind ++ pre.filter (fun ch => !isWsChunk ch)) := by
  unfold wrapLineCore
  simp only
  have hsplit := takeFit_append ((W : Int) - (ind.length : Int)) 0 chunks1
  set p := takeFit ((W : Int) - (ind.length : Int)) 0 chunks1 with hp
  have hp1good : ∀ ch ∈ p.1, ch ≠ [] ∧
      (ch.all pyIsSpace = true ∨ ch.all (fun c => !pyIsSpace c) = true) := by
    intro ch hch
    apply hgood
    rw [← hsplit]
    exact List.mem_append_left _ hch
  have hp1chain : List.Chain' (fun a b => isWsChunk a ≠ isWsChunk b) p.1 := by
    have h2 : List.Chain' (fun a b => isWsChunk a ≠ isWsChunk b) (p.1 ++ p.2) := by
      rw [hsplit]
      exact hchain
    exact (List.chain'_append.mp h2).1
  rcases hq : p.2 with _ | ⟨c', cs'⟩
  · simp only [hq]
    refine ⟨p.1, ?_, (wrapEmit_words ind p.1 [] hp1good hp1chain hsep).1,
      (wrapEmit_words ind p.1 [] hp1good hp1chain hsep).2⟩
    rw [wrapEmit_snd, ← hq]
    exact hsplit
  · simp only [hq]
    by_cases hbig : (((c'.length : Int) > (W : Int) - (ind.length : Int)) && p.1.isEmpty) = true
    · rw [if_pos hbig]
      have happ : p.1 ++ [c'] ++ cs' = chunks1 := by
        rw [← hsplit, hq, List.append_assoc]
        rfl
      have hgood2 : ∀ ch ∈ p.1 ++ [c'], ch ≠ [] ∧
          (ch.all pyIsSpace = true ∨ ch.all (fun c => !pyIsSpace c) = true) := by
        intro ch hch
        apply hgood
        rw [← happ]
        exact List.mem_append_left _ hch
      have hchain2 : List.Chain' (fun a b => isWsChunk a ≠ isWsChunk b) (p.1 ++ [c']) := by
        have h2 : List.Chain' (fun a b => isWsChunk a ≠ isWsChunk b)
            ((p.1 ++ [c']) ++ cs') := by
          rw [happ]
          exact hchain
        exact (List.chain'_append.mp h2).1
      refine ⟨p.1 ++ [c'], ?_, (wrapEmit_words ind _ cs' hgood2 hchain2 hsep).1,
        (wrapEmit_words ind _ cs' hgood2 hchain2 hsep).2⟩
      rw [wrapEmit_snd]
      exact happ
    · rw [if_neg hbig]
      refine ⟨p.1, ?_, (wrapEmit_words ind p.1 (c' :: cs') hp1good hp1chain hsep).1,
        (wrapEmit_words ind p.1 (c' :: cs') hp1good hp1chain hsep).2⟩
      rw [wrapEmit_snd, ← hq]
      exact hsplit

/-- Words consumed and emitted by one outer-loop step. -/
theorem wrapStep_words (W : Nat) (ind : List Char) (dropLead : Bool)
    (chunks : List (List Char))
    (hgood : ∀ ch ∈ chunks, ch ≠ [] ∧
      (ch.all pyIsSpace = true ∨ ch.all (fun c => !pyIsSpace c) = true))
    (hchain : List.Chain' (fun a b => isWsChunk a ≠ isWsChunk b) chunks)
    (hsep : ind = [] ∨ ∃ ci, ind.getLast? = some ci ∧ pyIsSpace ci = true) :
    ∃ pre, pre ++ (wrapStep W ind dropLead chunks).2 = chunks ∧
      ((wrapStep W ind dropLead chunks).1 = none →
        pre.filter (fun ch => !isWsChunk ch) = []) ∧
      (∀ l, (wrapStep W ind dropLead chunks).1 = some l →
        pySplit l = pySplit ind ++ pre.filter (fun ch => !isWsChunk ch)) := by
  unfold wrapStep
  cases chunks with
  | nil => exact wrapLineCore_words W ind [] hgood hchain hsep
  | cons c cs =>
    simp only
    by_cases hdl : (dropLead && (strip c).isEmpty) = true
    · rw [if_pos hdl]
      have hcws : isWsChunk c = true := by
        rw [Bool.and_eq_true] at hdl
        have h4 := hdl.2
        have h5 : strip c = [] := by
          cases hx : strip c with
          | nil => rfl
          | cons u us =>
            rw [hx] at h4
            exact Bool.noConfusion h4
        exact (strip_eq_nil_iff c).mp h5
      obtain ⟨pre, h1, h2, h3⟩ := wrapLineCore_words W ind cs
        (fun ch hch => hgood ch (List.mem_cons_of_mem _ hch)) hchain.tail hsep
      refine ⟨c :: pre, ?_, ?_, ?_⟩
      · rw [List.cons_append, h1]
      · intro h
        rw [List.filter_cons, hcws, if_neg (by simp)]
        exact h2 h
      · intro l hl
        rw [List.filter_cons, hcws, if_neg (by simp)]
        exact h3 l hl
    · rw [if_neg hdl]
      exact wrapLineCore_words W ind (c :: cs) hgood hchain hsep

/-- With `first = false`, the wrapped lines carry exactly the
non-whitespace chunks as words (the subsequent indent is whitespace). -/
theorem wrapChunksGo_false_words (W : Nat) (ini subs : List Char)
    (hsepS : subs = [] ∨ ∃ ci, subs.getLast? = some ci ∧ pyIsSpace ci = true)
    (hsubs : pySplit subs = []) :
    ∀ (fuel : Nat) (cs : List (List Char)), cs.length ≤ fuel →
      (∀ ch ∈ cs, ch ≠ [] ∧
        (ch.all pyIsSpace = true ∨ ch.all (fun c => !pyIsSpace c) = true)) →
      List.Chain' (fun a b => isWsChunk a ≠ isWsChunk b) cs →
      (wrapChunksGo W ini subs fuel false cs).flatMap pySplit =
        cs.filter (fun ch => !isWsChunk ch) := by
  intro fuel
  induction fuel with
  | zero =>
    intro cs hl _ _
    have hx : cs = [] := List.length_eq_zero.mp (Nat.le_zero.mp hl)
    subst hx
    rfl
  | succ n ih =>
    intro cs hl hgood hchain
    cases cs with
    | nil => rfl
    | cons c cs2 =>
      simp only [List.length_cons] at hl
      obtain ⟨pre, h1, h2, h3⟩ := wrapStep_words W subs true (c :: cs2) hgood hchain hsepS
      have hrest_len : (wrapStep W subs true (c :: cs2)).2.length ≤ n := by
        have := wrapStep_rest_length_lt W subs true (c :: cs2) (by simp)
        simp only [List.length_cons] at this
        omega
      have hrest_good : ∀ ch ∈ (wrapStep W subs true (c :: cs2)).2, ch ≠ [] ∧
          (ch.all pyIsSpace = true ∨ ch.all (fun c => !pyIsSpace c) = true) := by
        intro ch hch
        apply hgood
        rw [← h1]
        exact List.mem_append_right _ hch
      have hrest_chain : List.Chain' (fun a b => isWsChunk a ≠ isWsChunk b)
          (wrapStep W subs true (c :: cs2)).2 := by
        have hch2 : List.Chain' (fun a b => isWsChunk a ≠ isWsChunk b)
            (pre ++ (wrapStep W subs true (c :: cs2)).2) := by
          rw [h1]
          exact hchain
        exact (List.chain'_append.mp hch2).2.1
      have hred : wrapChunksGo W ini subs (n + 1) false (c :: cs2) =
          (match (wrapStep W subs true (c :: cs2)).1 with
          | some line =>
            line :: wrapChunksGo W ini subs n false (wrapStep W subs true (c :: cs2)).2
          | none => wrapChunksGo W ini subs n false (wrapStep W subs true (c :: cs2)).2) :=
        rfl
      cases hst : (wrapStep W subs true (c :: cs2)).1 with
      | some l0 =>
        rw [hred, hst]
        show (l0 :: wrapChunksGo W ini subs n false
          (wrapStep W subs true (c :: cs2)).2).flatMap pySplit = _
        rw [List.flatMap_cons, h3 l0 hst, ih _ hrest_len hrest_good hrest_chain,
          hsubs, List.nil_append, ← List.filter_append, h1]
      | none =>
        rw [hred, hst]
        show (wrapChunksGo W ini subs n false
          (wrapStep W subs true (c :: cs2)).2).flatMap pySplit = _
        rw [ih _ hrest_len hrest_good hrest_chain]
        conv_rhs => rw [← h1]
        rw [List.filter_append, h2 hst, List.nil_append]

/-- With `first = true`, either nothing is emitted and there are no words,
or the lines carry the initial indent's words then the chunks' words. -/
theorem wrapChunksGo_true_words (W : Nat) (ini subs : List Char)
    (hsepI : ini = [] ∨ ∃ ci, ini.getLast? = some ci ∧ pyIsSpace ci = true)
    (hsepS : subs = [] ∨ ∃ ci, subs.getLast? = some ci ∧ pyIsSpace ci = true)
    (hsubs : pySplit subs = []) :
    ∀ (fuel : Nat) (cs : List (List Char)), cs.length ≤ fuel →
      (∀ ch ∈ cs, ch ≠ [] ∧
        (ch.all pyIsSpace = true ∨ ch.all (fun c => !pyIsSpace c) = true)) →
      List.Chain' (fun a b => isWsChunk a ≠ isWsChunk b) cs →
      (wrapChunksGo W ini subs fuel true cs = [] ∧
        cs.filter (fun ch => !isWsChunk ch) = []) ∨
      (wrapChunksGo W ini subs fuel true cs).flatMap pySplit =
        pySplit ini ++ cs.filter (fun ch => !isWsChunk ch) := by
  intro fuel
  induction fuel with
  | zero =>
    intro cs hl _ _
    have hx : cs = [] := List.length_eq_zero.mp (Nat.le_zero.mp hl)
    subst hx
    exact Or.inl ⟨rfl, rfl⟩
  | succ n ih =>
    intro cs hl hgood hchain
    cases cs with
    | nil => exact Or.inl ⟨rfl, rfl⟩
    | cons c cs2 =>
      simp only [List.length_cons] at hl
      obtain ⟨pre, h1, h2, h3⟩ := wrapStep_words W ini false (c :: cs2) hgood hchain hsepI
      have hrest_len : (wrapStep W ini false (c :: cs2)).2.length ≤ n := by
        have := wrapStep_rest_length_lt W ini false (c :: cs2) (by simp)
        simp only [List.length_cons] at this
        omega
      have hrest_good : ∀ ch ∈ (wrapStep W ini false (c :: cs2)).2, ch ≠ [] ∧
          (ch.all pyIsSpace = true ∨ ch.all (fun c => !pyIsSpace c) = true) := by
        intro ch hch
        apply hgood
        rw [← h1]
        exact List.mem_append_right _ hch
      have hrest_chain : List.Chain' (fun a b => isWsChunk a ≠ isWsChunk b)
          (wrapStep W ini false (c :: cs2)).2 := by
        have hch2 : List.Chain' (fun a b => isWsChunk a ≠ isWsChunk b)
            (pre ++ (wrapStep W ini false (c :: cs2)).2) := by
          rw [h1]
          exact hchain
        exact (List.chain'_append.mp hch2).2.1
      have hred : wrapChunksGo W ini subs (n + 1) true (c :: cs2) =
          (match (wrapStep W ini false (c :: cs2)).1 with
          | some line =>
            line :: wrapChunksGo W ini subs n false (wrapStep W ini false (c :: cs2)).2
          | none => wrapChunksGo W ini subs n true (wrapStep W ini false (c :: cs2)).2) :=
        rfl
      cases hst : (wrapStep W ini false (c :: cs2)).1 with
      | some l0 =>
        right
        rw [hred, hst]
        show (l0 :: wrapChunksGo W ini subs n false
          (wrapStep W ini false (c :: cs2)).2).flatMap pySplit = _
        rw [List.flatMap_cons, h3 l0 hst,
          wrapChunksGo_false_words W ini subs hsepS hsubs n _ hrest_len hrest_good
            hrest_chain,
          List.append_assoc, ← List.filter_append, h1]
      | none =>
        rcases ih _ hrest_len hrest_good hrest_chain with ⟨hout, hfil⟩ | hW
        · left
          constructor
          · rw [hred, hst]
            show wrapChunksGo W ini subs n true (wrapStep W ini false (c :: cs2)).2 = []
            exact hout
          · conv_lhs => rw [← h1]
            rw [List.filter_append, h2 hst, List.nil_append]
            exact hfil
        · right
          rw [hred, hst]
          show (wrapChunksGo W ini subs n true
            (wrapStep W ini false (c :: cs2)).2).flatMap pySplit = _
          rw [hW]
          conv_rhs => rw [← h1]
          rw [List.filter_append, h2 hst, List.nil_append]

/-- Words of `wrapLines`: nothing is emitted and the munged text has no
words, or the emitted lines carry the initial indent's words then exactly
the words of the munged text. -/
theorem wrapLines_words (W : Nat) (ini subs text : List Char)
    (hsepI : ini = [] ∨ ∃ ci, ini.getLast? = some ci ∧ pyIsSpace ci = true)
    (hsepS : subs = [] ∨ ∃ ci, subs.getLast? = some ci ∧ pyIsSpace ci = true)
    (hsubs : pySplit subs = []) :
    (wrapLines W ini subs text = [] ∧ pySplit (munge text) = []) ∨
    (wrapLines W ini subs text).flatMap pySplit =
      pySplit ini ++ pySplit (munge text) := by
  unfold wrapLines
  rcases wrapChunksGo_true_words W ini subs hsepI hsepS hsubs _ _ le_rfl
    (mem_splitChunks _) (splitChunks_chain _) with ⟨h1, h2⟩ | h
  · exact Or.inl ⟨h1, h2⟩
  · exact Or.inr h

/-! ### Words of a rendered block -/

/-- `rstrip` distributes over an append whose right part survives it. -/
theorem rstrip_append_right (A B : List Char) (h : rstrip B ≠ []) :
    rstrip (A ++ B) = A ++ rstrip B := by
  unfold rstrip
  rw [List.reverse_append, List.dropWhile_append]
  have hne : (B.reverse.dropWhile pyIsSpace).isEmpty = false := by
    cases hx : B.reverse.dropWhile pyIsSpace with
    | nil =>
      exfalso
      apply h
      unfold rstrip
      rw [hx]
      rfl
    | cons u us => rfl
  rw [hne]
  simp only [Bool.false_eq_true, if_false]
  rw [List.reverse_append, List.reverse_reverse]

/-- The head of an append with a nonempty left part. -/
theorem head_append_left (A s : List Char) (h : A ≠ []) :
    (A ++ s).head? = A.head? := by
  cases A with
  | nil => exact absurd rfl h
  | cons a A2 => rfl

/-- A replicate of spaces is empty or ends in a space. -/
theorem replicate_space_sep (n : Nat) :
    List.replicate n ' ' = [] ∨
      ∃ ci, (List.replicate n ' ').getLast? = some ci ∧ pyIsSpace ci = true := by
  cases n with
  | zero => exact Or.inl rfl
  | succ m =>
    right
    refine ⟨' ', ?_, by decide⟩
    rw [List.replicate_succ']
    exact List.getLast?_concat _

/-- A replicate of spaces has no words. -/
theorem pySplit_replicate_space (n : Nat) :
    pySplit (List.replicate n ' ') = [] :=
  (pySplit_eq_nil_iff _).mpr (replicate_space_all_ws n)

/-- `flatMap` of `pySplit` as a flattened map. -/
theorem flatMap_pySplit_eq (ls : List (List Char)) :
    ls.flatMap pySplit = (ls.map pySplit).flatten := by
  induction ls with
  | nil => rfl
  | cons x xs ih => rw [List.flatMap_cons, List.map_cons, List.flatten_cons, ih]

/-- The nonempty default head of a list is a member. -/
theorem headD_mem_of_ne {l : List (List Char)} (h : l.headD [] ≠ []) :
    l.headD [] ∈ l := by
  cases l with
  | nil => exact absurd rfl h
  | cons a l2 => exact List.mem_cons_self _ _

/-- Words of a block's flat contents: one line's stripped words, then the
rest. The first token of the left-stripped first line is a prefix of the
contents, and dropping it then left-stripping leaves exactly the
remaining words. -/
theorem marker_prefix_words (ls R bp : List Char)
    (hlsl : lstrip ls = ls) (hR : R = [] ∨ ∃ R2, R = ' ' :: R2)
    (hbp : bp = (pySplit ls).headD []) (hbpne : bp ≠ []) :
    pySplit (rstrip ls ++ R) =
      bp :: pySplit (lstrip ((rstrip ls ++ R).drop bp.length)) ∧
    bp ∈ pySplit ls := by
  have hpne : pySplit ls ≠ [] := by
    intro h
    rw [h] at hbp
    exact hbpne hbp
  have hlsne : ls ≠ [] := by
    intro h
    apply hpne
    rw [h]
    rfl
  obtain ⟨c, ls1, rfl⟩ : ∃ c ls1, ls = c :: ls1 := by
    cases ls with
    | nil => exact absurd rfl hlsne
    | cons a l2 => exact ⟨a, l2, rfl⟩
  have hc : pyIsSpace c = false := lstrip_head_not_space hlsl
  have hsp := pySplit_cons_of_head_not_space c ls1 hc
  have hbp2 : bp = firstToken (c :: ls1) := by
    rw [hbp, hsp]
    rfl
  have hmem : bp ∈ pySplit (c :: ls1) := by
    rw [hsp, hbp2]
    exact List.mem_cons_self _ _
  have hbpall : bp.all (fun x => !pyIsSpace x) = true := (mem_pySplit_all_nonws hmem).2
  have hdecls : c :: ls1 =
      firstToken (c :: ls1) ++ (c :: ls1).dropWhile (fun x => !pyIsSpace x) := by
    unfold firstToken
    rw [List.takeWhile_append_dropWhile]
  have hdhead : ∀ c2, ((c :: ls1).dropWhile (fun x => !pyIsSpace x)).head? = some c2 →
      pyIsSpace c2 = true := by
    intro c2 hc2
    cases hd : (c :: ls1).dropWhile (fun x => !pyIsSpace x) with
    | nil =>
      rw [hd] at hc2
      exact Option.noConfusion hc2
    | cons e d2 =>
      rw [hd] at hc2
      injection hc2 with hc3
      rw [← hc3]
      have := dropWhile_head_not hd
      simpa using this
  have hRhead : ∀ c2, R.head? = some c2 → pyIsSpace c2 = true := by
    intro c2 hc2
    rcases hR with rfl | ⟨R2, rfl⟩
    · exact Option.noConfusion hc2
    · injection hc2 with hc3
      rw [← hc3]
      decide
  obtain ⟨cl, hcl1, hcl2⟩ := all_nonws_getLast hbpne hbpall
  by_cases hrd : rstrip ((c :: ls1).dropWhile (fun x => !pyIsSpace x)) = []
  · have hdall := (rstrip_eq_nil_iff _).mp hrd
    have hrls : rstrip (c :: ls1) = bp := by
      conv_lhs => rw [hdecls]
      rw [rstrip_append_all_ws hdall, ← hbp2]
      exact rstrip_eq_self_of_getLast hcl1 hcl2
    rw [hrls, List.drop_left]
    refine ⟨?_, hmem⟩
    rw [pySplit_lstrip]
    exact pySplit_word_then_ws bp R hbpne hbpall hRhead
  · have hrls : rstrip (c :: ls1) =
        bp ++ rstrip ((c :: ls1).dropWhile (fun x => !pyIsSpace x)) := by
      conv_lhs => rw [hdecls]
      rw [rstrip_append_right _ _ hrd, ← hbp2]
    have hYhead : ∀ c2,
        (rstrip ((c :: ls1).dropWhile (fun x => !pyIsSpace x)) ++ R).head? = some c2 →
        pyIsSpace c2 = true := by
      intro c2 hc2
      rw [head_append_left _ _ hrd] at hc2
      apply hdhead c2
      obtain ⟨sfx, hdec2, _⟩ := rstrip_decomp ((c :: ls1).dropWhile (fun x => !pyIsSpace x))
      rw [hdec2, head_append_left _ _ hrd]
      exact hc2
    rw [hrls, List.append_assoc, List.drop_left]
    refine ⟨?_, hmem⟩
    rw [pySplit_lstrip]
    exact pySplit_word_then_ws bp _ hbpne hbpall hYhead

/-- When a marker is recognized, the remainder is the contents after the
marker, left-stripped. -/
theorem bulletMarkerSplit_snd (ls ct : List Char)
    (h : (bulletMarkerSplit ls ct).1 ≠ []) :
    (bulletMarkerSplit ls ct).2 =
      lstrip (ct.drop (bulletMarkerSplit ls ct).1.length) := by
  unfold bulletMarkerSplit at h ⊢
  by_cases h1 : ((ls.head? == some '-' || ls.head? == some '*' ||
      ls.head? == some '+') && decide ((pySplit ls).length > 1)) = true
  · rw [if_pos h1]
  · rw [if_neg h1] at h ⊢
    by_cases h2 : pyIsDigit (rstripDots (ls.takeWhile (· != ' '))) = true
    · rw [if_pos h2] at h ⊢
      by_cases h3 : (((pySplit ls).headD []).getLast? == some '.') = true
      · rw [if_pos h3]
      · rw [if_neg h3] at h
        exact absurd rfl h
    · rw [if_neg h2] at h
      exact absurd rfl h

/-- Words of the contents split at a recognized marker: the marker is the
first word, and the remainder text holds exactly the rest. -/
theorem bulletMarkerSplit_words (ls ct R : List Char) (hlsl : lstrip ls = ls)
    (hbp : (bulletMarkerSplit ls ct).1 ≠ [])
    (hR : R = [] ∨ ∃ R2, R = ' ' :: R2) (hct : ct = rstrip ls ++ R) :
    pySplit ct =
      (bulletMarkerSplit ls ct).1 :: pySplit (bulletMarkerSplit ls ct).2 ∧
    (bulletMarkerSplit ls ct).1 ∈ pySplit ls := by
  subst hct
  rcases bulletMarkerSplit_fst ls (rstrip ls ++ R) with h0 | h0
  · exact absurd h0 hbp
  obtain ⟨hw, hmem⟩ := marker_prefix_words ls R _ hlsl hR h0 hbp
  refine ⟨?_, hmem⟩
  rw [bulletMarkerSplit_snd ls _ hbp]
  exact hw

/-- Words of a block's contents are the words of its lines, in order. -/
theorem blockContents_words (block : List (List Char))
    (h : ∀ l ∈ block, (strip l).isEmpty = false) :
    pySplit (blockContents block) = (block.map pySplit).flatten := by
  unfold blockContents
  have hfe : ((block.map strip).filter (fun s => !s.isEmpty)) = block.map strip := by
    apply List.filter_eq_self.mpr
    intro a ha
    rcases List.mem_map.mp ha with ⟨l, hl, rfl⟩
    simp [h l hl]
  rw [hfe, pySplit_intercalate_sep ' ' (by decide), List.map_map]
  congr 1
  apply List.map_congr_left
  intro l _
  exact pySplit_strip l

/-! ### Fixed-point computation helpers -/

/-- `splitlines` of a newline-terminated single line. -/
theorem splitlinesAux_append_nl :
    ∀ (A acc : List Char), '\n' ∉ A →
      splitlinesAux (A ++ ['\n']) acc = [acc.reverse ++ A] := by
  intro A
  induction A with
  | nil =>
    intro acc _
    show splitlinesAux ['\n'] acc = [acc.reverse ++ []]
    unfold splitlinesAux
    rw [if_pos (by decide)]
    unfold splitlinesAux
    rw [if_pos (by decide : (([] : List Char)).isEmpty = true)]
    rw [List.append_nil]
  | cons c A2 ih =>
    intro acc hnl
    have hc : (c == '\n') = false := by
      cases hx : (c == '\n') with
      | false => rfl
      | true =>
        exfalso
        apply hnl
        have : c = '\n' := by simpa using hx
        rw [this]
        exact List.mem_cons_self _ _
    show splitlinesAux (c :: (A2 ++ ['\n'])) acc = [acc.reverse ++ c :: A2]
    unfold splitlinesAux
    rw [if_neg (by simp [hc])]
    rw [ih (c :: acc) (fun h => hnl (List.mem_cons_of_mem _ h))]
    rw [List.reverse_cons, List.append_assoc]
    rfl

/-- Tab expansion is the identity on tab-free strings. -/
theorem expandTabsAux_id :
    ∀ (l : List Char), (∀ c ∈ l, (c == '\t') = false) →
      ∀ col, expandTabsAux l col = l := by
  intro l
  induction l with
  | nil => intro _ _; rfl
  | cons c l2 ih =>
    intro h col
    have hc := h c (List.mem_cons_self _ _)
    by_cases hnl : (c == '\n' || c == '\r') = true
    · rw [expandTabsAux_cons_nlcr c l2 col hc hnl,
        ih (fun x hx => h x (List.mem_cons_of_mem _ hx)) 0]
    · rw [expandTabsAux_cons_other c l2 col hc (by
        cases hx : (c == '\n' || c == '\r') with
        | false => rfl
        | true => exact absurd hx hnl),
        ih (fun x hx => h x (List.mem_cons_of_mem _ hx)) (col + 1)]

/-- Whitespace replacement is the identity when the only whitespace is
the space character. -/
theorem replaceWs_id (l : List Char)
    (h : ∀ c ∈ l, pyIsSpace c = true → c = ' ') : replaceWs l = l := by
  unfold replaceWs
  induction l with
  | nil => rfl
  | cons c l2 ih =>
    rw [List.map_cons]
    have hc : (if pyIsSpace c then ' ' else c) = c := by
      by_cases hx : pyIsSpace c = true
      · rw [if_pos hx, h c (List.mem_cons_self _ _) hx]
      · rw [if_neg hx]
    rw [hc, ih (fun x hx2 => h x (List.mem_cons_of_mem _ hx2))]

/-- Munging is the identity when the only whitespace is the space. -/
theorem munge_id (l : List Char)
    (h : ∀ c ∈ l, pyIsSpace c = true → c = ' ') : munge l = l := by
  unfold munge expandTabs
  rw [expandTabsAux_id l (fun c hc => by
    cases hx : (c == '\t') with
    | false => rfl
    | true =>
      exfalso
      have hct : c = '\t' := by simpa using hx
      have := h c hc (by rw [hct]; decide)
      rw [hct] at this
      exact absurd this (by decide)) 0]
  exact replaceWs_id l h

/-- The total chunk length is the flattened length. -/
theorem sumLen_flatten (L : List (List Char)) : sumLen L = L.flatten.length := by
  induction L with
  | nil => rfl
  | cons x xs ih =>
    unfold sumLen at ih ⊢
    rw [List.map_cons, List.sum_cons, List.flatten_cons, List.length_append, ih]

/-- When everything fits, the greedy take consumes all chunks. -/
theorem takeFit_all (avail : Int) :
    ∀ (l : List (List Char)) (curLen : Int),
      curLen + (sumLen l : Int) ≤ avail → takeFit avail curLen l = (l, []) := by
  intro l
  induction l with
  | nil => intro curLen _; rfl
  | cons c cs ih =>
    intro curLen hle
    have hsum : sumLen (c :: cs) = c.length + sumLen cs := by
      unfold sumLen
      rw [List.map_cons, List.sum_cons]
    rw [hsum] at hle
    push_cast at hle
    unfold takeFit
    rw [if_pos (by omega)]
    rw [ih (curLen + (c.length : Int)) (by push_cast; omega)]

/-- `rstrip` never lengthens a string. -/
theorem rstrip_length_le (l : List Char) : (rstrip l).length ≤ l.length := by
  unfold rstrip
  rw [List.length_reverse]
  have := (List.dropWhile_sublist (l := l.reverse) pyIsSpace).length_le
  rw [List.length_reverse] at this
  exact this

/-- The last chunk of a right-trim-invariant nonempty string is not
whitespace. -/
theorem splitChunks_last_nonws (l : List Char) (hne : l ≠ []) (hr : rstrip l = l) :
    (strip ((splitChunks l).getLast?.getD [])).isEmpty = false := by
  have hcne : splitChunks l ≠ [] := by
    intro h
    apply hne
    rw [← splitChunks_flatten l, h]
    rfl
  have hgl := List.getLast?_eq_getLast (splitChunks l) hcne
  rw [hgl]
  simp only [Option.getD_some]
  set lc := (splitChunks l).getLast hcne with hlc
  have hmem : lc ∈ splitChunks l := mem_of_getLastSome hgl
  obtain ⟨hlcne, hhom⟩ := mem_splitChunks l lc hmem
  rcases hhom with hws | hnws
  · exfalso
    have hdec : splitChunks l = (splitChunks l).dropLast ++ [lc] :=
      (List.dropLast_concat_getLast hcne).symm
    have hflat : l = (splitChunks l).dropLast.flatten ++ lc := by
      conv_lhs => rw [← splitChunks_flatten l, hdec]
      rw [List.flatten_append, List.flatten_cons, List.flatten_nil, List.append_nil]
    have hrl : rstrip l = rstrip ((splitChunks l).dropLast.flatten) := by
      conv_lhs => rw [hflat]
      exact rstrip_append_all_ws hws
    have hlen : (rstrip l).length < l.length := by
      rw [hrl]
      have h1 := rstrip_length_le ((splitChunks l).dropLast.flatten)
      have h2 : l.length = (splitChunks l).dropLast.flatten.length + lc.length := by
        have h4 := congrArg List.length hflat
        rw [List.length_append] at h4
        exact h4
      have h3 : 0 < lc.length := List.length_pos.mpr hlcne
      omega
    rw [hr] at hlen
    omega
  · rw [strip_isEmpty_false_iff]
    intro hall
    cases hlx : lc with
    | nil => exact hlcne hlx
    | cons a lc2 =>
      have h1 := List.all_eq_true.mp hall a (by rw [hlx]; exact List.mem_cons_self _ _)
      have h2 := List.all_eq_true.mp hnws a (by rw [hlx]; exact List.mem_cons_self _ _)
      rw [h1] at h2
      exact Bool.noConfusion h2

/-- Without the leading-whitespace drop, a step is one line construction. -/
theorem wrapStep_no_drop (W : Nat) (ind : List Char) (chunks : List (List Char)) :
    wrapStep W ind false chunks = wrapLineCore W ind chunks := by
  unfold wrapStep
  cases chunks with
  | nil => rfl
  | cons c cs => simp

/-- When every chunk fits and the last is not whitespace, one line
construction emits everything as a single line. -/
theorem wrapLineCore_all_fit (W : Nat) (ind : List Char) (chunks1 : List (List Char))
    (hne : chunks1 ≠ [])
    (hfit : takeFit ((W : Int) - (ind.length : Int)) 0 chunks1 = (chunks1, []))
    (hlast : (strip (chunks1.getLast?.getD [])).isEmpty = false) :
    wrapLineCore W ind chunks1 = (some (ind ++ chunks1.flatten), []) := by
  have hp2 : (takeFit ((W : Int) - (ind.length : Int)) 0 chunks1).2 = [] := by
    rw [hfit]
  have hp1 : (takeFit ((W : Int) - (ind.length : Int)) 0 chunks1).1 = chunks1 := by
    rw [hfit]
  unfold wrapLineCore
  simp only [hp2, hp1]
  unfold wrapEmit
  simp only
  have hdtw : dropTrailingWs chunks1 = chunks1 := by
    unfold dropTrailingWs
    rw [if_neg (by simp [hlast])]
  rw [hdtw]
  have hie : chunks1.isEmpty = false := by
    cases hx : chunks1 with
    | nil => exact absurd hx hne
    | cons u us => rfl
  rw [if_neg (by simp [hie])]

/-- The wrapping loop stops on an empty chunk list. -/
theorem wrapChunksGo_nil (W : Nat) (ini subs : List Char) (fuel : Nat) (first : Bool) :
    wrapChunksGo W ini subs fuel first [] = [] := by
  cases fuel with
  | zero => rfl
  | succ n => rfl

/-! ### Claim C3: bullet line classification -/

/-- Claim C3, counterexamples to the claim as stated: a lone `1.` (no
trailing text) is classified as a bullet line, a digit token without a
terminating dot (`1 foo`) is classified as a bullet line, and a dash not
followed by whitespace (`-foo bar`) is classified as a bullet line. -/
theorem c3_bullet_iff_counterexample :
    isBulletLine ['1', '.'] = true ∧
    isBulletLine ['1', ' ', 'f', 'o', 'o'] = true ∧
    isBulletLine ['-', 'f', 'o', 'o', ' ', 'b', 'a', 'r'] = true := by
  refine ⟨?_, ?_, ?_⟩ <;> rfl

/-- Claim C3 as amended: a line is classified as a bullet/numbered list
item if and only if its stripped content is nonempty and either begins
with one of `-`, `*`, `+` and contains a second whitespace-separated
token (the marker need not be followed by whitespace), or its first
token, after removing trailing dots, is a nonempty digit string (in which
case no trailing text and no terminating dot are required). -/
theorem c3_bullet_iff_amended (line : List Char) :
    isBulletLine line = true ↔ bulletLineSpec line := by
  unfold isBulletLine bulletLineSpec
  cases hs : lstrip line with
  | nil => simp
  | cons c cs =>
    have hc : pyIsSpace c = false := lstrip_head_not_space hs
    have hps := pySplit_cons_of_head_not_space c cs hc
    have hhead : (pySplit (c :: cs)).headD [] = firstToken (c :: cs) := by
      rw [hps]; rfl
    have hlen : (pySplit (c :: cs)).length > 1 ↔
        lstrip ((c :: cs).dropWhile (fun x => !pyIsSpace x)) ≠ [] := by
      rw [hps, List.length_cons]
      constructor
      · intro h hnil
        rw [← pySplit_eq_nil_iff_lstrip] at hnil
        rw [hnil] at h
        simp at h
      · intro h
        have h' : pySplit ((c :: cs).dropWhile (fun x => !pyIsSpace x)) ≠ [] :=
          fun hnil => h ((pySplit_eq_nil_iff_lstrip _).mp hnil)
        have := List.length_pos.mpr h'
        omega
    simp only [List.isEmpty_cons, Bool.false_eq_true, if_false, hhead]
    rw [show ∀ (b d : Bool), ((if b = true then true else d) = true) ↔
        (b = true ∨ d = true) from by decide]
    simp only [List.head?_cons, Option.some.injEq, Bool.and_eq_true, Bool.or_eq_true,
      beq_iff_eq, decide_eq_true_eq, hlen, ne_eq, List.cons_ne_nil,
      not_false_eq_true, true_and]
    tauto

/-! ### Claim C9: empty input -/

/-- Claim C9: for the empty input string and any indent and width,
`format_text` returns exactly the one-character string `"\n"`. -/
theorem c9_empty_input (indent width : Nat) : format_text [] indent width = ['\n'] := rfl

/-! ### Claim C8: totality -/

/-- Claim C8: `format_text` is a total function of its three arguments:
on every input text (empty, malformed, mixed tabs and spaces alike) it is
defined and deterministically returns a string, namely a body with no
trailing whitespace followed by one newline. In the shallow embedding
totality is witnessed by `format_text` being a total Lean function whose
output always has this shape. -/
theorem c8_engine_total (text : List Char) (indent width : Nat) :
    ∃ body, format_text text indent width = body ++ ['\n'] ∧ rstrip body = body :=
  ⟨rstrip (List.intercalate ['\n'] (normalizeAux (paragraphsOf text indent width) false false)),
    rfl, rstrip_idem _⟩

/-! ### Claim C10: preformatted check takes precedence over bullets -/

/-- Claim C10: a line that is a bullet line and also preformatted (tab or
four-space indented) is isolated into its own single-line block, and the
preformatted check at flush time wins: the block renders verbatim modulo
the trailing-whitespace trim, and that verbatim rendering is one of the
output paragraphs. -/
theorem c10_bullet_preformatted_precedence (text line : List Char) (indent width : Nat)
    (hmem : line ∈ splitlines text) (hbul : isBulletLine line = true)
    (hpre : isPreformatted [line] = true) :
    [line] ∈ blocksOf (splitlines text) ∧
      renderBlock indent width [line] = rstrip line ∧
      rstrip line ∈ paragraphsOf text indent width := by
  have hiso := segmentAux_bullet_isolated (splitlines text) [] line hmem hbul
  have hrender : renderBlock indent width [line] = rstrip line := by
    unfold renderBlock
    rw [if_neg (by simp), if_pos hpre, intercalate_singleton_line]
  refine ⟨hiso, hrender, ?_⟩
  rw [← hrender]
  exact List.mem_map_of_mem _ hiso

/-- Witness for claim C10 at the concrete input `"\t- a b\nx"`, indent 2,
width 72: the tab-indented bullet line is its own block, and is emitted
verbatim rather than re-wrapped as a bullet. -/
theorem c10_bullet_preformatted_precedence_witness :
    [("\t- a b").toList] ∈ blocksOf (splitlines (("\t- a b\nx").toList)) ∧
      renderBlock 2 72 [("\t- a b").toList] = rstrip (("\t- a b").toList) ∧
      rstrip (("\t- a b").toList) ∈ paragraphsOf (("\t- a b\nx").toList) 2 72 :=
  c10_bullet_preformatted_precedence (("\t- a b\nx").toList) (("\t- a b").toList) 2 72
    (by decide) (by decide) (by decide)

/-! ### Claim C1: preformatted blocks are reproduced verbatim -/

/-- Claim C1, counterexample to the claim as stated: fence markers do not
delimit runs in the segmentation — a bullet line between two fence lines
is still isolated and re-indented, so the fenced run `"```\n- a b\n```"`
is not reproduced with identical internal line content: with indent 2 its
middle line comes back as `"  - a b"`. -/
theorem c1_preformatted_counterexample :
    splitlines (format_text (("```\n- a b\n```").toList) 2 72) =
      [("```").toList, ("  - a b").toList, ("```").toList] ∧
      ("  - a b").toList ≠ ("- a b").toList := by
  refine ⟨by decide, by decide⟩

/-- Claim C1 as amended: any block, as segmented by blank lines and
bullet lines, some nonblank line of which starts with a triple backtick,
four spaces, or a tab (at the start of the raw line), is rendered
verbatim — its lines joined by newlines, with only a single
trailing-whitespace trim of the whole block — and this rendering is one
of the paragraphs assembled into the output. -/
theorem c1_preformatted_amended (text : List Char) (indent width : Nat)
    (b : List (List Char)) (hb : b ∈ blocksOf (splitlines text))
    (hpre : isPreformatted b = true) :
    renderBlock indent width b = rstrip (List.intercalate ['\n'] b) ∧
      rstrip (List.intercalate ['\n'] b) ∈ paragraphsOf text indent width := by
  have hne : b ≠ [] := by
    intro h
    rw [h] at hpre
    exact absurd hpre (by decide)
  have hrender : renderBlock indent width b = rstrip (List.intercalate ['\n'] b) := by
    unfold renderBlock
    rw [if_neg (by simpa using hne), if_pos hpre]
  refine ⟨hrender, ?_⟩
  rw [← hrender]
  exact List.mem_map_of_mem _ hb

/-- Witness for claim C1 as amended at the concrete input
`"```\nx y\n```"`, indent 4, width 10: the fenced block (one block, since
it contains no blank or bullet line) is reproduced verbatim. -/
theorem c1_preformatted_amended_witness :
    renderBlock 4 10 [("```").toList, ("x y").toList, ("```").toList] =
        rstrip (List.intercalate ['\n']
          [("```").toList, ("x y").toList, ("```").toList]) ∧
      rstrip (List.intercalate ['\n']
          [("```").toList, ("x y").toList, ("```").toList]) ∈
        paragraphsOf (("```\nx y\n```").toList) 4 10 :=
  c1_preformatted_amended (("```\nx y\n```").toList) 4 10
    [("```").toList, ("x y").toList, ("```").toList] (by decide) (by decide)

/-! ### Claim C7: blank-line discipline and the trailing newline -/

/-- Claim C7: the output of `format_text` is a body followed by exactly
one newline; when the body is nonempty it ends in a non-whitespace
character (so there is no second trailing newline and no trailing blank
line), its first line is not blank, and no two adjacent body lines are
both blank. -/
theorem c7_blank_discipline (text : List Char) (indent width : Nat) :
    ∃ body, format_text text indent width = body ++ ['\n'] ∧
      (body = [] ∨
        ((∃ c, body.getLast? = some c ∧ pyIsSpace c = false) ∧
          (strip ((splitNl body).headD [])).isEmpty = false ∧
          List.Chain' (fun a b =>
            ¬((strip a).isEmpty = true ∧ (strip b).isEmpty = true)) (splitNl body))) := by
  refine ⟨rstrip (List.intercalate ['\n']
    (normalizeAux (paragraphsOf text indent width) false false)), rfl, ?_⟩
  have hstruct := normalizeAux_structure (paragraphsOf text indent width) false false
  have hres := assembled_body_lines
    (normalizeAux (paragraphsOf text indent width) false false) (fun _ => True)
    (fun q hq => hstruct.1 q (Or.inr rfl) hq)
    hstruct.2
    (fun p hp hpne => by
      rcases normalizeAux_subset (paragraphsOf text indent width) false false p hp
        with h | h
      · exact absurd h hpne
      · obtain ⟨hend, hlines⟩ := paragraph_splitNl_spec text indent width p h hpne
        exact ⟨hend, fun y hy => ⟨(hlines y hy).1, trivial⟩⟩)
    trivial
  rcases hres with h | ⟨h1, h2, h3, _⟩
  · exact Or.inl h
  · exact Or.inr ⟨h1, h2, h3⟩

/-! ### Claim C4: the width bound -/

/-- Claim C4, counterexample to the claim as stated: with width 5, the
input consisting of one four-space-indented line `    a b` is preformatted
and reproduced verbatim, so the output contains a line of length 7 that
holds two words, not a single unbreakable one. -/
theorem c4_width_counterexample :
    ∃ x, x ∈ splitNl (format_text ("    a b").toList 0 5) ∧
      5 < x.length ∧ 1 < (pySplit x).length := by
  decide

/-- Claim C4 as amended: every output line of `format_text` fits the
width, or is reproduced verbatim from a preformatted block, or consists
of one of the wrap indents followed by a single unbroken word. -/
theorem c4_width_amended (text : List Char) (indent width : Nat) :
    ∀ x ∈ splitNl (format_text text indent width),
      x.length ≤ width ∨
      (∃ b, b ∈ blocksOf (splitlines text) ∧ isPreformatted b = true ∧
        x ∈ splitNl (renderBlock indent width b)) ∨
      (∃ b, b ∈ blocksOf (splitlines text) ∧ ∃ w, w ≠ [] ∧
        w.all (fun c => !pyIsSpace c) = true ∧
        (x = blockIni b indent ++ w ∨ x = blockSubs b indent ++ w)) := by
  intro x hx
  have hstruct := normalizeAux_structure (paragraphsOf text indent width) false false
  have hres := assembled_body_lines
    (normalizeAux (paragraphsOf text indent width) false false)
    (fun y => y.length ≤ width ∨
      (∃ b, b ∈ blocksOf (splitlines text) ∧ isPreformatted b = true ∧
        y ∈ splitNl (renderBlock indent width b)) ∨
      (∃ b, b ∈ blocksOf (splitlines text) ∧ ∃ w, w ≠ [] ∧
        w.all (fun c => !pyIsSpace c) = true ∧
        (y = blockIni b indent ++ w ∨ y = blockSubs b indent ++ w)))
    (fun q hq => hstruct.1 q (Or.inr rfl) hq)
    hstruct.2
    (fun p hp hpne => by
      rcases normalizeAux_subset (paragraphsOf text indent width) false false p hp
        with h | h
      · exact absurd h hpne
      · obtain ⟨hend, hlines⟩ := paragraph_splitNl_spec text indent width p h hpne
        refine ⟨hend, fun y hy => ⟨(hlines y hy).1, ?_⟩⟩
        rcases (hlines y hy).2 with ⟨b, hb1, hb2, hb3⟩ | hlen | hword
        · right
          left
          refine ⟨b, hb1, hb2, ?_⟩
          rw [← hb3]
          exact hy
        · left
          exact hlen
        · right
          right
          exact hword)
    (Or.inl (by simp))
  rw [show format_text text indent width =
      rstrip (List.intercalate ['\n']
        (normalizeAux (paragraphsOf text indent width) false false)) ++ ['\n'] from rfl,
    splitNl_append_nl] at hx
  rcases List.mem_append.mp hx with hx1 | hx2
  · rcases hres with hb0 | ⟨_, _, _, hall⟩
    · rw [hb0] at hx1
      rcases List.mem_singleton.mp hx1 with rfl
      exact Or.inl (by simp)
    · exact hall x hx1
  · rcases List.mem_singleton.mp hx2 with rfl
    exact Or.inl (by simp)

/-- Witness for the amended claim C4 at the preformatted input `    a b`
with width 5: its single output line satisfies the stated disjunction. -/
theorem c4_width_amended_witness :
    ("    a b").toList.length ≤ 5 ∨
    (∃ b, b ∈ blocksOf (splitlines ("    a b").toList) ∧ isPreformatted b = true ∧
      ("    a b").toList ∈ splitNl (renderBlock 0 5 b)) ∨
    (∃ b, b ∈ blocksOf (splitlines ("    a b").toList) ∧ ∃ w, w ≠ [] ∧
      w.all (fun c => !pyIsSpace c) = true ∧
      (("    a b").toList = blockIni b 0 ++ w ∨
        ("    a b").toList = blockSubs b 0 ++ w)) :=
  c4_width_amended ("    a b").toList 0 5 ("    a b").toList (by decide)

/-! ### Claim C5: word preservation -/

/-- Claim C5, counterexample to the claim as stated: the single-line
block `1.` is classified as a numbered item, yet its rendering is the
empty string — the marker token is dropped entirely rather than preserved
as a structural prefix, and the output words (none) differ from the input
words (`1.`). -/
theorem c5_word_preservation_counterexample :
    isBulletLine ['1', '.'] = true ∧
    blockBullet [['1', '.']] = ['1', '.'] ∧
    ([[('1' : Char), '.']].map pySplit).flatten = [['1', '.']] ∧
    formatParagraph [['1', '.']] 0 72 = [] := by
  decide

/-- Claim C5 as amended: for a block of nonblank lines, the words of the
rendered paragraph are exactly the words of the input lines in order
(with a recognized bullet marker staying in place as the first word) —
except that a recognized marker with no following text renders as the
empty string, dropping the marker. -/
theorem c5_word_preservation_amended (block : List (List Char)) (indent width : Nat)
    (hnb : ∀ l ∈ block, (strip l).isEmpty = false) :
    pySplit (formatParagraph block indent width) = (block.map pySplit).flatten ∨
    (blockBullet block ≠ [] ∧ formatParagraph block indent width = []) := by
  unfold formatParagraph formatParagraphLines
  simp only
  by_cases hc : (blockContents block).isEmpty = true
  · left
    rw [if_pos hc]
    have hcnil : blockContents block = [] := by
      cases hx : blockContents block with
      | nil => rfl
      | cons u us =>
        rw [hx] at hc
        exact Bool.noConfusion hc
    rw [← blockContents_words block hnb, hcnil]
    rfl
  · rw [if_neg hc]
    have hbase_sep := replicate_space_sep indent
    have hbase_words := pySplit_replicate_space indent
    have hbase_all := replicate_space_all_ws indent
    by_cases hbp : (bulletMarkerSplit (lstrip (block.headD []))
        (blockContents block)).1.isEmpty = true
    · left
      rw [if_pos hbp, if_pos hbp, if_pos hbp]
      rcases wrapLines_words width (List.replicate indent ' ') (List.replicate indent ' ')
        (blockContents block) hbase_sep hbase_sep hbase_words with ⟨h1, h2⟩ | h
      · rw [h1, ← blockContents_words block hnb, ← pySplit_munge (blockContents block), h2]
        rfl
      · rw [pySplit_intercalate_sep '\n' (by decide), ← flatMap_pySplit_eq, h,
          hbase_words, List.nil_append, pySplit_munge, blockContents_words block hnb]
    · rw [if_neg hbp, if_neg hbp, if_neg hbp]
      have hbpne : (bulletMarkerSplit (lstrip (block.headD []))
          (blockContents block)).1 ≠ [] := by
        intro h0
        rw [h0] at hbp
        exact hbp rfl
      obtain ⟨hd, tl, rfl⟩ : ∃ hd tl, block = hd :: tl := by
        cases hb2 : block with
        | nil =>
          exfalso
          apply hc
          rw [hb2]
          rfl
        | cons a l => exact ⟨a, l, rfl⟩
      have hlsl : lstrip (lstrip ((hd :: tl).headD [])) = lstrip ((hd :: tl).headD []) := by
        unfold lstrip
        exact dropWhile_idem pyIsSpace hd
      obtain ⟨R, hR, hct⟩ : ∃ R, (R = [] ∨ ∃ R2, R = ' ' :: R2) ∧
          blockContents (hd :: tl) = rstrip (lstrip ((hd :: tl).headD [])) ++ R := by
        have hfe : (((hd :: tl).map strip).filter (fun s => !s.isEmpty)) =
            (hd :: tl).map strip := by
          apply List.filter_eq_self.mpr
          intro a ha
          rcases List.mem_map.mp ha with ⟨l, hl, rfl⟩
          simp [hnb l hl]
        cases tl with
        | nil =>
          refine ⟨[], Or.inl rfl, ?_⟩
          unfold blockContents
          rw [hfe]
          rw [List.map_cons, List.map_nil, intercalate_singleton_sep, List.append_nil]
          rfl
        | cons l2 tl2 =>
          refine ⟨' ' :: List.intercalate [' '] ((l2 :: tl2).map strip),
            Or.inr ⟨_, rfl⟩, ?_⟩
          unfold blockContents
          rw [hfe, List.map_cons, List.map_cons, intercalate_cons_cons_sep]
          rfl
      obtain ⟨hctw, hmem⟩ := bulletMarkerSplit_words (lstrip ((hd :: tl).headD []))
        (blockContents (hd :: tl)) R hlsl hbpne hR hct
      obtain ⟨hwne, hwall⟩ := mem_pySplit_all_nonws hmem
      have hsepI : List.replicate indent ' ' ++
          (bulletMarkerSplit (lstrip ((hd :: tl).headD []))
            (blockContents (hd :: tl))).1 ++ [' '] = [] ∨
          ∃ ci, (List.replicate indent ' ' ++
            (bulletMarkerSplit (lstrip ((hd :: tl).headD []))
              (blockContents (hd :: tl))).1 ++ [' ']).getLast? = some ci ∧
            pyIsSpace ci = true := by
        right
        refine ⟨' ', ?_, by decide⟩
        exact List.getLast?_concat _
      have hsepS : List.replicate indent ' ' ++
          List.replicate ((bulletMarkerSplit (lstrip ((hd :: tl).headD []))
            (blockContents (hd :: tl))).1.length + 1) ' ' = [] ∨
          ∃ ci, (List.replicate indent ' ' ++
            List.replicate ((bulletMarkerSplit (lstrip ((hd :: tl).headD []))
              (blockContents (hd :: tl))).1.length + 1) ' ').getLast? = some ci ∧
            pyIsSpace ci = true := by
        right
        refine ⟨' ', ?_, by decide⟩
        rw [List.replicate_succ', ← List.append_assoc]
        exact List.getLast?_concat _
      have hsubs : pySplit (List.replicate indent ' ' ++
          List.replicate ((bulletMarkerSplit (lstrip ((hd :: tl).headD []))
            (blockContents (hd :: tl))).1.length + 1) ' ') = [] := by
        apply (pySplit_eq_nil_iff _).mpr
        rw [List.all_append]
        rw [replicate_space_all_ws, replicate_space_all_ws]
        rfl
      have hiniw : pySplit (List.replicate indent ' ' ++
          (bulletMarkerSplit (lstrip ((hd :: tl).headD []))
            (blockContents (hd :: tl))).1 ++ [' ']) =
          [(bulletMarkerSplit (lstrip ((hd :: tl).headD []))
            (blockContents (hd :: tl))).1] := by
        rw [List.append_assoc, pySplit_ws_before _ _ hbase_all,
          pySplit_word_then_ws _ [' '] hwne hwall (by
            intro c2 hc2
            injection hc2 with hc3
            rw [← hc3]
            decide)]
        rw [show pySplit [' '] = [] from by decide]
      rcases wrapLines_words width _ _
        (bulletMarkerSplit (lstrip ((hd :: tl).headD [])) (blockContents (hd :: tl))).2
        hsepI hsepS hsubs with ⟨h1, h2⟩ | h
      · right
        constructor
        · intro h0
          apply hbpne
          exact h0
        · rw [h1]
          rfl
      · left
        rw [pySplit_intercalate_sep '\n' (by decide), ← flatMap_pySplit_eq, h,
          hiniw, pySplit_munge, ← blockContents_words (hd :: tl) hnb, hctw]
        rfl

/-- Witness for the amended claim C5 at the bullet block `- a b`. -/
theorem c5_word_preservation_amended_witness :
    pySplit (formatParagraph [("- a b").toList] 0 72) =
      ([("- a b").toList].map pySplit).flatten ∨
    (blockBullet [("- a b").toList] ≠ [] ∧
      formatParagraph [("- a b").toList] 0 72 = []) :=
  c5_word_preservation_amended [("- a b").toList] 0 72 (by decide)

/-! ### Claim C2: idempotence -/

/-- Claim C2, counterexample to the claim as stated: `format_text` on
`ab  cd` with width 5 yields `ab\ncd\n`, whose lines are all within the
width, yet rerunning `format_text` on that output with the same
parameters merges the lines into `ab cd\n`: the output is not a fixed
point. -/
theorem c2_idempotence_counterexample :
    format_text (("ab  cd").toList) 0 5 = ("ab\ncd\n").toList ∧
    (∀ x ∈ splitNl (("ab\ncd").toList), x.length ≤ 5) ∧
    format_text (("ab\ncd\n").toList) 0 5 = ("ab cd\n").toList ∧
    ("ab cd\n").toList ≠ ("ab\ncd\n").toList := by
  decide

/-- Claim C2 as amended: `format_text` is a fixed point on an
already-normalized single paragraph line: for content `C` with no
leading or trailing whitespace, whose only whitespace is the plain
space, in which no bullet marker is recognized, and which fits in the
width after the indent, the line `indent spaces ++ C` with one trailing
newline reformats to itself. -/
theorem c2_idempotence_amended (C : List Char) (indent width : Nat)
    (hCl : lstrip C = C) (hCr : rstrip C = C) (hCne : C ≠ [])
    (hws : ∀ c ∈ C, pyIsSpace c = true → c = ' ')
    (hlen : indent + C.length ≤ width)
    (hmark : (bulletMarkerSplit C C).1 = []) :
    format_text (List.replicate indent ' ' ++ C ++ ['\n']) indent width =
      List.replicate indent ' ' ++ C ++ ['\n'] := by
  have hCnl : '\n' ∉ C := by
    intro hmem
    have := hws '\n' hmem (by decide)
    exact absurd this (by decide)
  have hlnl : '\n' ∉ List.replicate indent ' ' ++ C := by
    intro hmem
    rcases List.mem_append.mp hmem with h | h
    · exact absurd (List.eq_of_mem_replicate h) (by decide)
    · exact hCnl h
  have hsl : splitlines (List.replicate indent ' ' ++ C ++ ['\n']) =
      [List.replicate indent ' ' ++ C] := by
    unfold splitlines
    rw [splitlinesAux_append_nl _ [] hlnl]
    rfl
  have hlstrip : lstrip (List.replicate indent ' ' ++ C) = C := by
    unfold lstrip
    rw [dropWhile_append_all _ _ _ (replicate_space_all_ws indent)]
    exact hCl
  have hstrip : strip (List.replicate indent ' ' ++ C) = C := by
    unfold strip
    rw [hlstrip]
    exact hCr
  have hCie : C.isEmpty = false := by
    cases hx : C with
    | nil => exact absurd hx hCne
    | cons u us => rfl
  have hblocks : blocksOf [List.replicate indent ' ' ++ C] =
      [[List.replicate indent ' ' ++ C]] := by
    unfold blocksOf segmentAux
    rw [if_neg (by simp [hstrip, hCie])]
    by_cases hb : isBulletLine (List.replicate indent ' ' ++ C) = true
    · rw [if_pos hb]
      rfl
    · rw [if_neg hb]
      unfold segmentAux
      rw [if_neg (by simp)]
      rfl
  have hbc : blockContents [List.replicate indent ' ' ++ C] = C := by
    unfold blockContents
    rw [List.map_cons, List.map_nil, List.filter_cons, hstrip]
    rw [if_pos (by simp [hCie])]
    rw [List.filter_nil, intercalate_singleton_sep]
  have hmunge : munge C = C := munge_id C hws
  have hrC : List.replicate indent ' ' ++ rstrip C = List.replicate indent ' ' ++ C := by
    rw [hCr]
  have hrender : renderBlock indent width [List.replicate indent ' ' ++ C] =
      List.replicate indent ' ' ++ C := by
    unfold renderBlock
    rw [if_neg (by simp)]
    have hrstripl : rstrip (List.replicate indent ' ' ++ C) =
        List.replicate indent ' ' ++ C := by
      rw [rstrip_append_right _ _ (by rw [hCr]; exact hCne), hCr]
    by_cases hpre : isPreformatted [List.replicate indent ' ' ++ C] = true
    · rw [if_pos hpre, intercalate_singleton_line]
      exact hrstripl
    · rw [if_neg hpre]
      unfold formatParagraph formatParagraphLines
      simp only
      rw [hbc]
      rw [if_neg (by simp [hCie])]
      have hheadD : ([List.replicate indent ' ' ++ C].headD [] : List Char) =
          List.replicate indent ' ' ++ C := rfl
      rw [hheadD, hlstrip]
      have hmie : (bulletMarkerSplit C C).1.isEmpty = true := by
        rw [hmark]
        rfl
      rw [if_pos hmie, if_pos hmie, if_pos hmie]
      unfold wrapLines
      rw [hmunge]
      cases hch : splitChunks C with
      | nil =>
        exfalso
        apply hCne
        rw [← splitChunks_flatten C, hch]
        rfl
      | cons c0 cs0 =>
        have hfit : takeFit ((width : Int) - ((List.replicate indent ' ').length : Int))
            0 (c0 :: cs0) = (c0 :: cs0, []) := by
          apply takeFit_all
          have hsum : sumLen (c0 :: cs0) = C.length := by
            rw [← hch, sumLen_flatten, splitChunks_flatten]
          rw [hsum, List.length_replicate]
          push_cast
          omega
        have hlast : (strip ((c0 :: cs0).getLast?.getD [])).isEmpty = false := by
          rw [← hch]
          exact splitChunks_last_nonws C hCne hCr
        have hflat : (c0 :: cs0).flatten = C := by
          rw [← hch, splitChunks_flatten]
        have hwlc := wrapLineCore_all_fit width (List.replicate indent ' ')
          (c0 :: cs0) (by simp) hfit hlast
        have hred : wrapChunksGo width (List.replicate indent ' ')
            (List.replicate indent ' ') (c0 :: cs0).length true (c0 :: cs0) =
            (match (wrapStep width (List.replicate indent ' ') false (c0 :: cs0)).1 with
            | some line => line :: wrapChunksGo width (List.replicate indent ' ')
                (List.replicate indent ' ') cs0.length false
                (wrapStep width (List.replicate indent ' ') false (c0 :: cs0)).2
            | none => wrapChunksGo width (List.replicate indent ' ')
                (List.replicate indent ' ') cs0.length true
                (wrapStep width (List.replicate indent ' ') false (c0 :: cs0)).2) := rfl
        rw [hred, wrapStep_no_drop, hwlc]
        show List.intercalate ['\n'] ((List.replicate indent ' ' ++ (c0 :: cs0).flatten) ::
          wrapChunksGo width (List.replicate indent ' ') (List.replicate indent ' ')
            cs0.length false []) = _
        rw [wrapChunksGo_nil, hflat, intercalate_singleton_line]
  show rstrip (List.intercalate ['\n'] (normalizeAux (paragraphsOf
    (List.replicate indent ' ' ++ C ++ ['\n']) indent width) false false)) ++ ['\n'] = _
  have hpar : paragraphsOf (List.replicate indent ' ' ++ C ++ ['\n']) indent width =
      [List.replicate indent ' ' ++ C] := by
    unfold paragraphsOf
    rw [hsl, hblocks, List.map_cons, List.map_nil, hrender]
  rw [hpar]
  have hlie : (List.replicate indent ' ' ++ C).isEmpty = false := by
    cases hx : List.replicate indent ' ' ++ C with
    | nil =>
      exfalso
      rcases List.append_eq_nil.mp hx with ⟨_, h2⟩
      exact hCne h2
    | cons u us => rfl
  have hnorm : normalizeAux [List.replicate indent ' ' ++ C] false false =
      [List.replicate indent ' ' ++ C] := by
    unfold normalizeAux
    rw [if_neg (by simp [hlie])]
    rfl
  rw [hnorm, intercalate_singleton_line,
    rstrip_append_right _ _ (by rw [hCr]; exact hCne), hCr, List.append_assoc]

/-- Witness for the amended claim C2 at the line `  ab cd` with indent 2
and width 10. -/
theorem c2_idempotence_amended_witness :
    format_text (List.replicate 2 ' ' ++ ("ab cd").toList ++ ['\n']) 2 10 =
      List.replicate 2 ' ' ++ ("ab cd").toList ++ ['\n'] :=
  c2_idempotence_amended ("ab cd").toList 2 10 (by decide) (by decide) (by decide)
    (by decide) (by decide) (by decide)

end B4Style
